/-
Verification of the step-generator core of the "algorithm visual playground"
library: sorting, graph traversal, pathfinding and tree-recursion step
generators, the FIFO / priority queues they use, and the playback controller.

Each JavaScript function is embedded as an executable Lean definition that
mirrors the source line by line.  JS arrays of numbers are modelled as
`List Int` (the library only ever sorts/compares integer data), JS `Set`s of
"row,col" keys as `Finset Pos`, JS `Map`s as association lists where the most
recent binding shadows older ones, and JS objects with optional fields as
structures with `Option` fields.  The human-readable `description` strings
carried by every step are presentation-only and are not modelled.

Loops whose iteration count is not a direct syntactic bound are embedded with
an explicit fuel parameter; the fuel passed by the top-level entry points is
proved sufficient, so the embedded functions agree with the (always
terminating) source loops.
-/
import Mathlib

namespace AVP

/-- Tag of an animation step (the `type` field of every step object emitted by
any of the generators).  `ret` models the JS string "return", `earlyExit`
"early-exit", `mergeStart` "merge-start", `mergeComplete` "merge-complete",
`pathFound` "path-found", `noPath` "no-path", `nullNode` "null-node". -/
inductive StepType where
  | init | pass | compare | swap | earlyExit
  | select | shift | insert
  | divide | mergeStart | place | mergeComplete
  | visit | discover | backtrack | update
  | pathFound | noPath | complete
  | nullNode | recurse | ret
deriving DecidableEq, Repr

/-- A grid cell `{row, col}` (positions are compared by value: the JS code
keys sets and maps by the string `"row,col"`). -/
structure Pos where
  row : Int
  col : Int
deriving DecidableEq, Repr

/-- helpers.js `getNeighbors`: the 4-directional in-bounds neighbors of
`(row, col)`, in the fixed order up, down, left, right. -/
def getNeighbors (row col rows cols : Int) : List Pos :=
  let directions : List (Int × Int) := [(-1, 0), (1, 0), (0, -1), (0, 1)]
  directions.filterMap (fun d =>
    let newRow := row + d.1
    let newCol := col + d.2
    if 0 ≤ newRow ∧ newRow < rows ∧ 0 ≤ newCol ∧ newCol < cols then
      some ⟨newRow, newCol⟩
    else none)

/-- helpers.js `manhattanDistance`. -/
def manhattanDistance (nodeA nodeB : Pos) : Int :=
  |nodeA.row - nodeB.row| + |nodeA.col - nodeB.col|

/-- helpers.js `swap`: exchange the entries at indices `i` and `j`. -/
def listSwap (arr : List Int) (i j : Nat) : List Int :=
  let a := arr.getD i 0
  let b := arr.getD j 0
  (arr.set i b).set j a

/-- Association-list lookup, modelling JS `Map.get` (keys are value-compared
positions). -/
def mapGet {β : Type} (m : List (Pos × β)) (k : Pos) : Option β :=
  match m with
  | [] => none
  | (k', v) :: rest => if k' = k then some v else mapGet rest k

/-- Association-list update, modelling JS `Map.set`: the new binding shadows
any older binding for the same key. -/
def mapSet {β : Type} (m : List (Pos × β)) (k : Pos) (v : β) : List (Pos × β) :=
  (k, v) :: m

/-- helpers.js `reconstructPath`, inner while loop.  The source walks parent
pointers from the goal back to the start; the fuel argument (one more than the
number of parent-map entries) covers every acyclic chain, which is the only
kind the callers ever build. -/
def reconstructPathGo (parentMap : List (Pos × Pos)) (start : Pos) :
    Nat → Option Pos → List Pos → List Pos
  | 0, _, path => path
  | _ + 1, none, path => path
  | fuel + 1, some current, path =>
      let path' := current :: path
      match mapGet parentMap current with
      | some p =>
          if p = start then start :: path'
          else reconstructPathGo parentMap start fuel (some p) path'
      | none => reconstructPathGo parentMap start fuel none path'

/-- helpers.js `reconstructPath`: walk backward from `endP` through the parent
map, prepending each node, stopping once the start position is reached. -/
def reconstructPath (parentMap : List (Pos × Pos)) (start endP : Pos) : List Pos :=
  reconstructPathGo parentMap start (parentMap.length + 1) (some endP) []

/-- helpers.js `PriorityQueue`: backing list of `{element, priority}` pairs. -/
structure PriorityQueue (α : Type) where
  values : List (α × Int)
deriving DecidableEq

/-- The comparator `(a, b) => a.priority - b.priority` used by
`PriorityQueue.sort`. -/
def byPriority {α : Type} (a b : α × Int) : Prop := a.2 ≤ b.2

instance {α : Type} : DecidableRel (byPriority (α := α)) := fun a b =>
  inferInstanceAs (Decidable (a.2 ≤ b.2))

/-- `PriorityQueue.sort`: JS `Array.prototype.sort` is a stable sort, so the
backing array after `this.sort()` is the stable sort of the backing array by
priority; `List.insertionSort` is stable and is used as the model. -/
def pqSort {α : Type} (values : List (α × Int)) : List (α × Int) :=
  values.insertionSort byPriority

/-- `PriorityQueue.enqueue`: push `{element, priority}` then sort. -/
def PQ.enqueue {α : Type} (q : PriorityQueue α) (element : α) (priority : Int) :
    PriorityQueue α :=
  ⟨pqSort (q.values ++ [(element, priority)])⟩

/-- `PriorityQueue.dequeue`: `values.shift()` — remove and return the first
entry (`none` models the `undefined` returned on an empty queue). -/
def PQ.dequeue {α : Type} (q : PriorityQueue α) :
    Option ((α × Int) × PriorityQueue α) :=
  match q.values with
  | [] => none
  | x :: rest => some (x, ⟨rest⟩)

/-- `PriorityQueue.isEmpty`. -/
def PQ.isEmpty {α : Type} (q : PriorityQueue α) : Bool :=
  q.values.length = 0

/-- helpers.js `Queue` (FIFO, used by BFS). -/
structure Queue (α : Type) where
  items : List α
deriving DecidableEq

/-- `Queue.enqueue`: append. -/
def Queue.enqueueOp {α : Type} (q : Queue α) (element : α) : Queue α :=
  ⟨q.items ++ [element]⟩

/-- `Queue.dequeue`: `items.shift()`. -/
def Queue.dequeueOp {α : Type} (q : Queue α) : Option (α × Queue α) :=
  match q.items with
  | [] => none
  | x :: rest => some (x, ⟨rest⟩)

/-- `Queue.isEmpty`. -/
def Queue.isEmptyOp {α : Type} (q : Queue α) : Bool :=
  q.items.length = 0

/-- `Queue.size`. -/
def Queue.sizeOp {α : Type} (q : Queue α) : Nat :=
  q.items.length

/-- One animation step of a sorting run (sorting.js).  Fields that a given
step type does not carry in the source are `none`. -/
structure SortStep where
  type : StepType
  array : List Int
  indices : Option (List Nat) := none
  sorted : Option (List Nat) := none
  range : Option (Int × Int) := none
  mid : Option Int := none
  depth : Option Nat := none
deriving DecidableEq

/-- Inner `j` loop of `bubbleSort`.  `count` is the number of iterations left
(`n - i - 1 - j` at entry), so the recursion mirrors `for (j = 0; j < n-i-1)`.
Returns the array after the pass, the `swapped` flag, and the emitted steps. -/
def bubbleInner (n i : Nat) :
    Nat → Nat → List Int → Bool → List Int × Bool × List SortStep
  | 0, _, arr, swapped => (arr, swapped, [])
  | count + 1, j, arr, swapped =>
      let sortedSet : List Nat := (List.range i).map (fun idx => n - 1 - idx)
      let cmpStep : SortStep :=
        { type := .compare, array := arr, indices := some [j, j + 1],
          sorted := some sortedSet }
      if arr.getD j 0 > arr.getD (j + 1) 0 then
        let arr' := listSwap arr j (j + 1)
        let swapStep : SortStep :=
          { type := .swap, array := arr', indices := some [j, j + 1],
            sorted := some sortedSet }
        let (a, s, rest) := bubbleInner n i count (j + 1) arr' true
        (a, s, cmpStep :: swapStep :: rest)
      else
        let (a, s, rest) := bubbleInner n i count (j + 1) arr swapped
        (a, s, cmpStep :: rest)

/-- Outer `i` loop of `bubbleSort`.  `count` is the number of iterations left
(`n - 1 - i` at entry); the `early-exit` branch breaks out of the loop. -/
def bubbleOuter (n : Nat) :
    Nat → Nat → List Int → List Int × List SortStep
  | 0, _, arr => (arr, [])
  | count + 1, i, arr =>
      let passStep : SortStep :=
        { type := .pass, array := arr,
          sorted := some ((List.range (n - i)).map (fun idx => n - 1 - idx)) }
      let (arr', swapped, innerSteps) := bubbleInner n i (n - i - 1) 0 arr false
      if swapped then
        let (arr'', rest) := bubbleOuter n count (i + 1) arr'
        (arr'', passStep :: (innerSteps ++ rest))
      else
        (arr', passStep :: (innerSteps ++
          [{ type := .earlyExit, array := arr',
             sorted := some (List.range n) }]))

/-- sorting.js `bubbleSort`: the full emitted step sequence. -/
def bubbleSort (arr : List Int) : List SortStep :=
  let n := arr.length
  let (finalArr, body) := bubbleOuter n (n - 1) 0 arr
  ({ type := .init, array := arr } : SortStep) ::
    (body ++ [{ type := .complete, array := finalArr,
                sorted := some (List.range n) }])

/-- Inner `while (j >= 0 && array[j] > key)` loop of `insertionSort`.  The JS
index `j` ranges down from `i-1` to `-1`; it is encoded as the natural number
`jj = j + 1`, so the loop guard `j >= 0` becomes the pattern `jj + 1`.
Returns the shifted array, the insertion position `j + 1`, and the steps. -/
def insWhile (i : Nat) (key : Int) :
    Nat → List Int → List Int × Nat × List SortStep
  | 0, arr => (arr, 0, [])
  | jj + 1, arr =>
      if arr.getD jj 0 > key then
        let cmpStep : SortStep :=
          { type := .compare, array := arr, indices := some [jj, jj + 1],
            sorted := some (List.range i) }
        let arr' := arr.set (jj + 1) (arr.getD jj 0)
        let shiftStep : SortStep :=
          { type := .shift, array := arr', indices := some [jj, jj + 1],
            sorted := some (List.range i) }
        let (a, p, rest) := insWhile i key jj arr'
        (a, p, cmpStep :: shiftStep :: rest)
      else
        (arr, jj + 1, [])

/-- Outer `i` loop of `insertionSort`.  `count` is the number of iterations
left (`n - i` at entry, starting from `i = 1`). -/
def insOuter (n : Nat) :
    Nat → Nat → List Int → List Int × List SortStep
  | 0, _, arr => (arr, [])
  | count + 1, i, arr =>
      let key := arr.getD i 0
      let selectStep : SortStep :=
        { type := .select, array := arr, indices := some [i],
          sorted := some (List.range i) }
      let (arr1, p, whileSteps) := insWhile i key i arr
      let arr2 := arr1.set p key
      let insertStep : SortStep :=
        { type := .insert, array := arr2, indices := some [p],
          sorted := some (List.range (i + 1)) }
      let (arrF, rest) := insOuter n count (i + 1) arr2
      (arrF, selectStep :: (whileSteps ++ (insertStep :: rest)))

/-- sorting.js `insertionSort`: the full emitted step sequence. -/
def insertionSort (arr : List Int) : List SortStep :=
  let n := arr.length
  let (finalArr, body) := insOuter n (n - 1) 1 arr
  ({ type := .init, array := arr } : SortStep) ::
    (body ++ [{ type := .complete, array := finalArr,
                sorted := some (List.range n) }])

/-- JS `array.slice(a, b)` for the in-range arguments the merge routine uses. -/
def jsSlice (arr : List Int) (a b : Int) : List Int :=
  (arr.drop a.toNat).take (b - a).toNat

/-- First merge loop (`while (i < leftArr.length && j < rightArr.length)`).
`fuel` bounds the remaining iterations; callers pass
`leftArr.length + rightArr.length`, which the loop can never exhaust since
`i + j` grows by one per iteration.  `lOfs` and `mOfs` are the offsets `left`
and `mid + 1` used for the reported compare indices. -/
def mergeLoop (leftArr rightArr : List Int) (lOfs mOfs : Nat) :
    Nat → Nat → Nat → Nat → List Int → List Int × Nat × Nat × Nat × List SortStep
  | 0, i, j, k, arr => (arr, i, j, k, [])
  | fuel + 1, i, j, k, arr =>
      if i < leftArr.length ∧ j < rightArr.length then
        let cmpStep : SortStep :=
          { type := .compare, array := arr,
            indices := some [lOfs + i, mOfs + j] }
        let (arr', i', j') :=
          if leftArr.getD i 0 ≤ rightArr.getD j 0 then
            (arr.set k (leftArr.getD i 0), i + 1, j)
          else
            (arr.set k (rightArr.getD j 0), i, j + 1)
        let placeStep : SortStep :=
          { type := .place, array := arr', indices := some [k] }
        let (a, iF, jF, kF, rest) :=
          mergeLoop leftArr rightArr lOfs mOfs fuel i' j' (k + 1) arr'
        (a, iF, jF, kF, cmpStep :: placeStep :: rest)
      else
        (arr, i, j, k, [])

/-- Copy-through loop (`while (i < src.length)`): copies the remaining
elements of the exhausted side's counterpart.  `count = src.length - i`
iterations run, matching the JS loop exactly. -/
def mergeCopy (src : List Int) :
    Nat → Nat → Nat → List Int → List Int × Nat × List SortStep
  | 0, _, k, arr => (arr, k, [])
  | count + 1, i, k, arr =>
      let arr' := arr.set k (src.getD i 0)
      let placeStep : SortStep :=
        { type := .place, array := arr', indices := some [k] }
      let (a, kF, rest) := mergeCopy src count (i + 1) (k + 1) arr'
      (a, kF, placeStep :: rest)

/-- sorting.js `merge(arr, left, mid, right, depth)`: merge the two adjacent
sorted runs `[left..mid]` and `[mid+1..right]` in place, emitting
`merge-start`, `compare`/`place`, and `merge-complete` steps. -/
def mergeRuns (arr : List Int) (left mid right : Int) (depth : Nat) :
    List Int × List SortStep :=
  let leftArr := jsSlice arr left (mid + 1)
  let rightArr := jsSlice arr (mid + 1) (right + 1)
  let startStep : SortStep :=
    { type := .mergeStart, array := arr, range := some (left, right),
      depth := some depth }
  let (arr1, i1, j1, k1, steps1) :=
    mergeLoop leftArr rightArr left.toNat (mid + 1).toNat
      (leftArr.length + rightArr.length) 0 0 left.toNat arr
  let (arr2, k2, steps2) := mergeCopy leftArr (leftArr.length - i1) i1 k1 arr1
  let (arr3, _, steps3) := mergeCopy rightArr (rightArr.length - j1) j1 k2 arr2
  let doneStep : SortStep :=
    { type := .mergeComplete, array := arr3, range := some (left, right) }
  (arr3, startStep :: (steps1 ++ steps2 ++ steps3 ++ [doneStep]))

/-- sorting.js `mergeSortHelper(arr, left, right, depth)`: recursive split,
emitting a `divide` step per split, then merging.  `left`/`right` are JS
numbers (the top-level call passes `right = length - 1`, which is `-1` for an
empty array), hence `Int`. -/
def mergeSortHelper (arr : List Int) (left right : Int) (depth : Nat) :
    List Int × List SortStep :=
  if _h : left ≥ right then (arr, [])
  else
    let mid := Int.fdiv (left + right) 2
    let divideStep : SortStep :=
      { type := .divide, array := arr, range := some (left, right),
        mid := some mid, depth := some depth }
    let (arr1, steps1) := mergeSortHelper arr left mid (depth + 1)
    let (arr2, steps2) := mergeSortHelper arr1 (mid + 1) right (depth + 1)
    let (arr3, steps3) := mergeRuns arr2 left mid right depth
    (arr3, divideStep :: (steps1 ++ steps2 ++ steps3))
termination_by (right - left).toNat
decreasing_by
  · rw [Int.fdiv_eq_ediv _ (by norm_num)]
    omega
  · rw [Int.fdiv_eq_ediv _ (by norm_num)]
    omega

/-- sorting.js `mergeSort`: the full emitted step sequence. -/
def mergeSort (arr : List Int) : List SortStep :=
  let (finalArr, body) := mergeSortHelper arr 0 ((arr.length : Int) - 1) 0
  ({ type := .init, array := arr } : SortStep) ::
    (body ++ [{ type := .complete, array := finalArr,
                sorted := some (List.range arr.length) }])

/-- One animation step of a graph-traversal or pathfinding run
(graphTraversal.js / pathfinding.js).  Fields a given step type does not carry
in the source are `none`; `startP`/`endP` model the JS `start`/`end` fields. -/
structure PathStep where
  type : StepType
  current : Option Pos := none
  neighbor : Option Pos := none
  parent : Option Pos := none
  startP : Option Pos := none
  endP : Option Pos := none
  visited : Option (Finset Pos) := none
  distance : Option Int := none
  gScore : Option Int := none
  hScore : Option Int := none
  fScore : Option Int := none
  heuristic : Option Int := none
  queueSize : Option Nat := none
  depth : Option Nat := none
  path : Option (List Pos) := none
deriving DecidableEq

/-- Working state of the BFS loop: emitted steps, visited set, FIFO queue. -/
structure BfsState where
  steps : List PathStep
  visited : Finset Pos
  queue : List Pos
deriving DecidableEq

/-- Neighbor loop of one BFS iteration: each unvisited non-wall neighbor is
marked visited and enqueued immediately, with a `discover` step. -/
def bfsDiscover (walls : Finset Pos) (current : Pos) :
    List Pos → BfsState → BfsState
  | [], st => st
  | neighbor :: rest, st =>
      if neighbor ∉ st.visited ∧ neighbor ∉ walls then
        let visited' := insert neighbor st.visited
        let queue' := st.queue ++ [neighbor]
        let st' : BfsState :=
          { steps := st.steps ++
              [{ type := .discover, current := some current,
                 neighbor := some neighbor, visited := some visited',
                 queueSize := some queue'.length }],
            visited := visited', queue := queue' }
        bfsDiscover walls current rest st'
      else
        bfsDiscover walls current rest st

/-- Main `while (!queue.isEmpty())` loop of BFS.  One fuel unit per
iteration; `bfs` passes fuel that is proved sufficient below. -/
def bfsLoop (rows cols : Int) (walls : Finset Pos) :
    Nat → BfsState → Option (List PathStep)
  | 0, _ => none
  | fuel + 1, st =>
      match st.queue with
      | [] =>
          some (st.steps ++
            [{ type := .complete, visited := some st.visited }])
      | current :: rest =>
          let st1 : BfsState :=
            { steps := st.steps ++
                [{ type := .visit, current := some current,
                   visited := some st.visited }],
              visited := st.visited, queue := rest }
          let st2 := bfsDiscover walls current
            (getNeighbors current.row current.col rows cols) st1
          bfsLoop rows cols walls fuel st2

/-- Fuel for the BFS loop: every dequeue matches an earlier enqueue, and every
enqueue marks a fresh member of `gridCells ∪ {start}` visited. -/
def bfsFuel (rows cols : Int) : Nat :=
  rows.toNat * cols.toNat + 2

/-- graphTraversal.js `bfs`: the start is marked visited and enqueued (before
any wall check), the `init` step is emitted, then the main loop runs. -/
def bfs (rows cols : Int) (start : Pos) (walls : Finset Pos) : List PathStep :=
  let st0 : BfsState :=
    { steps := [{ type := .init, current := some start,
                  visited := some ({start} : Finset Pos) }],
      visited := {start}, queue := [start] }
  match bfsLoop rows cols walls (bfsFuel rows cols) st0 with
  | some steps => steps
  | none => []

/-- Working state of the DFS recursion: emitted steps and visited set. -/
structure DfsState where
  steps : List PathStep
  visited : Finset Pos
deriving DecidableEq

/-- One iteration of `dfsHelper`'s neighbor loop: a neighbor that is
unvisited and not a wall at that moment gets a `discover` step, a recursive
call (`recur`, instantiated with `dfsVisit` at the remaining fuel), and a
`backtrack` step; any other neighbor is skipped. -/
def dfsNeighborStep (walls : Finset Pos) (node : Pos) (depth : Nat)
    (recur : DfsState → Pos → Nat → DfsState) (acc : DfsState)
    (neighbor : Pos) : DfsState :=
  if neighbor ∉ acc.visited ∧ neighbor ∉ walls then
    let acc1 : DfsState :=
      { steps := acc.steps ++
          [{ type := .discover, current := some node,
             neighbor := some neighbor, visited := some acc.visited,
             depth := some (depth + 1) }],
        visited := acc.visited }
    let acc2 := recur acc1 neighbor (depth + 1)
    { steps := acc2.steps ++
        [{ type := .backtrack, current := some neighbor,
           parent := some node, visited := some acc2.visited }],
      visited := acc2.visited }
  else acc

/-- graphTraversal.js `dfsHelper(node, depth)`.  A call on an already-visited
or wall node returns without emitting any step.  Otherwise the node is marked
visited, a `visit` step is emitted, and `dfsNeighborStep` runs over each
neighbor in order.  The fuel bounds the recursion depth; each nested call
strictly grows the visited set, so the fuel passed by `dfs` is ample. -/
def dfsVisit (rows cols : Int) (walls : Finset Pos) :
    Nat → DfsState → Pos → Nat → DfsState
  | 0, st, _, _ => st
  | fuel + 1, st, node, depth =>
      if node ∈ st.visited ∨ node ∈ walls then st
      else
        let visited' := insert node st.visited
        let st1 : DfsState :=
          { steps := st.steps ++
              [{ type := .visit, current := some node,
                 visited := some visited', depth := some depth }],
            visited := visited' }
        (getNeighbors node.row node.col rows cols).foldl
          (dfsNeighborStep walls node depth (dfsVisit rows cols walls fuel)) st1

/-- Fuel for the DFS recursion (a bound on its depth). -/
def dfsFuel (rows cols : Int) : Nat :=
  rows.toNat * cols.toNat + 2

/-- graphTraversal.js `dfs`: `init` step, recursive exploration from the
start, `complete` step. -/
def dfs (rows cols : Int) (start : Pos) (walls : Finset Pos) : List PathStep :=
  let st0 : DfsState :=
    { steps := [{ type := .init, current := some start,
                  visited := some (∅ : Finset Pos) }],
      visited := ∅ }
  let st1 := dfsVisit rows cols walls (dfsFuel rows cols) st0 start 0
  st1.steps ++ [{ type := .complete, visited := some st1.visited }]

/-- Working state of the Dijkstra loop. -/
structure DijkstraState where
  steps : List PathStep
  distances : List (Pos × Int)
  previous : List (Pos × Pos)
  visited : Finset Pos
  pq : PriorityQueue Pos
deriving DecidableEq

/-- Relaxation loop of one Dijkstra iteration: for each non-wall unvisited
neighbor whose best known distance improves, update distance and parent,
enqueue it, and emit an `update` step. -/
def dijkstraRelax (walls : Finset Pos) (current : Pos) (currentDist : Int) :
    List Pos → DijkstraState → DijkstraState
  | [], st => st
  | neighbor :: rest, st =>
      if neighbor ∈ walls ∨ neighbor ∈ st.visited then
        dijkstraRelax walls current currentDist rest st
      else
        let newDist := currentDist + 1
        let improves : Bool :=
          match mapGet st.distances neighbor with
          | none => true
          | some oldDist => decide (newDist < oldDist)
        if improves then
          let st' : DijkstraState :=
            { steps := st.steps ++
                [{ type := .update, current := some current,
                   neighbor := some neighbor, distance := some newDist,
                   visited := some st.visited }],
              distances := mapSet st.distances neighbor newDist,
              previous := mapSet st.previous neighbor current,
              visited := st.visited,
              pq := PQ.enqueue st.pq neighbor newDist }
          dijkstraRelax walls current currentDist rest st'
        else
          dijkstraRelax walls current currentDist rest st

/-- Main `while (!pq.isEmpty())` loop of Dijkstra, with the source's lazy
deletion of already-visited entries.  Popping the goal emits `path-found` and
returns at once; an empty queue emits `no-path`. -/
def dijkstraLoop (rows cols : Int) (start endP : Pos) (walls : Finset Pos) :
    Nat → DijkstraState → Option (List PathStep)
  | 0, _ => none
  | fuel + 1, st =>
      match PQ.dequeue st.pq with
      | none =>
          some (st.steps ++
            [{ type := .noPath, visited := some st.visited }])
      | some ((current, currentDist), pq') =>
          if current ∈ st.visited then
            dijkstraLoop rows cols start endP walls fuel { st with pq := pq' }
          else
            let visited' := insert current st.visited
            let st1 : DijkstraState :=
              { st with
                visited := visited', pq := pq',
                steps := st.steps ++
                  [{ type := .visit, current := some current,
                     distance := some currentDist, visited := some visited' }] }
            if current = endP then
              some (st1.steps ++
                [{ type := .pathFound,
                   path := some (reconstructPath st1.previous start endP),
                   distance := some currentDist, visited := some visited' }])
            else
              let st2 := dijkstraRelax walls current currentDist
                (getNeighbors current.row current.col rows cols) st1
              dijkstraLoop rows cols start endP walls fuel st2

/-- Fuel for the Dijkstra / A* loops: each iteration pops one entry, and at
most five entries (the initial one plus four per fresh visit) ever target any
member of `gridCells ∪ {start}`. -/
def dijkstraFuel (rows cols : Int) : Nat :=
  5 * (rows.toNat * cols.toNat + 2) + 2

/-- pathfinding.js `dijkstra`: the full emitted step sequence. -/
def dijkstra (rows cols : Int) (start endP : Pos) (walls : Finset Pos) :
    List PathStep :=
  let st0 : DijkstraState :=
    { steps := [{ type := .init, startP := some start, endP := some endP }],
      distances := [(start, 0)],
      previous := [],
      visited := ∅,
      pq := PQ.enqueue ⟨[]⟩ start 0 }
  match dijkstraLoop rows cols start endP walls (dijkstraFuel rows cols) st0 with
  | some steps => steps
  | none => []

/-- Working state of the A* loop. -/
structure AStarState where
  steps : List PathStep
  gScore : List (Pos × Int)
  fScore : List (Pos × Int)
  previous : List (Pos × Pos)
  visited : Finset Pos
  pq : PriorityQueue Pos
deriving DecidableEq

/-- Relaxation loop of one A* iteration: for each non-wall unvisited neighbor
whose tentative g improves, update g, f and parent, enqueue by f, and emit an
`update` step. -/
def aStarRelax (walls : Finset Pos) (endP current : Pos) (g : Int) :
    List Pos → AStarState → AStarState
  | [], st => st
  | neighbor :: rest, st =>
      if neighbor ∈ walls ∨ neighbor ∈ st.visited then
        aStarRelax walls endP current g rest st
      else
        let tentativeG := g + 1
        let improves : Bool :=
          match mapGet st.gScore neighbor with
          | none => true
          | some oldG => decide (tentativeG < oldG)
        if improves then
          let h := manhattanDistance neighbor endP
          let f := tentativeG + h
          let st' : AStarState :=
            { steps := st.steps ++
                [{ type := .update, current := some current,
                   neighbor := some neighbor, gScore := some tentativeG,
                   hScore := some h, fScore := some f,
                   visited := some st.visited }],
              gScore := mapSet st.gScore neighbor tentativeG,
              fScore := mapSet st.fScore neighbor f,
              previous := mapSet st.previous neighbor current,
              visited := st.visited,
              pq := PQ.enqueue st.pq neighbor f }
          aStarRelax walls endP current g rest st'
        else
          aStarRelax walls endP current g rest st

/-- Main loop of A*: identical shape to Dijkstra's, but the visit step reports
`g`, `h` and `f`, and the pop priority is `f`.  The popped node's g-score is
always present (every enqueued node's g was set first); `getD 0` only
discharges the `Option`. -/
def aStarLoop (rows cols : Int) (start endP : Pos) (walls : Finset Pos) :
    Nat → AStarState → Option (List PathStep)
  | 0, _ => none
  | fuel + 1, st =>
      match PQ.dequeue st.pq with
      | none =>
          some (st.steps ++
            [{ type := .noPath, visited := some st.visited }])
      | some ((current, _), pq') =>
          if current ∈ st.visited then
            aStarLoop rows cols start endP walls fuel { st with pq := pq' }
          else
            let visited' := insert current st.visited
            let g := (mapGet st.gScore current).getD 0
            let h := manhattanDistance current endP
            let f := g + h
            let st1 : AStarState :=
              { st with
                visited := visited', pq := pq',
                steps := st.steps ++
                  [{ type := .visit, current := some current,
                     gScore := some g, hScore := some h, fScore := some f,
                     visited := some visited' }] }
            if current = endP then
              some (st1.steps ++
                [{ type := .pathFound,
                   path := some (reconstructPath st1.previous start endP),
                   distance := some g, visited := some visited' }])
            else
              let st2 := aStarRelax walls endP current g
                (getNeighbors current.row current.col rows cols) st1
              aStarLoop rows cols start endP walls fuel st2

/-- pathfinding.js `aStar`: the full emitted step sequence. -/
def aStar (rows cols : Int) (start endP : Pos) (walls : Finset Pos) :
    List PathStep :=
  let h0 := manhattanDistance start endP
  let st0 : AStarState :=
    { steps := [{ type := .init, startP := some start, endP := some endP,
                  heuristic := some h0 }],
      gScore := [(start, 0)],
      fScore := [(start, h0)],
      previous := [],
      visited := ∅,
      pq := PQ.enqueue ⟨[]⟩ start h0 }
  match aStarLoop rows cols start endP walls (dijkstraFuel rows cols) st0 with
  | some steps => steps
  | none => []

/-- A binary tree as built by helpers.js (`null` is `nil`; every real node has
an `id`, a `value` and optional children). -/
inductive Tree where
  | nil : Tree
  | node (id : Nat) (value : Int) (left right : Tree) : Tree
deriving DecidableEq

/-- One animation step of a tree-recursion run (recursion.js).  The `node`
field snapshots the JS node object; `direction` is "left"/"right". -/
structure TreeStep where
  type : StepType
  node : Option Tree := none
  phase : Option String := none
  direction : Option String := none
  callStack : Option (List String) := none
  depth : Option Nat := none
deriving DecidableEq

/-- Frame label pushed by the traversals: e.g. `preorder(7)`. -/
def frameLabel (fn : String) (value : Int) : String :=
  fn ++ "(" ++ toString value ++ ")"

/-- recursion.js `preorderTraversal`, inner `traverse`: visit, recurse left,
recurse right, pop and emit `return`.  `cs` is the live call stack; every
emitted step snapshots it. -/
def preTrav : Tree → Nat → List String → List TreeStep
  | .nil, depth, cs =>
      [{ type := .nullNode, callStack := some cs, depth := some depth }]
  | .node i v l r, depth, cs =>
      let t := Tree.node i v l r
      let cs' := cs ++ [frameLabel "preorder" v]
      [({ type := .visit, node := some t, phase := some "root",
          callStack := some cs', depth := some depth } : TreeStep),
       { type := .recurse, node := some t, direction := some "left",
         callStack := some cs' }] ++
      preTrav l (depth + 1) cs' ++
      [({ type := .recurse, node := some t, direction := some "right",
          callStack := some cs' } : TreeStep)] ++
      preTrav r (depth + 1) cs' ++
      [{ type := .ret, node := some t, callStack := some cs }]

/-- recursion.js `preorderTraversal`. -/
def preorderTraversal (root : Tree) : List TreeStep :=
  ({ type := .init } : TreeStep) :: (preTrav root 0 [] ++ [{ type := .complete }])

/-- recursion.js `inorderTraversal`, inner `traverse`: recurse left, visit,
recurse right, pop and emit `return`. -/
def inTrav : Tree → Nat → List String → List TreeStep
  | .nil, depth, cs =>
      [{ type := .nullNode, callStack := some cs, depth := some depth }]
  | .node i v l r, depth, cs =>
      let t := Tree.node i v l r
      let cs' := cs ++ [frameLabel "inorder" v]
      [({ type := .recurse, node := some t, direction := some "left",
          callStack := some cs' } : TreeStep)] ++
      inTrav l (depth + 1) cs' ++
      [({ type := .visit, node := some t, phase := some "root",
          callStack := some cs', depth := some depth } : TreeStep),
       { type := .recurse, node := some t, direction := some "right",
         callStack := some cs' }] ++
      inTrav r (depth + 1) cs' ++
      [{ type := .ret, node := some t, callStack := some cs }]

/-- recursion.js `inorderTraversal`. -/
def inorderTraversal (root : Tree) : List TreeStep :=
  ({ type := .init } : TreeStep) :: (inTrav root 0 [] ++ [{ type := .complete }])

/-- recursion.js `postorderTraversal`, inner `traverse`: recurse left, recurse
right, visit, pop and emit `return`. -/
def postTrav : Tree → Nat → List String → List TreeStep
  | .nil, depth, cs =>
      [{ type := .nullNode, callStack := some cs, depth := some depth }]
  | .node i v l r, depth, cs =>
      let t := Tree.node i v l r
      let cs' := cs ++ [frameLabel "postorder" v]
      [({ type := .recurse, node := some t, direction := some "left",
          callStack := some cs' } : TreeStep)] ++
      postTrav l (depth + 1) cs' ++
      [({ type := .recurse, node := some t, direction := some "right",
          callStack := some cs' } : TreeStep)] ++
      postTrav r (depth + 1) cs' ++
      [({ type := .visit, node := some t, phase := some "root",
          callStack := some cs', depth := some depth } : TreeStep),
       { type := .ret, node := some t, callStack := some cs }]

/-- recursion.js `postorderTraversal`. -/
def postorderTraversal (root : Tree) : List TreeStep :=
  ({ type := .init } : TreeStep) :: (postTrav root 0 [] ++ [{ type := .complete }])

/-- A JS number as far as `getProgress` is concerned: either an actual
rational value or one of the IEEE special values `NaN` / `Infinity` /
`-Infinity` that JS division by zero produces. -/
inductive JSNum where
  | nan : JSNum
  | posInf : JSNum
  | negInf : JSNum
  | num (q : ℚ) : JSNum
deriving DecidableEq

/-- JS division: division by zero yields `NaN` (for `0/0`) or a signed
infinity, exactly as IEEE-754 prescribes; otherwise an exact quotient. -/
def jsDiv (a b : ℚ) : JSNum :=
  if b = 0 then
    if a = 0 then .nan else if 0 < a then .posInf else .negInf
  else .num (a / b)

/-- Multiply a JS number by the positive constant 100 (the special values are
absorbing). -/
def jsMul100 : JSNum → JSNum
  | .nan => .nan
  | .posInf => .posInf
  | .negInf => .negInf
  | .num q => .num (q * 100)

/-- JS `Math.round`: round half toward positive infinity; the special values
are returned unchanged. -/
def jsRound : JSNum → JSNum
  | .nan => .nan
  | .posInf => .posInf
  | .negInf => .negInf
  | .num q => .num ((⌊q + 1 / 2⌋ : ℤ) : ℚ)

/-- uiController.js `AnimationController`: playback state over a loaded step
sequence.  The `onStepChange` callback is presentation-only and not modelled;
`play` is the asynchronous auto-play loop and is likewise outside this model
(the synchronous control surface below is what the claims are about).  The
current index is a JS number that the guards keep within bounds, hence `Int`. -/
structure AnimationController (σ : Type) where
  steps : List σ
  currentStepIndex : Int
  isPlaying : Bool
  isPaused : Bool
  speed : ℚ

/-- The `AnimationController` constructor. -/
def AC.new {σ : Type} : AnimationController σ :=
  { steps := [], currentStepIndex := 0, isPlaying := false, isPaused := false,
    speed := 50 }

/-- `loadSteps`. -/
def AC.loadSteps {σ : Type} (c : AnimationController σ) (steps : List σ) :
    AnimationController σ :=
  { c with steps := steps, currentStepIndex := 0, isPlaying := false,
           isPaused := false }

/-- `getCurrentStep`: `this.steps[this.currentStepIndex] || null` (an
out-of-range index reads `undefined`, which `|| null` turns into `null`;
steps are objects, hence always truthy). -/
def AC.getCurrentStep {σ : Type} (c : AnimationController σ) : Option σ :=
  if c.currentStepIndex < 0 then none
  else c.steps.get? c.currentStepIndex.toNat

/-- `stepForward`: advance by one unless already at (or past) the last step. -/
def AC.stepForward {σ : Type} (c : AnimationController σ) :
    AnimationController σ :=
  if c.currentStepIndex < (c.steps.length : Int) - 1 then
    { c with currentStepIndex := c.currentStepIndex + 1 }
  else c

/-- `stepBackward`: retreat by one unless at the first step. -/
def AC.stepBackward {σ : Type} (c : AnimationController σ) :
    AnimationController σ :=
  if c.currentStepIndex > 0 then
    { c with currentStepIndex := c.currentStepIndex - 1 }
  else c

/-- `stop`. -/
def AC.stop {σ : Type} (c : AnimationController σ) : AnimationController σ :=
  { c with isPlaying := false, isPaused := false }

/-- `pause`. -/
def AC.pause {σ : Type} (c : AnimationController σ) : AnimationController σ :=
  { c with isPaused := true }

/-- `resume`. -/
def AC.resume {σ : Type} (c : AnimationController σ) : AnimationController σ :=
  { c with isPaused := false }

/-- `reset`: stop, rewind the index to zero. -/
def AC.reset {σ : Type} (c : AnimationController σ) : AnimationController σ :=
  { AC.stop c with currentStepIndex := 0 }

/-- `setSpeed`: clamp to [1, 100]. -/
def AC.setSpeed {σ : Type} (c : AnimationController σ) (speed : ℚ) :
    AnimationController σ :=
  { c with speed := max 1 (min 100 speed) }

/-- `isAtEnd`. -/
def AC.isAtEnd {σ : Type} (c : AnimationController σ) : Bool :=
  c.currentStepIndex ≥ (c.steps.length : Int) - 1

/-- `isAtStart`. -/
def AC.isAtStart {σ : Type} (c : AnimationController σ) : Bool :=
  c.currentStepIndex = 0

/-- `getProgress`: `0` for an empty sequence, otherwise
`Math.round((currentStepIndex / (steps.length - 1)) * 100)` — for a one-step
sequence this divides zero by zero. -/
def AC.getProgress {σ : Type} (c : AnimationController σ) : JSNum :=
  if c.steps.length = 0 then .num 0
  else jsRound (jsMul100
    (jsDiv (c.currentStepIndex : ℚ) ((c.steps.length : ℚ) - 1)))

/-- Controller states reachable through the synchronous control surface after
some sequence has been loaded: `loadSteps` on any prior state, then any
number of manual steps, resets, stops, pause toggles and speed changes. -/
inductive ACReach {σ : Type} : AnimationController σ → Prop where
  | load (c : AnimationController σ) (steps : List σ) :
      ACReach (AC.loadSteps c steps)
  | forwardStep {c : AnimationController σ} : ACReach c → ACReach (AC.stepForward c)
  | backwardStep {c : AnimationController σ} : ACReach c → ACReach (AC.stepBackward c)
  | resetStep {c : AnimationController σ} : ACReach c → ACReach (AC.reset c)
  | stopStep {c : AnimationController σ} : ACReach c → ACReach (AC.stop c)
  | pauseStep {c : AnimationController σ} : ACReach c → ACReach (AC.pause c)
  | resumeStep {c : AnimationController σ} : ACReach c → ACReach (AC.resume c)
  | speedStep {c : AnimationController σ} (n : ℚ) : ACReach c → ACReach (AC.setSpeed c n)

/-- Grid reachability through non-wall cells: the transitive closure of the
4-neighbor relation restricted to non-wall targets, from the start cell.
This is the ground-truth notion of "a path exists": `v` is reachable iff some
wall-free in-bounds path leads from `start` to `v` (the start cell itself is
unconditionally reachable, matching the algorithms, which never wall-check
the start). -/
inductive Reachable (rows cols : Int) (walls : Finset Pos) (start : Pos) :
    Pos → Prop where
  | base : Reachable rows cols walls start start
  | step {u v : Pos} : Reachable rows cols walls start u →
      v ∈ getNeighbors u.row u.col rows cols → v ∉ walls →
      Reachable rows cols walls start v

section ControllerProofs

/-- Index bounds invariant for reachable controller states: the synchronous
controls keep the current index in `[0, max 0 (length - 1)]`. -/
theorem acReach_index_bounds {σ : Type} {c : AnimationController σ}
    (h : ACReach c) :
    0 ≤ c.currentStepIndex ∧
      c.currentStepIndex ≤ max 0 ((c.steps.length : Int) - 1) := by
  induction h with
  | load c steps => simp [AC.loadSteps]
  | forwardStep _ ih =>
      unfold AC.stepForward
      split <;> simp_all <;> omega
  | backwardStep _ ih =>
      unfold AC.stepBackward
      split <;> simp_all <;> omega
  | resetStep _ ih => simp [AC.reset, AC.stop]
  | stopStep _ ih => simpa [AC.stop] using ih
  | pauseStep _ ih => simpa [AC.pause] using ih
  | resumeStep _ ih => simpa [AC.resume] using ih
  | speedStep n _ ih => simpa [AC.setSpeed] using ih

/-- C8: after a sequence is loaded, `reset()` makes the current step the
first step of the sequence; `stepForward()` advances the current index by
one whenever the index is not yet at the last step; and `stepForward()` at
the last step leaves the whole controller state unchanged (a no-op, not an
error). -/
theorem stepForward_reset_behavior {σ : Type} :
    (∀ c : AnimationController σ,
        (AC.reset c).currentStepIndex = 0 ∧
        AC.getCurrentStep (AC.reset c) = c.steps.head?) ∧
    (∀ c : AnimationController σ,
        c.currentStepIndex < (c.steps.length : Int) - 1 →
        (AC.stepForward c).currentStepIndex = c.currentStepIndex + 1) ∧
    (∀ c : AnimationController σ,
        c.currentStepIndex = (c.steps.length : Int) - 1 →
        AC.stepForward c = c) := by
  refine ⟨fun c => ⟨rfl, ?_⟩, fun c h => ?_, fun c h => ?_⟩
  · simp [AC.getCurrentStep, AC.reset, AC.stop, List.get?_zero]
    exact (List.head?_eq_getElem? _).symm
  · simp [AC.stepForward, h]
  · simp [AC.stepForward, h]

/-- Witness for C8 at a two-step sequence: reset lands on the first step,
one forward step advances the index from 0 to 1, and a forward step at the
last index (1) is a no-op. -/
theorem stepForward_reset_behavior_witness :
    ((AC.reset (AC.loadSteps (AC.new (σ := Unit)) [(), ()])).currentStepIndex = 0 ∧
      AC.getCurrentStep (AC.reset (AC.loadSteps (AC.new (σ := Unit)) [(), ()])) =
        (AC.loadSteps (AC.new (σ := Unit)) [(), ()]).steps.head?) ∧
    ((AC.stepForward (AC.loadSteps (AC.new (σ := Unit)) [(), ()])).currentStepIndex =
      (AC.loadSteps (AC.new (σ := Unit)) [(), ()]).currentStepIndex + 1) ∧
    (AC.stepForward (AC.stepForward (AC.loadSteps (AC.new (σ := Unit)) [(), ()])) =
      AC.stepForward (AC.loadSteps (AC.new (σ := Unit)) [(), ()])) :=
  ⟨stepForward_reset_behavior.1 _,
   stepForward_reset_behavior.2.1 _ (by simp [AC.loadSteps, AC.new]),
   stepForward_reset_behavior.2.2 _ (by
     simp [AC.loadSteps, AC.new, AC.stepForward])⟩

/-- C9 (amended): for a loaded sequence of at least two steps, every
reachable state's `getProgress()` is an actual number between 0 and 100. -/
theorem getProgress_bounds {σ : Type} (c : AnimationController σ)
    (hr : ACReach c) (hlen : 2 ≤ c.steps.length) :
    ∃ q : ℚ, AC.getProgress c = .num q ∧ 0 ≤ q ∧ q ≤ 100 := by
  obtain ⟨h0, h1⟩ := acReach_index_bounds hr
  have hlen0 : c.steps.length ≠ 0 := by omega
  have hden : ((c.steps.length : ℚ) - 1) ≠ 0 := by
    have : (2 : ℚ) ≤ (c.steps.length : ℚ) := by exact_mod_cast hlen
    intro hc
    nlinarith
  have hidx : c.currentStepIndex ≤ (c.steps.length : Int) - 1 := by
    have : (0 : Int) ≤ (c.steps.length : Int) - 1 := by
      omega
    omega
  refine ⟨⌊(c.currentStepIndex : ℚ) / ((c.steps.length : ℚ) - 1) * 100 + 1 / 2⌋,
    ?_, ?_, ?_⟩
  · simp [AC.getProgress, hlen0, jsDiv, hden, jsMul100, jsRound]
  · have hratio : 0 ≤ (c.currentStepIndex : ℚ) / ((c.steps.length : ℚ) - 1) := by
      apply div_nonneg
      · exact_mod_cast h0
      · have : (2 : ℚ) ≤ (c.steps.length : ℚ) := by exact_mod_cast hlen
        linarith
    have : (0 : ℚ) ≤ (c.currentStepIndex : ℚ) / ((c.steps.length : ℚ) - 1) * 100 + 1 / 2 := by
      nlinarith
    exact_mod_cast Int.le_floor.mpr (by exact_mod_cast this)
  · have hcast : (c.currentStepIndex : ℚ) ≤ (c.steps.length : ℚ) - 1 := by
      exact_mod_cast hidx
    have hpos : (0 : ℚ) < (c.steps.length : ℚ) - 1 := by
      have : (2 : ℚ) ≤ (c.steps.length : ℚ) := by exact_mod_cast hlen
      linarith
    have hratio : (c.currentStepIndex : ℚ) / ((c.steps.length : ℚ) - 1) ≤ 1 :=
      (div_le_one hpos).mpr hcast
    have hx : (c.currentStepIndex : ℚ) / ((c.steps.length : ℚ) - 1) * 100 + 1 / 2 < 101 := by
      nlinarith
    have h101 : ⌊(c.currentStepIndex : ℚ) / ((c.steps.length : ℚ) - 1) * 100 + 1 / 2⌋ < 101 :=
      Int.floor_lt.mpr (by push_cast; linarith)
    have h100 : ⌊(c.currentStepIndex : ℚ) / ((c.steps.length : ℚ) - 1) * 100 + 1 / 2⌋ ≤ 100 := by
      omega
    exact_mod_cast h100

/-- Witness for the amended C9: a freshly loaded two-step sequence is
reachable, long enough, and its progress is a number in [0, 100]. -/
theorem getProgress_bounds_witness :
    ∃ q : ℚ,
      AC.getProgress (AC.loadSteps (AC.new (σ := Unit)) [(), ()]) = .num q ∧
      0 ≤ q ∧ q ≤ 100 :=
  getProgress_bounds (AC.loadSteps (AC.new (σ := Unit)) [(), ()])
    (ACReach.load _ _) (by simp [AC.loadSteps])

/-- Counterexample to C9 as stated: a loaded one-step sequence is non-empty
and its only reachable index is 0, yet `getProgress()` evaluates
`Math.round((0 / 0) * 100)`, which is `NaN` — not a number between 0 and
100. -/
theorem getProgress_nan_counterexample :
    ACReach (AC.loadSteps (AC.new (σ := Unit)) [()]) ∧
    (AC.loadSteps (AC.new (σ := Unit)) [()]).steps ≠ [] ∧
    AC.getProgress (AC.loadSteps (AC.new (σ := Unit)) [()]) = .nan ∧
    ¬ ∃ q : ℚ,
        AC.getProgress (AC.loadSteps (AC.new (σ := Unit)) [()]) = .num q ∧
        0 ≤ q ∧ q ≤ 100 := by
  have hnan : AC.getProgress (AC.loadSteps (AC.new (σ := Unit)) [()]) = .nan := by
    simp [AC.getProgress, AC.loadSteps, AC.new, jsDiv, jsMul100, jsRound]
  refine ⟨ACReach.load _ _, by simp [AC.loadSteps], hnan, ?_⟩
  rintro ⟨q, hq, -⟩
  rw [hnan] at hq
  exact JSNum.noConfusion hq

end ControllerProofs

section PriorityQueueProofs

instance : IsTotal (Pos × Int) byPriority := ⟨fun a b => le_total a.2 b.2⟩

instance {α : Type} : IsTrans (α × Int) byPriority :=
  ⟨fun _ _ _ h h' => le_trans h h'⟩

instance {α : Type} : IsTotal (α × Int) byPriority :=
  ⟨fun a b => le_total a.2 b.2⟩

/-- One priority-queue operation: insert an element with a priority, or
remove the front element. -/
inductive PQOp (α : Type) where
  | enq (element : α) (priority : Int) : PQOp α
  | deq : PQOp α

/-- Run a sequence of operations against the implementation
(`PriorityQueue`), collecting each `dequeue()` result (element and
priority; `none` models the `undefined` of an empty dequeue). -/
def implRun {α : Type} : PriorityQueue α → List (PQOp α) → List (Option (α × Int))
  | _, [] => []
  | q, .enq e p :: rest => implRun (PQ.enqueue q e p) rest
  | q, .deq :: rest =>
      match PQ.dequeue q with
      | none => none :: implRun q rest
      | some (x, q') => some x :: implRun q' rest

/-- Specification-side dequeue, following the spec's words: the state is the
list of stored pairs in insertion order, and `dequeue` removes and returns
the element with the smallest priority among those currently stored, picking
the earliest-inserted one on ties. -/
def specDequeue {α : Type} : List (α × Int) → Option ((α × Int) × List (α × Int))
  | [] => none
  | x :: xs =>
      match specDequeue xs with
      | none => some (x, [])
      | some (y, ys) => if x.2 ≤ y.2 then some (x, xs) else some (y, x :: ys)

/-- Run a sequence of operations against the specification-side queue (state
kept in insertion order). -/
def specRun {α : Type} : List (α × Int) → List (PQOp α) → List (Option (α × Int))
  | _, [] => []
  | l, .enq e p :: rest => specRun (l ++ [(e, p)]) rest
  | l, .deq :: rest =>
      match specDequeue l with
      | none => none :: specRun l rest
      | some (y, ys) => some y :: specRun ys rest

/-- Unfolding lemma: `pqSort` on a cons inserts the head into the sorted
tail. -/
theorem pqSort_cons {α : Type} (x : α × Int) (l : List (α × Int)) :
    pqSort (x :: l) = List.orderedInsert byPriority x (pqSort l) := rfl

/-- The specification dequeue returns `none` only on the empty state. -/
theorem specDequeue_eq_none_iff {α : Type} (l : List (α × Int)) :
    specDequeue l = none ↔ l = [] := by
  cases l with
  | nil => simp [specDequeue]
  | cons x xs =>
      simp only [specDequeue]
      cases specDequeue xs with
      | none => simp
      | some p =>
          obtain ⟨y, ys⟩ := p
          by_cases h : x.2 ≤ y.2 <;> simp [h]

/-- Unfolding lemma for the specification dequeue on a cons whose tail
dequeues successfully. -/
theorem specDequeue_cons_some {α : Type} {x : α × Int} {xs : List (α × Int)}
    {y : α × Int} {ys : List (α × Int)} (h : specDequeue xs = some (y, ys)) :
    specDequeue (x :: xs) =
      if x.2 ≤ y.2 then some (x, xs) else some (y, x :: ys) := by
  simp only [specDequeue, h]

/-- Unfolding lemma for the specification dequeue on a cons with empty
tail. -/
theorem specDequeue_cons_none {α : Type} {x : α × Int} {xs : List (α × Int)}
    (h : specDequeue xs = none) :
    specDequeue (x :: xs) = some (x, []) := by
  simp only [specDequeue, h]

/-- The element returned by the specification dequeue is stored and has the
smallest priority among all stored elements. -/
theorem specDequeue_min {α : Type} :
    ∀ (l : List (α × Int)) (y : α × Int) (ys : List (α × Int)),
      specDequeue l = some (y, ys) → y ∈ l ∧ ∀ z ∈ l, y.2 ≤ z.2 := by
  intro l
  induction l with
  | nil => intro y ys h; simp [specDequeue] at h
  | cons x xs ih =>
      intro y ys h
      cases hspec : specDequeue xs with
      | none =>
          rw [specDequeue_cons_none hspec] at h
          obtain ⟨rfl, rfl⟩ := Prod.mk.injEq .. ▸ Option.some.injEq .. ▸ h
          have hxs : xs = [] := (specDequeue_eq_none_iff xs).mp hspec
          subst hxs
          exact ⟨List.mem_singleton_self x, by
            intro z hz
            rcases List.mem_singleton.mp hz with rfl
            exact le_refl _⟩
      | some p =>
          obtain ⟨y', ys'⟩ := p
          obtain ⟨hy'mem, hy'min⟩ := ih y' ys' hspec
          rw [specDequeue_cons_some hspec] at h
          by_cases hle : x.2 ≤ y'.2
          · rw [if_pos hle] at h
            obtain ⟨rfl, rfl⟩ := Prod.mk.injEq .. ▸ Option.some.injEq .. ▸ h
            refine ⟨List.mem_cons_self x xs, ?_⟩
            intro z hz
            rcases List.mem_cons.mp hz with rfl | hz
            · exact le_refl _
            · exact le_trans hle (hy'min z hz)
          · rw [if_neg hle] at h
            obtain ⟨rfl, rfl⟩ := Prod.mk.injEq .. ▸ Option.some.injEq .. ▸ h
            refine ⟨List.mem_cons_of_mem x hy'mem, ?_⟩
            intro z hz
            rcases List.mem_cons.mp hz with rfl | hz
            · omega
            · exact hy'min z hz

/-- Key dequeue coupling: on a nonempty insertion-order list, the
specification dequeue returns the head of the stable priority sort, and the
stable sort of the remaining insertion-order state is its tail. -/
theorem specDequeue_pqSort {α : Type} :
    ∀ (l : List (α × Int)), l ≠ [] →
      ∃ y ys, specDequeue l = some (y, ys) ∧ pqSort l = y :: pqSort ys := by
  intro l
  induction l with
  | nil => intro h; exact absurd rfl h
  | cons x xs ih =>
      intro _
      cases hxs : specDequeue xs with
      | none =>
          have hnil : xs = [] := (specDequeue_eq_none_iff xs).mp hxs
          subst hnil
          exact ⟨x, [], specDequeue_cons_none hxs, rfl⟩
      | some p =>
          obtain ⟨y, ys⟩ := p
          have hne : xs ≠ [] := by
            intro hc; subst hc; simp [specDequeue] at hxs
          obtain ⟨y0, ys0, hspec0, hsort⟩ := ih hne
          rw [hxs] at hspec0
          obtain ⟨rfl, rfl⟩ := Prod.mk.injEq .. ▸ Option.some.injEq .. ▸ hspec0
          by_cases hle : x.2 ≤ y.2
          · refine ⟨x, xs, ?_, ?_⟩
            · rw [specDequeue_cons_some hxs, if_pos hle]
            · rw [pqSort_cons, hsort, List.orderedInsert,
                if_pos (show byPriority x y from hle)]
          · refine ⟨y, x :: ys, ?_, ?_⟩
            · rw [specDequeue_cons_some hxs, if_neg hle]
            · rw [pqSort_cons, hsort, List.orderedInsert,
                if_neg (show ¬ byPriority x y from hle), pqSort_cons]

/-- Filter-stability of `orderedInsert` at the inserted element's priority:
the insertion point lies before every stored pair of equal priority. -/
theorem filter_orderedInsert_eq {α : Type} (x : α × Int) :
    ∀ l : List (α × Int),
      (List.orderedInsert byPriority x l).filter (fun a => a.2 = x.2) =
        x :: l.filter (fun a => a.2 = x.2) := by
  intro l
  induction l with
  | nil => simp [List.orderedInsert]
  | cons y ys ih =>
      by_cases hle : byPriority x y
      · rw [List.orderedInsert, if_pos hle]
        simp
      · rw [List.orderedInsert, if_neg hle]
        have hy : ¬ (y.2 = x.2) := by
          simp only [byPriority] at hle
          omega
        simp only [List.filter_cons, decide_eq_true_eq, hy, if_false]
        rw [ih]

/-- Filter-stability of `orderedInsert` at any other priority. -/
theorem filter_orderedInsert_ne {α : Type} (x : α × Int) (p : Int)
    (hp : x.2 ≠ p) :
    ∀ l : List (α × Int),
      (List.orderedInsert byPriority x l).filter (fun a => a.2 = p) =
        l.filter (fun a => a.2 = p) := by
  intro l
  induction l with
  | nil => simp [List.orderedInsert, hp]
  | cons y ys ih =>
      by_cases hle : byPriority x y
      · rw [List.orderedInsert, if_pos hle]
        simp [hp]
      · rw [List.orderedInsert, if_neg hle]
        simp only [List.filter_cons]
        rw [ih]

/-- Stability of the model sort: filtering by any fixed priority returns the
stored pairs of that priority in insertion order. -/
theorem filter_pqSort {α : Type} (p : Int) :
    ∀ l : List (α × Int),
      (pqSort l).filter (fun a => a.2 = p) = l.filter (fun a => a.2 = p) := by
  intro l
  induction l with
  | nil => rfl
  | cons x xs ih =>
      rw [pqSort_cons]
      by_cases hx : x.2 = p
      · subst hx
        rw [filter_orderedInsert_eq, ih]
        simp
      · rw [filter_orderedInsert_ne x p hx, ih]
        simp [hx]

/-- A sorted cons's head priority is minimal among all members. -/
theorem sorted_head_min {α : Type} {u : α × Int} {s : List (α × Int)}
    (h : List.Sorted byPriority (u :: s)) :
    ∀ m ∈ u :: s, u.2 ≤ m.2 := by
  intro m hm
  rcases List.mem_cons.mp hm with rfl | hm
  · exact le_refl _
  · exact (List.sorted_cons.mp h).1 m hm

/-- Two priority-sorted lists with identical per-priority filters are
equal (uniqueness of a stable sort). -/
theorem sorted_filter_unique {α : Type} :
    ∀ (s₁ s₂ : List (α × Int)), s₁.Sorted byPriority → s₂.Sorted byPriority →
      (∀ p : Int, s₁.filter (fun a => a.2 = p) = s₂.filter (fun a => a.2 = p)) →
      s₁ = s₂ := by
  intro s₁
  induction s₁ with
  | nil =>
      intro s₂ _ _ hf
      cases s₂ with
      | nil => rfl
      | cons b t₂ =>
          have hb := hf b.2
          simp at hb
  | cons a t₁ ih =>
      intro s₂ h₁ h₂ hf
      cases s₂ with
      | nil =>
          have ha := hf a.2
          simp at ha
      | cons b t₂ =>
          have hamem : a ∈ b :: t₂ := by
            have hmem : a ∈ List.filter (fun z => decide (z.2 = a.2)) (a :: t₁) := by
              simp
            rw [hf a.2] at hmem
            exact List.mem_of_mem_filter hmem
          have hbmem : b ∈ a :: t₁ := by
            have hmem : b ∈ List.filter (fun z => decide (z.2 = b.2)) (b :: t₂) := by
              simp
            rw [← hf b.2] at hmem
            exact List.mem_of_mem_filter hmem
          have hab : a.2 = b.2 := by
            have h1 := sorted_head_min h₂ a hamem
            have h2 := sorted_head_min h₁ b hbmem
            omega
          have hfa := hf a.2
          rw [List.filter_cons, List.filter_cons] at hfa
          rw [if_pos (by simp), if_pos (by simp [hab.symm])] at hfa
          obtain ⟨haeq, htail⟩ := List.cons_eq_cons.mp hfa
          subst haeq
          refine congrArg (a :: ·) (ih t₂ (List.sorted_cons.mp h₁).2
            (List.sorted_cons.mp h₂).2 ?_)
          intro p
          by_cases hp : a.2 = p
          · subst hp
            exact htail
          · have hq := hf p
            simpa only [List.filter_cons, decide_eq_true_eq, if_neg hp,
              if_neg (hab ▸ hp)] using hq

/-- Sorting an already stably-sorted backing array together with a pushed
element gives the same result as stably sorting the insertion-order list with
that element appended (JS re-sorts the whole array on every enqueue). -/
theorem pqSort_pqSort_append {α : Type} (l : List (α × Int)) (x : α × Int) :
    pqSort (pqSort l ++ [x]) = pqSort (l ++ [x]) := by
  apply sorted_filter_unique
  · exact List.sorted_insertionSort byPriority _
  · exact List.sorted_insertionSort byPriority _
  · intro p
    rw [filter_pqSort, filter_pqSort, List.filter_append, List.filter_append,
      filter_pqSort]

/-- Refinement: running any operation sequence against the implementation
started from a stable sort of the insertion-order state produces the same
dequeue outputs as the specification queue. -/
theorem implRun_eq_specRun {α : Type} :
    ∀ (ops : List (PQOp α)) (l : List (α × Int)),
      implRun ⟨pqSort l⟩ ops = specRun l ops := by
  intro ops
  induction ops with
  | nil => intro l; rfl
  | cons op rest ih =>
      intro l
      cases op with
      | enq e p =>
          show implRun (PQ.enqueue ⟨pqSort l⟩ e p) rest = specRun (l ++ [(e, p)]) rest
          have : PQ.enqueue (⟨pqSort l⟩ : PriorityQueue α) e p =
              ⟨pqSort (l ++ [(e, p)])⟩ := by
            simp only [PQ.enqueue, pqSort_pqSort_append]
          rw [this, ih]
      | deq =>
          cases hl : l with
          | nil =>
              show implRun ⟨pqSort []⟩ (.deq :: rest) = specRun [] (.deq :: rest)
              simp only [implRun, specRun, specDequeue, PQ.dequeue, pqSort,
                List.insertionSort]
              exact congrArg (none :: ·) (ih [])
          | cons a t =>
              obtain ⟨y, ys, hspec, hsort⟩ :=
                specDequeue_pqSort (a :: t) (by simp)
              show implRun ⟨pqSort (a :: t)⟩ (.deq :: rest) =
                specRun (a :: t) (.deq :: rest)
              rw [show implRun ⟨pqSort (a :: t)⟩ (.deq :: rest) =
                    some y :: implRun ⟨pqSort ys⟩ rest by
                  simp only [implRun, hsort, PQ.dequeue]]
              rw [show specRun (a :: t) (.deq :: rest) =
                    some y :: specRun ys rest by
                  simp only [specRun, hspec]]
              rw [ih]

/-- C7: the implementation queue refines the stable min-first queue — for
every operation sequence run from the empty queue, each `dequeue()` removes
and returns the stored pair of smallest priority, earliest-inserted on ties
(the specification dequeue, whose minimality is `specDequeue_min`); in
particular enqueuing (A,5), (B,2), (C,2) and dequeuing twice yields B then
C. -/
theorem priority_queue_stable_min :
    (∀ (α : Type) (ops : List (PQOp α)),
        implRun (⟨[]⟩ : PriorityQueue α) ops = specRun [] ops) ∧
    (∀ (α : Type) (l : List (α × Int)) (y : α × Int) (ys : List (α × Int)),
        specDequeue l = some (y, ys) → y ∈ l ∧ ∀ z ∈ l, y.2 ≤ z.2) ∧
    (∃ q1 q2 : PriorityQueue String,
        PQ.dequeue (PQ.enqueue (PQ.enqueue (PQ.enqueue ⟨[]⟩ "A" 5) "B" 2) "C" 2) =
          some (("B", 2), q1) ∧
        PQ.dequeue q1 = some (("C", 2), q2)) := by
  refine ⟨fun α ops => implRun_eq_specRun ops [], fun α => specDequeue_min, ?_⟩
  exact ⟨⟨[("C", 2), ("A", 5)]⟩, ⟨[("A", 5)]⟩, by decide, by decide⟩

end PriorityQueueProofs

section DfsProofs

/-- Steps appended by a state-threading fold whose every application only
appends steps satisfying `P`. -/
theorem foldl_steps_delta (P : PathStep → Prop) (f : DfsState → Pos → DfsState)
    (hf : ∀ acc nb, ∃ delta, (f acc nb).steps = acc.steps ++ delta ∧
        ∀ s ∈ delta, P s) :
    ∀ (l : List Pos) (acc : DfsState), ∃ delta,
      (l.foldl f acc).steps = acc.steps ++ delta ∧ ∀ s ∈ delta, P s := by
  intro l
  induction l with
  | nil => exact fun acc => ⟨[], by simp⟩
  | cons nb rest ih =>
      intro acc
      obtain ⟨d1, hd1, hp1⟩ := hf acc nb
      obtain ⟨d2, hd2, hp2⟩ := ih (f acc nb)
      refine ⟨d1 ++ d2, ?_, ?_⟩
      · simp only [List.foldl_cons, hd2, hd1, List.append_assoc]
      · intro s hs
        rcases List.mem_append.mp hs with h | h
        · exact hp1 s h
        · exact hp2 s h

/-- Every step appended by `dfsVisit` is a `visit`, `discover` or
`backtrack` step. -/
theorem dfsVisit_steps_delta (rows cols : Int) (walls : Finset Pos) :
    ∀ (fuel : Nat) (st : DfsState) (node : Pos) (depth : Nat), ∃ delta,
      (dfsVisit rows cols walls fuel st node depth).steps = st.steps ++ delta ∧
      ∀ s ∈ delta,
        s.type = .visit ∨ s.type = .discover ∨ s.type = .backtrack := by
  intro fuel
  induction fuel with
  | zero => exact fun st node depth => ⟨[], by simp [dfsVisit]⟩
  | succ fuel ih =>
      intro st node depth
      by_cases h : node ∈ st.visited ∨ node ∈ walls
      · exact ⟨[], by simp [dfsVisit, h]⟩
      · have hf : ∀ (acc : DfsState) (nb : Pos), ∃ delta,
            (dfsNeighborStep walls node depth
              (dfsVisit rows cols walls fuel) acc nb).steps =
              acc.steps ++ delta ∧
            ∀ s ∈ delta,
              s.type = .visit ∨ s.type = .discover ∨ s.type = .backtrack := by
          intro acc nb
          by_cases hnb : nb ∉ acc.visited ∧ nb ∉ walls
          · simp only [dfsNeighborStep, if_pos hnb]
            obtain ⟨d2, hd2, hp2⟩ := ih
              { steps := acc.steps ++
                  [{ type := .discover, current := some node,
                     neighbor := some nb, visited := some acc.visited,
                     depth := some (depth + 1) }],
                visited := acc.visited } nb (depth + 1)
            rw [hd2]
            refine ⟨{ type := .discover, current := some node,
                      neighbor := some nb, visited := some acc.visited,
                      depth := some (depth + 1) } ::
                    (d2 ++
                     [{ type := .backtrack, current := some nb,
                        parent := some node,
                        visited := some ((dfsVisit rows cols walls fuel
                          { steps := acc.steps ++
                              [{ type := .discover, current := some node,
                                 neighbor := some nb,
                                 visited := some acc.visited,
                                 depth := some (depth + 1) }],
                            visited := acc.visited } nb (depth + 1)).visited) }]),
                    by simp, ?_⟩
            intro s hs
            rcases List.mem_cons.mp hs with rfl | hs'
            · exact Or.inr (Or.inl rfl)
            · rcases List.mem_append.mp hs' with h'' | h''
              · exact hp2 s h''
              · rcases List.mem_singleton.mp h'' with rfl
                exact Or.inr (Or.inr rfl)
          · exact ⟨[], by simp [dfsNeighborStep, if_neg hnb], by simp⟩
        obtain ⟨delta, hd, hp⟩ := foldl_steps_delta _ _ hf
          (getNeighbors node.row node.col rows cols)
          { steps := st.steps ++
              [{ type := .visit, current := some node,
                 visited := some (insert node st.visited),
                 depth := some depth }],
            visited := insert node st.visited }
        refine ⟨{ type := .visit, current := some node,
                  visited := some (insert node st.visited),
                  depth := some depth } :: delta, ?_, ?_⟩
        · show (dfsVisit rows cols walls (fuel + 1) st node depth).steps = _
          simp only [dfsVisit, if_neg h]
          rw [hd]
          simp
        · intro s hs
          rcases List.mem_cons.mp hs with rfl | h'
          · exact Or.inl rfl
          · exact hp s h'

/-- Counterexample to C6 as stated: on a 1-by-2 grid whose start cell (0,0)
is itself a wall, the initial `dfsHelper(start)` call returns silently — the
emitted sequence is just `init`, `complete`, with no `null-node` step
anywhere. -/
theorem dfs_wall_start_counterexample :
    (⟨0, 0⟩ : Pos) ∈ ({⟨0, 0⟩} : Finset Pos) ∧
    (dfs 1 2 ⟨0, 0⟩ {⟨0, 0⟩}).map (fun s => s.type) =
      [.init, .complete] ∧
    ∀ s ∈ dfs 1 2 ⟨0, 0⟩ {⟨0, 0⟩}, s.type ≠ .nullNode := by
  decide

/-- C6 (amended): a `dfs` recursive call on an already-visited or wall node
returns without emitting any step at all, and no step of the grid DFS ever
has type `null-node` (only the tree traversals emit `null-node`). -/
theorem dfs_silent_skip_no_nullNode :
    (∀ (rows cols : Int) (walls : Finset Pos) (fuel : Nat) (st : DfsState)
        (node : Pos) (depth : Nat),
        node ∈ st.visited ∨ node ∈ walls →
        dfsVisit rows cols walls fuel st node depth = st) ∧
    (∀ (rows cols : Int) (start : Pos) (walls : Finset Pos),
        ∀ s ∈ dfs rows cols start walls, s.type ≠ .nullNode) := by
  constructor
  · intro rows cols walls fuel st node depth h
    cases fuel with
    | zero => rfl
    | succ fuel => simp [dfsVisit, h]
  · intro rows cols start walls s hs
    obtain ⟨delta, hd, hp⟩ := dfsVisit_steps_delta rows cols walls
      (dfsFuel rows cols)
      { steps := [{ type := .init, current := some start,
                    visited := some (∅ : Finset Pos) }],
        visited := ∅ } start 0
    rw [show dfs rows cols start walls = _ from rfl] at hs
    simp only [dfs] at hs
    rw [hd] at hs
    rcases List.mem_append.mp hs with h | h
    · rcases List.mem_append.mp h with h' | h'
      · rcases List.mem_singleton.mp h' with rfl
        simp
      · rcases hp s h' with h'' | h'' | h'' <;> simp [h'']
    · rcases List.mem_singleton.mp h with rfl
      simp

/-- Witness for the amended C6: a concrete silent skip — calling the DFS
helper on the wall cell (0,0) leaves the state unchanged. -/
theorem dfs_silent_skip_no_nullNode_witness :
    dfsVisit 1 2 {⟨0, 0⟩} 4
      { steps := [], visited := ∅ } ⟨0, 0⟩ 0 =
      { steps := [], visited := ∅ } :=
  dfs_silent_skip_no_nullNode.1 1 2 {⟨0, 0⟩} 4
    { steps := [], visited := ∅ } ⟨0, 0⟩ 0 (Or.inr (by decide))

end DfsProofs

section GridProofs

/-- The in-bounds cells of a `rows` by `cols` grid, as a finite set. -/
def gridCells (rows cols : Int) : Finset Pos :=
  ((Finset.range rows.toNat) ×ˢ (Finset.range cols.toNat)).image
    (fun p => ⟨(p.1 : Int), (p.2 : Int)⟩)

theorem mem_gridCells {rows cols : Int} {v : Pos} :
    v ∈ gridCells rows cols ↔
      0 ≤ v.row ∧ v.row < rows ∧ 0 ≤ v.col ∧ v.col < cols := by
  obtain ⟨r, c⟩ := v
  simp only [gridCells, Finset.mem_image, Finset.mem_product, Finset.mem_range]
  constructor
  · rintro ⟨⟨a, b⟩, ⟨ha, hb⟩, hv⟩
    cases hv
    refine ⟨?_, ?_, ?_, ?_⟩ <;> simp <;> omega
  · rintro ⟨h1, h2, h3, h4⟩
    refine ⟨⟨r.toNat, c.toNat⟩, ⟨by omega, by omega⟩, ?_⟩
    simp only [Pos.mk.injEq]
    omega

theorem gridCells_card (rows cols : Int) :
    (gridCells rows cols).card = rows.toNat * cols.toNat := by
  rw [gridCells, Finset.card_image_of_injective _ (fun a b h => ?_),
    Finset.card_product, Finset.card_range, Finset.card_range]
  simp only [Pos.mk.injEq] at h
  obtain ⟨h1, h2⟩ := h
  exact Prod.ext (by exact_mod_cast h1) (by exact_mod_cast h2)

theorem getNeighbors_subset_gridCells {r c rows cols : Int} {v : Pos}
    (h : v ∈ getNeighbors r c rows cols) : v ∈ gridCells rows cols := by
  simp only [getNeighbors, List.mem_filterMap] at h
  obtain ⟨d, _, hd⟩ := h
  by_cases hcond : 0 ≤ r + d.1 ∧ r + d.1 < rows ∧ 0 ≤ c + d.2 ∧ c + d.2 < cols
  · rw [if_pos hcond] at hd
    obtain rfl := Option.some.injEq .. ▸ hd
    exact mem_gridCells.mpr (by simpa using hcond)
  · rw [if_neg hcond] at hd
    exact Option.noConfusion hd

theorem getNeighbors_length_le (r c rows cols : Int) :
    (getNeighbors r c rows cols).length ≤ 4 := by
  classical
  calc (getNeighbors r c rows cols).length
      ≤ ([(-1, 0), (1, 0), (0, -1), (0, 1)] : List (Int × Int)).length :=
        List.length_filterMap_le _ _
    _ = 4 := rfl

/-- The cells any pathfinding or traversal state can ever mention: the
in-bounds cells plus the start cell (which the sources never bounds-check). -/
def allowedCells (rows cols : Int) (start : Pos) : Finset Pos :=
  insert start (gridCells rows cols)

theorem allowedCells_card_le (rows cols : Int) (start : Pos) :
    (allowedCells rows cols start).card ≤ rows.toNat * cols.toNat + 1 := by
  calc (allowedCells rows cols start).card
      ≤ (gridCells rows cols).card + 1 := Finset.card_insert_le _ _
    _ = rows.toNat * cols.toNat + 1 := by rw [gridCells_card]

end GridProofs

section BfsProofs

/-- The BFS invariant: every queued cell is visited, and every visited cell
is an allowed cell. -/
def BfsInv (rows cols : Int) (start : Pos) (st : BfsState) : Prop :=
  (∀ v ∈ st.queue, v ∈ st.visited) ∧
  (st.visited : Finset Pos) ⊆ allowedCells rows cols start

/-- Effect of the BFS discover loop: it appends `discover` steps whose
visited snapshots extend the entry snapshot, extends the queue at the back,
grows the visited set, preserves the invariant, and keeps
`queue length + unvisited-allowed-cells` unchanged. -/
theorem bfsDiscover_effect (rows cols : Int) (start : Pos)
    (walls : Finset Pos) (current : Pos) :
    ∀ (l : List Pos) (st : BfsState),
      (∀ nb ∈ l, nb ∈ gridCells rows cols) →
      BfsInv rows cols start st →
      (∃ delta,
        (bfsDiscover walls current l st).steps = st.steps ++ delta ∧
        ∀ s ∈ delta, s.type = .discover ∧
          ∃ w, s.visited = some w ∧ st.visited ⊆ w) ∧
      st.visited ⊆ (bfsDiscover walls current l st).visited ∧
      BfsInv rows cols start (bfsDiscover walls current l st) ∧
      (bfsDiscover walls current l st).queue.length +
          ((allowedCells rows cols start) \
            (bfsDiscover walls current l st).visited).card =
        st.queue.length + ((allowedCells rows cols start) \ st.visited).card := by
  intro l
  induction l with
  | nil =>
      intro st _ hinv
      exact ⟨⟨[], by simp [bfsDiscover], by simp⟩, Finset.Subset.refl _, hinv, rfl⟩
  | cons nb rest ih =>
      intro st hl hinv
      by_cases hnb : nb ∉ st.visited ∧ nb ∉ walls
      · have hnbcells : nb ∈ gridCells rows cols := hl nb (List.mem_cons_self _ _)
        have hnballowed : nb ∈ allowedCells rows cols start :=
          Finset.mem_insert_of_mem hnbcells
        have hstep : bfsDiscover walls current (nb :: rest) st =
            bfsDiscover walls current rest
              { steps := st.steps ++
                  [{ type := .discover, current := some current,
                     neighbor := some nb,
                     visited := some (insert nb st.visited),
                     queueSize := some (st.queue ++ [nb]).length }],
                visited := insert nb st.visited,
                queue := st.queue ++ [nb] } := by
          simp [bfsDiscover, hnb]
        set st1 : BfsState :=
          { steps := st.steps ++
              [{ type := .discover, current := some current,
                 neighbor := some nb,
                 visited := some (insert nb st.visited),
                 queueSize := some (st.queue ++ [nb]).length }],
            visited := insert nb st.visited,
            queue := st.queue ++ [nb] } with hst1
        have hinv1 : BfsInv rows cols start st1 := by
          constructor
          · intro v hv
            rcases List.mem_append.mp hv with h | h
            · exact Finset.mem_insert_of_mem (hinv.1 v h)
            · rcases List.mem_singleton.mp h with rfl
              exact Finset.mem_insert_self _ _
          · intro v hv
            rcases Finset.mem_insert.mp hv with rfl | hv
            · exact hnballowed
            · exact hinv.2 hv
        have hmeas1 : st1.queue.length +
            ((allowedCells rows cols start) \ st1.visited).card =
            st.queue.length + ((allowedCells rows cols start) \ st.visited).card := by
          have hmem : nb ∈ (allowedCells rows cols start) \ st.visited :=
            Finset.mem_sdiff.mpr ⟨hnballowed, hnb.1⟩
          have : (allowedCells rows cols start) \ insert nb st.visited =
              ((allowedCells rows cols start) \ st.visited).erase nb := by
            ext x
            simp only [Finset.mem_sdiff, Finset.mem_insert, Finset.mem_erase]
            tauto
          rw [hst1]
          simp only [List.length_append, List.length_singleton]
          rw [this, Finset.card_erase_of_mem hmem]
          have hpos : 0 < ((allowedCells rows cols start) \ st.visited).card :=
            Finset.card_pos.mpr ⟨nb, hmem⟩
          omega
        obtain ⟨⟨delta, hdelta, hdp⟩, hmono, hinv2, hmeas2⟩ :=
          ih st1 (fun x hx => hl x (List.mem_cons_of_mem _ hx)) hinv1
        rw [hstep]
        refine ⟨⟨{ type := .discover, current := some current,
                   neighbor := some nb,
                   visited := some (insert nb st.visited),
                   queueSize := some (st.queue ++ [nb]).length } :: delta,
                  ?_, ?_⟩, ?_, hinv2, by rw [hmeas2, hmeas1]⟩
        · rw [hdelta, hst1]
          simp
        · intro s hs
          rcases List.mem_cons.mp hs with rfl | hs'
          · exact ⟨rfl, insert nb st.visited, rfl, Finset.subset_insert _ _⟩
          · obtain ⟨ht, w, hw, hsub⟩ := hdp s hs'
            exact ⟨ht, w, hw, le_trans (Finset.subset_insert _ _) hsub⟩
        · exact le_trans (Finset.subset_insert _ _) hmono
      · have hstep : bfsDiscover walls current (nb :: rest) st =
            bfsDiscover walls current rest st := by
          simp only [bfsDiscover, if_neg hnb]
        rw [hstep]
        exact ih st (fun x hx => hl x (List.mem_cons_of_mem _ hx)) hinv

/-- Structure of a sufficiently-fueled BFS loop run: it terminates, appending
`visit`/`discover` steps whose visited snapshots extend the entry snapshot,
then one final `complete` step carrying the final visited set. -/
theorem bfsLoop_structure (rows cols : Int) (start : Pos) (walls : Finset Pos) :
    ∀ (fuel : Nat) (st : BfsState),
      BfsInv rows cols start st →
      st.queue.length + ((allowedCells rows cols start) \ st.visited).card < fuel →
      ∃ delta v,
        bfsLoop rows cols walls fuel st =
          some (st.steps ++ delta ++ [{ type := .complete, visited := some v }]) ∧
        st.visited ⊆ v ∧
        ∀ s ∈ delta, (s.type = .visit ∨ s.type = .discover) ∧
          ∃ w, s.visited = some w ∧ st.visited ⊆ w := by
  intro fuel
  induction fuel with
  | zero => intro st _ hm; omega
  | succ fuel ih =>
      intro st hinv hm
      cases hq : st.queue with
      | nil =>
          refine ⟨[], st.visited, ?_, Finset.Subset.refl _, by simp⟩
          simp only [bfsLoop, hq]
          simp
      | cons current rest =>
          set st1 : BfsState :=
            { steps := st.steps ++
                [{ type := .visit, current := some current,
                   visited := some st.visited }],
              visited := st.visited, queue := rest } with hst1
          have hinv1 : BfsInv rows cols start st1 := by
            constructor
            · intro x hx
              exact hinv.1 x (by rw [hq]; exact List.mem_cons_of_mem _ hx)
            · exact hinv.2
          obtain ⟨⟨dd, hdd, hddp⟩, hmono, hinv2, hmeas⟩ :=
            bfsDiscover_effect rows cols start walls current
              (getNeighbors current.row current.col rows cols) st1
              (fun nb hnb => getNeighbors_subset_gridCells hnb) hinv1
          have hm2 : (bfsDiscover walls current
              (getNeighbors current.row current.col rows cols) st1).queue.length +
              ((allowedCells rows cols start) \
                (bfsDiscover walls current
                  (getNeighbors current.row current.col rows cols) st1).visited).card
              < fuel := by
            rw [hmeas, hst1]
            simp only [List.length_cons] at hm ⊢
            rw [hq] at hm
            simp only [List.length_cons] at hm
            omega
          obtain ⟨delta, v, hloop, hsub, hdp⟩ := ih _ hinv2 hm2
          refine ⟨({ type := .visit, current := some current,
                     visited := some st.visited } : PathStep) :: (dd ++ delta),
                  v, ?_, le_trans (le_trans (by rw [hst1]) hmono) hsub, ?_⟩
          · have hrun : bfsLoop rows cols walls (fuel + 1) st =
                bfsLoop rows cols walls fuel
                  (bfsDiscover walls current
                    (getNeighbors current.row current.col rows cols) st1) := by
              simp only [bfsLoop, hq]
            rw [hrun, hloop, hdd, hst1]
            simp
          · intro x hx
            rcases List.mem_cons.mp hx with rfl | hx'
            · exact ⟨Or.inl rfl, st.visited, rfl, Finset.Subset.refl _⟩
            · rcases List.mem_append.mp hx' with h' | h'
              · obtain ⟨ht, w, hw, hsubw⟩ := hddp x h'
                exact ⟨Or.inr ht, w, hw, by rw [hst1] at hsubw; exact hsubw⟩
              · obtain ⟨ht, w, hw, hsubw⟩ := hdp x h'
                refine ⟨ht, w, hw, le_trans ?_ hsubw⟩
                exact le_trans (by rw [hst1]) hmono

/-- Structure of the full `bfs` output: `init` first, then `visit`/`discover`
steps, then exactly one `complete` step; the start cell is in every step's
visited snapshot (it is marked visited before the wall set is ever
consulted). -/
theorem bfs_structure (rows cols : Int) (start : Pos) (walls : Finset Pos) :
    ∃ delta v,
      bfs rows cols start walls =
        ({ type := .init, current := some start,
           visited := some ({start} : Finset Pos) } : PathStep) ::
          (delta ++ [{ type := .complete, visited := some v }]) ∧
      ({start} : Finset Pos) ⊆ v ∧
      ∀ s ∈ delta, (s.type = .visit ∨ s.type = .discover) ∧
        ∃ w, s.visited = some w ∧ ({start} : Finset Pos) ⊆ w := by
  set st0 : BfsState :=
    { steps := [{ type := .init, current := some start,
                  visited := some ({start} : Finset Pos) }],
      visited := {start}, queue := [start] } with hst0
  have hinv : BfsInv rows cols start st0 := by
    constructor
    · intro x hx
      rcases List.mem_singleton.mp hx with rfl
      exact Finset.mem_singleton_self x
    · intro x hx
      rcases Finset.mem_singleton.mp hx with rfl
      exact Finset.mem_insert_self _ _
  have hstart : ({start} : Finset Pos) ⊆ allowedCells rows cols start := by
    intro x hx
    rcases Finset.mem_singleton.mp hx with rfl
    exact Finset.mem_insert_self _ _
  have hm : st0.queue.length +
      ((allowedCells rows cols start) \ st0.visited).card < bfsFuel rows cols := by
    have hcard : ((allowedCells rows cols start) \ st0.visited).card =
        (allowedCells rows cols start).card - 1 := by
      rw [hst0]
      rw [Finset.card_sdiff hstart]
      simp
    have hle := allowedCells_card_le rows cols start
    have hpos : 0 < (allowedCells rows cols start).card :=
      Finset.card_pos.mpr ⟨start, Finset.mem_insert_self _ _⟩
    rw [hst0]
    simp only [List.length_singleton]
    rw [hcard]
    simp only [bfsFuel]
    omega
  obtain ⟨delta, v, hloop, hsub, hdp⟩ :=
    bfsLoop_structure rows cols start walls (bfsFuel rows cols) st0 hinv hm
  refine ⟨delta, v, ?_, hsub, ?_⟩
  · simp only [bfs, hloop]
    simp [hst0]
  · intro x hx
    obtain ⟨ht, w, hw, hsubw⟩ := hdp x hx
    exact ⟨ht, w, hw, hsubw⟩

/-- C10: even when the start cell is a wall, bfs marks it visited before the
main loop (the wall set is only consulted for neighbors), so the start is in
every emitted step's visited snapshot — the `init` snapshot is exactly
`{start}` — and the final `complete` step's visited set has size at least
one. -/
theorem bfs_wall_start_visited (rows cols : Int) (start : Pos)
    (walls : Finset Pos) (hwall : start ∈ walls) :
    ((bfs rows cols start walls).head? = some
        { type := .init, current := some start,
          visited := some ({start} : Finset Pos) }) ∧
    (∀ s ∈ bfs rows cols start walls, ∃ w, s.visited = some w ∧ start ∈ w) ∧
    (∃ v, (bfs rows cols start walls).getLast? =
        some { type := .complete, visited := some v } ∧ start ∈ v ∧ 1 ≤ v.card) := by
  obtain ⟨delta, v, heq, hsub, hdp⟩ := bfs_structure rows cols start walls
  have hstartv : start ∈ v := hsub (Finset.mem_singleton_self start)
  refine ⟨by rw [heq]; rfl, ?_, v, ?_, hstartv, ?_⟩
  · intro s hs
    rw [heq] at hs
    rcases List.mem_cons.mp hs with rfl | hs'
    · exact ⟨{start}, rfl, Finset.mem_singleton_self start⟩
    · rcases List.mem_append.mp hs' with h' | h'
      · obtain ⟨-, w, hw, hsubw⟩ := hdp s h'
        exact ⟨w, hw, hsubw (Finset.mem_singleton_self start)⟩
      · rcases List.mem_singleton.mp h' with rfl
        exact ⟨v, rfl, hstartv⟩
  · have hconcat : bfs rows cols start walls =
        (({ type := .init, current := some start,
            visited := some ({start} : Finset Pos) } : PathStep) :: delta) ++
          [{ type := .complete, visited := some v }] := by
      rw [heq]
      simp
    rw [hconcat, List.getLast?_concat]
  · exact Finset.card_pos.mpr ⟨start, hstartv⟩ 

/-- Witness for C10 on a 1-by-2 grid whose start (0,0) is a wall. -/
theorem bfs_wall_start_visited_witness :
    ((bfs 1 2 ⟨0, 0⟩ {⟨0, 0⟩}).head? = some
        { type := .init, current := some ⟨0, 0⟩,
          visited := some ({⟨0, 0⟩} : Finset Pos) }) ∧
    (∀ s ∈ bfs 1 2 ⟨0, 0⟩ {⟨0, 0⟩}, ∃ w, s.visited = some w ∧ (⟨0, 0⟩ : Pos) ∈ w) ∧
    (∃ v, (bfs 1 2 ⟨0, 0⟩ {⟨0, 0⟩}).getLast? =
        some { type := .complete, visited := some v } ∧
        (⟨0, 0⟩ : Pos) ∈ v ∧ 1 ≤ v.card) :=
  bfs_wall_start_visited 1 2 ⟨0, 0⟩ {⟨0, 0⟩} (by decide)

end BfsProofs

section DijkstraProofs

/-- Membership in an enqueued priority queue. -/
theorem PQ.mem_enqueue {α : Type} {q : PriorityQueue α} {e : α} {p : Int}
    {x : α × Int} :
    x ∈ (PQ.enqueue q e p).values ↔ x ∈ q.values ∨ x = (e, p) := by
  simp only [PQ.enqueue, pqSort]
  rw [(List.perm_insertionSort byPriority (q.values ++ [(e, p)])).mem_iff]
  simp

/-- Length of an enqueued priority queue. -/
theorem PQ.length_enqueue {α : Type} (q : PriorityQueue α) (e : α) (p : Int) :
    (PQ.enqueue q e p).values.length = q.values.length + 1 := by
  simp only [PQ.enqueue, pqSort]
  rw [(List.perm_insertionSort byPriority (q.values ++ [(e, p)])).length_eq]
  simp

/-- Counting helper: inserting a fresh member of `s` into `t` shrinks
`s \ t` by exactly one. -/
theorem card_sdiff_insert_fresh {s t : Finset Pos} {x : Pos}
    (hx : x ∈ s) (hnx : x ∉ t) :
    (s \ t).card = (s \ insert x t).card + 1 := by
  have hmem : x ∈ s \ t := Finset.mem_sdiff.mpr ⟨hx, hnx⟩
  have : s \ insert x t = (s \ t).erase x := by
    ext y
    simp only [Finset.mem_sdiff, Finset.mem_insert, Finset.mem_erase]
    tauto
  rw [this, Finset.card_erase_of_mem hmem]
  have hpos : 0 < (s \ t).card := Finset.card_pos.mpr ⟨x, hmem⟩
  omega

/-- The Dijkstra loop invariant: every queued or visited cell is an allowed
cell and is reachable from the start through non-wall cells. -/
def DijkInv (rows cols : Int) (start : Pos) (walls : Finset Pos)
    (st : DijkstraState) : Prop :=
  (∀ e ∈ st.pq.values, e.1 ∈ allowedCells rows cols start ∧
      Reachable rows cols walls start e.1) ∧
  (∀ v ∈ st.visited, v ∈ allowedCells rows cols start ∧
      Reachable rows cols walls start v)

/-- Effect of the Dijkstra relaxation loop over a neighbor list: it appends
only `update` steps, leaves the visited set unchanged, adds at most one queue
entry per neighbor, and every new queue entry is a non-wall neighbor from the
list. -/
theorem dijkstraRelax_effect (walls : Finset Pos) (current : Pos)
    (currentDist : Int) :
    ∀ (l : List Pos) (st : DijkstraState),
      (∃ delta, (dijkstraRelax walls current currentDist l st).steps =
          st.steps ++ delta ∧ ∀ s ∈ delta, s.type = .update) ∧
      (dijkstraRelax walls current currentDist l st).visited = st.visited ∧
      (∀ e ∈ (dijkstraRelax walls current currentDist l st).pq.values,
          e ∈ st.pq.values ∨ (e.1 ∈ l ∧ e.1 ∉ walls)) ∧
      (dijkstraRelax walls current currentDist l st).pq.values.length ≤
        st.pq.values.length + l.length := by
  intro l
  induction l with
  | nil =>
      intro st
      exact ⟨⟨[], by simp [dijkstraRelax], by simp⟩, rfl,
        fun e he => Or.inl he, by simp [dijkstraRelax]⟩
  | cons nb rest ih =>
      intro st
      by_cases hskip : nb ∈ walls ∨ nb ∈ st.visited
      · have hstep : dijkstraRelax walls current currentDist (nb :: rest) st =
            dijkstraRelax walls current currentDist rest st := by
          simp only [dijkstraRelax, if_pos hskip]
        rw [hstep]
        obtain ⟨⟨d, hd, hdp⟩, hv, hpq, hlen⟩ := ih st
        exact ⟨⟨d, hd, hdp⟩, hv,
          fun e he => (hpq e he).imp_right
            (fun ⟨h1, h2⟩ => ⟨List.mem_cons_of_mem _ h1, h2⟩),
          by simpa using Nat.le_succ_of_le hlen⟩
      · push_neg at hskip
        have hstep0 : dijkstraRelax walls current currentDist (nb :: rest) st =
            (let newDist := currentDist + 1
             let improves : Bool :=
               match mapGet st.distances nb with
               | none => true
               | some oldDist => decide (newDist < oldDist)
             if improves then
               dijkstraRelax walls current currentDist rest
                 { steps := st.steps ++
                     [{ type := .update, current := some current,
                        neighbor := some nb, distance := some newDist,
                        visited := some st.visited }],
                   distances := mapSet st.distances nb newDist,
                   previous := mapSet st.previous nb current,
                   visited := st.visited,
                   pq := PQ.enqueue st.pq nb newDist }
             else dijkstraRelax walls current currentDist rest st) := by
          simp only [dijkstraRelax, if_neg (by tauto : ¬ (nb ∈ walls ∨ nb ∈ st.visited))]
        by_cases himp : (match mapGet st.distances nb with
            | none => true
            | some oldDist => decide (currentDist + 1 < oldDist)) = true
        · set st1 : DijkstraState :=
            { steps := st.steps ++
                [{ type := .update, current := some current,
                   neighbor := some nb, distance := some (currentDist + 1),
                   visited := some st.visited }],
              distances := mapSet st.distances nb (currentDist + 1),
              previous := mapSet st.previous nb current,
              visited := st.visited,
              pq := PQ.enqueue st.pq nb (currentDist + 1) } with hst1
          have hstep : dijkstraRelax walls current currentDist (nb :: rest) st =
              dijkstraRelax walls current currentDist rest st1 := by
            rw [hstep0]
            simp only [if_pos himp, hst1]
          rw [hstep]
          obtain ⟨⟨d, hd, hdp⟩, hv, hpq, hlen⟩ := ih st1
          refine ⟨⟨{ type := .update, current := some current,
                     neighbor := some nb, distance := some (currentDist + 1),
                     visited := some st.visited } :: d, ?_, ?_⟩, ?_, ?_, ?_⟩
          · rw [hd, hst1]
            simp
          · intro x hx
            rcases List.mem_cons.mp hx with rfl | hx'
            · rfl
            · exact hdp x hx'
          · rw [hv, hst1]
          · intro e he
            rcases hpq e he with h | h
            · rw [hst1] at h
              rcases PQ.mem_enqueue.mp h with h' | h'
              · exact Or.inl h'
              · exact Or.inr ⟨by rw [h']; exact List.mem_cons_self _ _, by
                  rw [h']; exact hskip.1⟩
            · exact Or.inr ⟨List.mem_cons_of_mem _ h.1, h.2⟩
          · calc (dijkstraRelax walls current currentDist rest st1).pq.values.length
                ≤ st1.pq.values.length + rest.length := hlen
              _ = st.pq.values.length + 1 + rest.length := by
                  rw [hst1]; simp [PQ.length_enqueue]
              _ = st.pq.values.length + (nb :: rest).length := by simp; omega
        · have hstep : dijkstraRelax walls current currentDist (nb :: rest) st =
              dijkstraRelax walls current currentDist rest st := by
            rw [hstep0]
            simp only [if_neg himp]
          rw [hstep]
          obtain ⟨⟨d, hd, hdp⟩, hv, hpq, hlen⟩ := ih st
          exact ⟨⟨d, hd, hdp⟩, hv,
            fun e he => (hpq e he).imp_right
              (fun ⟨h1, h2⟩ => ⟨List.mem_cons_of_mem _ h1, h2⟩),
            by simpa using Nat.le_succ_of_le hlen⟩

/-- Structure of a sufficiently-fueled Dijkstra loop run: it terminates,
appending `visit`/`update` steps and then exactly one terminal step, which is
either `no-path`, or `path-found` — and the latter only when the goal really
is reachable from the start through non-wall cells. -/
theorem dijkstraLoop_structure (rows cols : Int) (start endP : Pos)
    (walls : Finset Pos) :
    ∀ (fuel : Nat) (st : DijkstraState),
      DijkInv rows cols start walls st →
      st.pq.values.length +
          5 * ((allowedCells rows cols start \ st.visited).card) < fuel →
      ∃ delta term,
        dijkstraLoop rows cols start endP walls fuel st =
          some (st.steps ++ delta ++ [term]) ∧
        (∀ s ∈ delta, s.type = .visit ∨ s.type = .update) ∧
        (term.type = .noPath ∨
          (term.type = .pathFound ∧ Reachable rows cols walls start endP)) := by
  intro fuel
  induction fuel with
  | zero => intro st _ hm; omega
  | succ fuel ih =>
      intro st hinv hm
      cases hpq : st.pq.values with
      | nil =>
          have hd : PQ.dequeue st.pq = none := by
            simp [PQ.dequeue, hpq]
          refine ⟨[], { type := .noPath, visited := some st.visited }, ?_,
            by simp, Or.inl rfl⟩
          simp only [dijkstraLoop, hd]
          simp
      | cons x rest =>
          obtain ⟨current, currentDist⟩ := x
          have hd : PQ.dequeue st.pq =
              some ((current, currentDist), ⟨rest⟩) := by
            simp [PQ.dequeue, hpq]
          by_cases hvis : current ∈ st.visited
          · have hinv' : DijkInv rows cols start walls { st with pq := ⟨rest⟩ } := by
              refine ⟨fun e he => hinv.1 e ?_, hinv.2⟩
              rw [hpq]
              exact List.mem_cons_of_mem _ he
            have hm' : ({ st with pq := ⟨rest⟩ } : DijkstraState).pq.values.length +
                5 * ((allowedCells rows cols start \
                  ({ st with pq := ⟨rest⟩ } : DijkstraState).visited).card) < fuel := by
              simp only [hpq, List.length_cons] at hm
              simpa using by omega
            obtain ⟨delta, term, hloop, hdp, hterm⟩ := ih _ hinv' hm'
            refine ⟨delta, term, ?_, hdp, hterm⟩
            simp only [dijkstraLoop, hd, if_pos hvis]
            exact hloop
          · obtain ⟨hallow, hreach⟩ := hinv.1 (current, currentDist)
              (by rw [hpq]; exact List.mem_cons_self _ _)
            by_cases hend : current = endP
            · refine ⟨[{ type := .visit, current := some current,
                         distance := some currentDist,
                         visited := some (insert current st.visited) }],
                      { type := .pathFound,
                        path := some (reconstructPath st.previous start endP),
                        distance := some currentDist,
                        visited := some (insert current st.visited) }, ?_,
                      ?_, Or.inr ⟨rfl, hend ▸ hreach⟩⟩
              · simp only [dijkstraLoop, hd, if_neg hvis, if_pos hend]
              · intro s hs
                rcases List.mem_singleton.mp hs with rfl
                exact Or.inl rfl
            · set st1 : DijkstraState :=
                { st with
                  visited := insert current st.visited, pq := ⟨rest⟩,
                  steps := st.steps ++
                    [{ type := .visit, current := some current,
                       distance := some currentDist,
                       visited := some (insert current st.visited) }] } with hst1
              set st2 := dijkstraRelax walls current currentDist
                (getNeighbors current.row current.col rows cols) st1 with hst2
              obtain ⟨⟨rd, hrd, hrdp⟩, hrv, hrpq, hrlen⟩ :=
                dijkstraRelax_effect walls current currentDist
                  (getNeighbors current.row current.col rows cols) st1
              have hinv2 : DijkInv rows cols start walls st2 := by
                constructor
                · intro e he
                  rcases hrpq e he with h | h
                  · rw [hst1] at h
                    refine hinv.1 e ?_
                    rw [hpq]
                    exact List.mem_cons_of_mem _ h
                  · refine ⟨Finset.mem_insert_of_mem
                      (getNeighbors_subset_gridCells h.1), ?_⟩
                    exact Reachable.step hreach h.1 h.2
                · rw [hst2, hrv, hst1]
                  intro v hv
                  rcases Finset.mem_insert.mp hv with rfl | hv'
                  · exact ⟨hallow, hreach⟩
                  · exact hinv.2 v hv'
              have hm2 : st2.pq.values.length +
                  5 * ((allowedCells rows cols start \ st2.visited).card) < fuel := by
                have h1 : st2.pq.values.length ≤ rest.length + 4 := by
                  refine le_trans hrlen ?_
                  rw [hst1]
                  simp only []
                  have := getNeighbors_length_le current.row current.col rows cols
                  omega
                have h2 : (allowedCells rows cols start \ st.visited).card =
                    (allowedCells rows cols start \ st2.visited).card + 1 := by
                  rw [hst2, hrv, hst1]
                  exact card_sdiff_insert_fresh hallow hvis
                rw [hpq] at hm
                simp only [List.length_cons] at hm
                omega
              obtain ⟨delta, term, hloop, hdp, hterm⟩ := ih st2 hinv2 hm2
              refine ⟨({ type := .visit, current := some current,
                         distance := some currentDist,
                         visited := some (insert current st.visited) } : PathStep)
                        :: (rd ++ delta), term, ?_, ?_, hterm⟩
              · have hrun : dijkstraLoop rows cols start endP walls (fuel + 1) st =
                    dijkstraLoop rows cols start endP walls fuel st2 := by
                  simp only [dijkstraLoop, hd, if_neg hvis, if_neg hend]
                rw [hrun, hloop, hrd, hst1]
                simp
              · intro s hs
                rcases List.mem_cons.mp hs with rfl | hs'
                · exact Or.inl rfl
                · rcases List.mem_append.mp hs' with h' | h'
                  · exact Or.inr (hrdp s h')
                  · exact hdp s h'

/-- Structure of the full `dijkstra` output: `init` first, then
`visit`/`update` steps, then exactly one terminal step — `no-path` or
`path-found`, the latter only when the goal is truly reachable. -/
theorem dijkstra_structure (rows cols : Int) (start endP : Pos)
    (walls : Finset Pos) :
    ∃ delta term,
      dijkstra rows cols start endP walls =
        ({ type := .init, startP := some start, endP := some endP } : PathStep) ::
          (delta ++ [term]) ∧
      (∀ s ∈ delta, s.type = .visit ∨ s.type = .update) ∧
      (term.type = .noPath ∨
        (term.type = .pathFound ∧ Reachable rows cols walls start endP)) := by
  set st0 : DijkstraState :=
    { steps := [{ type := .init, startP := some start, endP := some endP }],
      distances := [(start, 0)],
      previous := [],
      visited := ∅,
      pq := PQ.enqueue ⟨[]⟩ start 0 } with hst0
  have hinv : DijkInv rows cols start walls st0 := by
    constructor
    · intro e he
      rw [hst0] at he
      simp only [] at he
      rcases PQ.mem_enqueue.mp he with h | h
      · simp at h
      · rw [h]
        exact ⟨Finset.mem_insert_self _ _, Reachable.base⟩
    · intro v hv
      rw [hst0] at hv
      simp at hv
  have hm : st0.pq.values.length +
      5 * ((allowedCells rows cols start \ st0.visited).card) <
      dijkstraFuel rows cols := by
    rw [hst0]
    simp only [PQ.length_enqueue, Finset.sdiff_empty, List.length_nil]
    have := allowedCells_card_le rows cols start
    simp only [dijkstraFuel]
    omega
  obtain ⟨delta, term, hloop, hdp, hterm⟩ :=
    dijkstraLoop_structure rows cols start endP walls
      (dijkstraFuel rows cols) st0 hinv hm
  refine ⟨delta, term, ?_, hdp, hterm⟩
  simp only [dijkstra, hloop]
  simp [hst0]

section AStarProofs

/-- The A* loop invariant: every queued or visited cell is an allowed cell
and is reachable from the start through non-wall cells. -/
def AStarInv (rows cols : Int) (start : Pos) (walls : Finset Pos)
    (st : AStarState) : Prop :=
  (∀ e ∈ st.pq.values, e.1 ∈ allowedCells rows cols start ∧
      Reachable rows cols walls start e.1) ∧
  (∀ v ∈ st.visited, v ∈ allowedCells rows cols start ∧
      Reachable rows cols walls start v)

/-- Effect of the A* relaxation loop over a neighbor list: analogous to
`dijkstraRelax_effect`. -/
theorem aStarRelax_effect (walls : Finset Pos) (endP current : Pos) (g : Int) :
    ∀ (l : List Pos) (st : AStarState),
      (∃ delta, (aStarRelax walls endP current g l st).steps =
          st.steps ++ delta ∧ ∀ s ∈ delta, s.type = .update) ∧
      (aStarRelax walls endP current g l st).visited = st.visited ∧
      (∀ e ∈ (aStarRelax walls endP current g l st).pq.values,
          e ∈ st.pq.values ∨ (e.1 ∈ l ∧ e.1 ∉ walls)) ∧
      (aStarRelax walls endP current g l st).pq.values.length ≤
        st.pq.values.length + l.length := by
  intro l
  induction l with
  | nil =>
      intro st
      exact ⟨⟨[], by simp [aStarRelax], by simp⟩, rfl,
        fun e he => Or.inl he, by simp [aStarRelax]⟩
  | cons nb rest ih =>
      intro st
      by_cases hskip : nb ∈ walls ∨ nb ∈ st.visited
      · have hstep : aStarRelax walls endP current g (nb :: rest) st =
            aStarRelax walls endP current g rest st := by
          simp only [aStarRelax, if_pos hskip]
        rw [hstep]
        obtain ⟨⟨d, hd, hdp⟩, hv, hpq, hlen⟩ := ih st
        exact ⟨⟨d, hd, hdp⟩, hv,
          fun e he => (hpq e he).imp_right
            (fun ⟨h1, h2⟩ => ⟨List.mem_cons_of_mem _ h1, h2⟩),
          by simpa using Nat.le_succ_of_le hlen⟩
      · push_neg at hskip
        have hstep0 : aStarRelax walls endP current g (nb :: rest) st =
            (let tentativeG := g + 1
             let improves : Bool :=
               match mapGet st.gScore nb with
               | none => true
               | some oldG => decide (tentativeG < oldG)
             if improves then
               let h := manhattanDistance nb endP
               let f := tentativeG + h
               aStarRelax walls endP current g rest
                 { steps := st.steps ++
                     [{ type := .update, current := some current,
                        neighbor := some nb, gScore := some tentativeG,
                        hScore := some h, fScore := some f,
                        visited := some st.visited }],
                   gScore := mapSet st.gScore nb tentativeG,
                   fScore := mapSet st.fScore nb f,
                   previous := mapSet st.previous nb current,
                   visited := st.visited,
                   pq := PQ.enqueue st.pq nb f }
             else aStarRelax walls endP current g rest st) := by
          simp only [aStarRelax,
            if_neg (by tauto : ¬ (nb ∈ walls ∨ nb ∈ st.visited))]
        by_cases himp : (match mapGet st.gScore nb with
            | none => true
            | some oldG => decide (g + 1 < oldG)) = true
        · set st1 : AStarState :=
            { steps := st.steps ++
                [{ type := .update, current := some current,
                   neighbor := some nb, gScore := some (g + 1),
                   hScore := some (manhattanDistance nb endP),
                   fScore := some (g + 1 + manhattanDistance nb endP),
                   visited := some st.visited }],
              gScore := mapSet st.gScore nb (g + 1),
              fScore := mapSet st.fScore nb (g + 1 + manhattanDistance nb endP),
              previous := mapSet st.previous nb current,
              visited := st.visited,
              pq := PQ.enqueue st.pq nb (g + 1 + manhattanDistance nb endP) }
            with hst1
          have hstep : aStarRelax walls endP current g (nb :: rest) st =
              aStarRelax walls endP current g rest st1 := by
            rw [hstep0]
            simp only [if_pos himp, hst1]
          rw [hstep]
          obtain ⟨⟨d, hd, hdp⟩, hv, hpq, hlen⟩ := ih st1
          refine ⟨⟨{ type := .update, current := some current,
                     neighbor := some nb, gScore := some (g + 1),
                     hScore := some (manhattanDistance nb endP),
                     fScore := some (g + 1 + manhattanDistance nb endP),
                     visited := some st.visited } :: d, ?_, ?_⟩, ?_, ?_, ?_⟩
          · rw [hd, hst1]
            simp
          · intro x hx
            rcases List.mem_cons.mp hx with rfl | hx'
            · rfl
            · exact hdp x hx'
          · rw [hv, hst1]
          · intro e he
            rcases hpq e he with h | h
            · rw [hst1] at h
              rcases PQ.mem_enqueue.mp h with h' | h'
              · exact Or.inl h'
              · exact Or.inr ⟨by rw [h']; exact List.mem_cons_self _ _, by
                  rw [h']; exact hskip.1⟩
            · exact Or.inr ⟨List.mem_cons_of_mem _ h.1, h.2⟩
          · calc (aStarRelax walls endP current g rest st1).pq.values.length
                ≤ st1.pq.values.length + rest.length := hlen
              _ = st.pq.values.length + 1 + rest.length := by
                  rw [hst1]; simp [PQ.length_enqueue]
              _ = st.pq.values.length + (nb :: rest).length := by simp; omega
        · have hstep : aStarRelax walls endP current g (nb :: rest) st =
              aStarRelax walls endP current g rest st := by
            rw [hstep0]
            simp only [if_neg himp]
          rw [hstep]
          obtain ⟨⟨d, hd, hdp⟩, hv, hpq, hlen⟩ := ih st
          exact ⟨⟨d, hd, hdp⟩, hv,
            fun e he => (hpq e he).imp_right
              (fun ⟨h1, h2⟩ => ⟨List.mem_cons_of_mem _ h1, h2⟩),
            by simpa using Nat.le_succ_of_le hlen⟩

/-- Structure of a sufficiently-fueled A* loop run: analogous to
`dijkstraLoop_structure`. -/
theorem aStarLoop_structure (rows cols : Int) (start endP : Pos)
    (walls : Finset Pos) :
    ∀ (fuel : Nat) (st : AStarState),
      AStarInv rows cols start walls st →
      st.pq.values.length +
          5 * ((allowedCells rows cols start \ st.visited).card) < fuel →
      ∃ delta term,
        aStarLoop rows cols start endP walls fuel st =
          some (st.steps ++ delta ++ [term]) ∧
        (∀ s ∈ delta, s.type = .visit ∨ s.type = .update) ∧
        (term.type = .noPath ∨
          (term.type = .pathFound ∧ Reachable rows cols walls start endP)) := by
  intro fuel
  induction fuel with
  | zero => intro st _ hm; omega
  | succ fuel ih =>
      intro st hinv hm
      cases hpq : st.pq.values with
      | nil =>
          have hd : PQ.dequeue st.pq = none := by
            simp [PQ.dequeue, hpq]
          refine ⟨[], { type := .noPath, visited := some st.visited }, ?_,
            by simp, Or.inl rfl⟩
          simp only [aStarLoop, hd]
          simp
      | cons x rest =>
          obtain ⟨current, currentF⟩ := x
          have hd : PQ.dequeue st.pq =
              some ((current, currentF), ⟨rest⟩) := by
            simp [PQ.dequeue, hpq]
          by_cases hvis : current ∈ st.visited
          · have hinv' : AStarInv rows cols start walls { st with pq := ⟨rest⟩ } := by
              refine ⟨fun e he => hinv.1 e ?_, hinv.2⟩
              rw [hpq]
              exact List.mem_cons_of_mem _ he
            have hm' : ({ st with pq := ⟨rest⟩ } : AStarState).pq.values.length +
                5 * ((allowedCells rows cols start \
                  ({ st with pq := ⟨rest⟩ } : AStarState).visited).card) < fuel := by
              simp only [hpq, List.length_cons] at hm
              simpa using by omega
            obtain ⟨delta, term, hloop, hdp, hterm⟩ := ih _ hinv' hm'
            refine ⟨delta, term, ?_, hdp, hterm⟩
            simp only [aStarLoop, hd, if_pos hvis]
            exact hloop
          · obtain ⟨hallow, hreach⟩ := hinv.1 (current, currentF)
              (by rw [hpq]; exact List.mem_cons_self _ _)
            by_cases hend : current = endP
            · refine ⟨[{ type := .visit, current := some current,
                         gScore := some ((mapGet st.gScore current).getD 0),
                         hScore := some (manhattanDistance current endP),
                         fScore := some ((mapGet st.gScore current).getD 0 +
                           manhattanDistance current endP),
                         visited := some (insert current st.visited) }],
                      { type := .pathFound,
                        path := some (reconstructPath st.previous start endP),
                        distance := some ((mapGet st.gScore current).getD 0),
                        visited := some (insert current st.visited) }, ?_,
                      ?_, Or.inr ⟨rfl, hend ▸ hreach⟩⟩
              · simp only [aStarLoop, hd, if_neg hvis, if_pos hend]
              · intro s hs
                rcases List.mem_singleton.mp hs with rfl
                exact Or.inl rfl
            · set st1 : AStarState :=
                { st with
                  visited := insert current st.visited, pq := ⟨rest⟩,
                  steps := st.steps ++
                    [{ type := .visit, current := some current,
                       gScore := some ((mapGet st.gScore current).getD 0),
                       hScore := some (manhattanDistance current endP),
                       fScore := some ((mapGet st.gScore current).getD 0 +
                         manhattanDistance current endP),
                       visited := some (insert current st.visited) }] } with hst1
              set st2 := aStarRelax walls endP current
                ((mapGet st.gScore current).getD 0)
                (getNeighbors current.row current.col rows cols) st1 with hst2
              obtain ⟨⟨rd, hrd, hrdp⟩, hrv, hrpq, hrlen⟩ :=
                aStarRelax_effect walls endP current
                  ((mapGet st.gScore current).getD 0)
                  (getNeighbors current.row current.col rows cols) st1
              have hinv2 : AStarInv rows cols start walls st2 := by
                constructor
                · intro e he
                  rcases hrpq e he with h | h
                  · rw [hst1] at h
                    refine hinv.1 e ?_
                    rw [hpq]
                    exact List.mem_cons_of_mem _ h
                  · refine ⟨Finset.mem_insert_of_mem
                      (getNeighbors_subset_gridCells h.1), ?_⟩
                    exact Reachable.step hreach h.1 h.2
                · rw [hst2, hrv, hst1]
                  intro v hv
                  rcases Finset.mem_insert.mp hv with rfl | hv'
                  · exact ⟨hallow, hreach⟩
                  · exact hinv.2 v hv'
              have hm2 : st2.pq.values.length +
                  5 * ((allowedCells rows cols start \ st2.visited).card) < fuel := by
                have h1 : st2.pq.values.length ≤ rest.length + 4 := by
                  refine le_trans hrlen ?_
                  rw [hst1]
                  simp only []
                  have := getNeighbors_length_le current.row current.col rows cols
                  omega
                have h2 : (allowedCells rows cols start \ st.visited).card =
                    (allowedCells rows cols start \ st2.visited).card + 1 := by
                  rw [hst2, hrv, hst1]
                  exact card_sdiff_insert_fresh hallow hvis
                rw [hpq] at hm
                simp only [List.length_cons] at hm
                omega
              obtain ⟨delta, term, hloop, hdp, hterm⟩ := ih st2 hinv2 hm2
              refine ⟨({ type := .visit, current := some current,
                         gScore := some ((mapGet st.gScore current).getD 0),
                         hScore := some (manhattanDistance current endP),
                         fScore := some ((mapGet st.gScore current).getD 0 +
                           manhattanDistance current endP),
                         visited := some (insert current st.visited) } : PathStep)
                        :: (rd ++ delta), term, ?_, ?_, hterm⟩
              · have hrun : aStarLoop rows cols start endP walls (fuel + 1) st =
                    aStarLoop rows cols start endP walls fuel st2 := by
                  simp only [aStarLoop, hd, if_neg hvis, if_neg hend]
                rw [hrun, hloop, hrd, hst1]
                simp
              · intro s hs
                rcases List.mem_cons.mp hs with rfl | hs'
                · exact Or.inl rfl
                · rcases List.mem_append.mp hs' with h' | h'
                  · exact Or.inr (hrdp s h')
                  · exact hdp s h'

/-- Structure of the full `aStar` output: `init` first, then `visit`/`update`
steps, then exactly one terminal step — `no-path` or `path-found`, the latter
only when the goal is truly reachable. -/
theorem aStar_structure (rows cols : Int) (start endP : Pos)
    (walls : Finset Pos) :
    ∃ delta term,
      aStar rows cols start endP walls =
        ({ type := .init, startP := some start, endP := some endP,
           heuristic := some (manhattanDistance start endP) } : PathStep) ::
          (delta ++ [term]) ∧
      (∀ s ∈ delta, s.type = .visit ∨ s.type = .update) ∧
      (term.type = .noPath ∨
        (term.type = .pathFound ∧ Reachable rows cols walls start endP)) := by
  set st0 : AStarState :=
    { steps := [{ type := .init, startP := some start, endP := some endP,
                  heuristic := some (manhattanDistance start endP) }],
      gScore := [(start, 0)],
      fScore := [(start, manhattanDistance start endP)],
      previous := [],
      visited := ∅,
      pq := PQ.enqueue ⟨[]⟩ start (manhattanDistance start endP) } with hst0
  have hinv : AStarInv rows cols start walls st0 := by
    constructor
    · intro e he
      rw [hst0] at he
      simp only [] at he
      rcases PQ.mem_enqueue.mp he with h | h
      · simp at h
      · rw [h]
        exact ⟨Finset.mem_insert_self _ _, Reachable.base⟩
    · intro v hv
      rw [hst0] at hv
      simp at hv
  have hm : st0.pq.values.length +
      5 * ((allowedCells rows cols start \ st0.visited).card) <
      dijkstraFuel rows cols := by
    rw [hst0]
    simp only [PQ.length_enqueue, Finset.sdiff_empty, List.length_nil]
    have := allowedCells_card_le rows cols start
    simp only [dijkstraFuel]
    omega
  obtain ⟨delta, term, hloop, hdp, hterm⟩ :=
    aStarLoop_structure rows cols start endP walls
      (dijkstraFuel rows cols) st0 hinv hm
  refine ⟨delta, term, ?_, hdp, hterm⟩
  simp only [aStar, hloop]
  simp [hst0]

end AStarProofs

end DijkstraProofs

section NoPathProofs

/-- C4: when the goal is not reachable from the start through non-wall cells
(start and end separated entirely by walls), both Dijkstra and A* end their
step sequence with a `no-path` step and never emit a `path-found` step. -/
theorem pathfinding_no_path_when_walled (rows cols : Int) (start endP : Pos)
    (walls : Finset Pos) (hsep : ¬ Reachable rows cols walls start endP) :
    ((∃ term, (dijkstra rows cols start endP walls).getLast? = some term ∧
        term.type = .noPath) ∧
      (∀ s ∈ dijkstra rows cols start endP walls, s.type ≠ .pathFound)) ∧
    ((∃ term, (aStar rows cols start endP walls).getLast? = some term ∧
        term.type = .noPath) ∧
      (∀ s ∈ aStar rows cols start endP walls, s.type ≠ .pathFound)) := by
  obtain ⟨dd, dterm, hdeq, hddp, hdterm⟩ :=
    dijkstra_structure rows cols start endP walls
  obtain ⟨ad, aterm, haeq, hadp, haterm⟩ :=
    aStar_structure rows cols start endP walls
  have hdt : dterm.type = .noPath := by
    rcases hdterm with h | ⟨_, hreach⟩
    · exact h
    · exact absurd hreach hsep
  have hat : aterm.type = .noPath := by
    rcases haterm with h | ⟨_, hreach⟩
    · exact h
    · exact absurd hreach hsep
  constructor
  · constructor
    · refine ⟨dterm, ?_, hdt⟩
      have hconcat : dijkstra rows cols start endP walls =
          (({ type := .init, startP := some start,
              endP := some endP } : PathStep) :: dd) ++ [dterm] := by
        rw [hdeq]
        simp
      rw [hconcat, List.getLast?_concat]
    · intro x hx
      rw [hdeq] at hx
      rcases List.mem_cons.mp hx with rfl | hx'
      · simp
      · rcases List.mem_append.mp hx' with h' | h'
        · rcases hddp x h' with h'' | h'' <;> simp [h'']
        · rcases List.mem_singleton.mp h' with rfl
          simp [hdt]
  · constructor
    · refine ⟨aterm, ?_, hat⟩
      have hconcat : aStar rows cols start endP walls =
          (({ type := .init, startP := some start, endP := some endP,
              heuristic := some (manhattanDistance start endP) } : PathStep) ::
            ad) ++ [aterm] := by
        rw [haeq]
        simp
      rw [hconcat, List.getLast?_concat]
    · intro x hx
      rw [haeq] at hx
      rcases List.mem_cons.mp hx with rfl | hx'
      · simp
      · rcases List.mem_append.mp hx' with h' | h'
        · rcases hadp x h' with h'' | h'' <;> simp [h'']
        · rcases List.mem_singleton.mp h' with rfl
          simp [hat]

/-- On a 1-by-2 grid whose only other cell (0,1) is a wall, nothing but the
start is reachable. -/
theorem unreachable_1x2_example :
    ¬ Reachable 1 2 ({⟨0, 1⟩} : Finset Pos) ⟨0, 0⟩ ⟨0, 1⟩ := by
  have honly : ∀ v, Reachable 1 2 ({⟨0, 1⟩} : Finset Pos) ⟨0, 0⟩ v →
      v = ⟨0, 0⟩ := by
    intro v h
    induction h with
    | base => rfl
    | step hu hnb hnw ih =>
        subst ih
        have hlist : getNeighbors (0 : Int) (0 : Int) 1 2 = [⟨0, 1⟩] := by decide
        rw [hlist] at hnb
        rcases List.mem_singleton.mp hnb with rfl
        exact absurd (Finset.mem_singleton_self _) hnw
  intro h
  have := honly _ h
  simp [Pos.mk.injEq] at this

/-- Witness for C4 on the walled 1-by-2 grid. -/
theorem pathfinding_no_path_when_walled_witness :
    ((∃ term, (dijkstra 1 2 ⟨0, 0⟩ ⟨0, 1⟩ {⟨0, 1⟩}).getLast? = some term ∧
        term.type = .noPath) ∧
      (∀ s ∈ dijkstra 1 2 ⟨0, 0⟩ ⟨0, 1⟩ {⟨0, 1⟩}, s.type ≠ .pathFound)) ∧
    ((∃ term, (aStar 1 2 ⟨0, 0⟩ ⟨0, 1⟩ {⟨0, 1⟩}).getLast? = some term ∧
        term.type = .noPath) ∧
      (∀ s ∈ aStar 1 2 ⟨0, 0⟩ ⟨0, 1⟩ {⟨0, 1⟩}, s.type ≠ .pathFound)) :=
  pathfinding_no_path_when_walled 1 2 ⟨0, 0⟩ ⟨0, 1⟩ {⟨0, 1⟩}
    unreachable_1x2_example

end NoPathProofs

section WellFormedProofs

/-- A step type that may legitimately end a sequence: `complete`, `no-path`
or `path-found`. -/
def isTerminalStep (t : StepType) : Bool :=
  t == .complete || t == .noPath || t == .pathFound

/-- Well-formedness of a step sequence: it starts with exactly one `init`
step and ends with exactly one terminal step. -/
def seqWellFormed {X : Type} (typeOf : X → StepType) (steps : List X) : Prop :=
  (∃ s0, steps.head? = some s0 ∧ typeOf s0 = .init) ∧
  steps.countP (fun s => typeOf s == .init) = 1 ∧
  (∃ sl, steps.getLast? = some sl ∧ isTerminalStep (typeOf sl) = true) ∧
  steps.countP (fun s => isTerminalStep (typeOf s)) = 1

/-- Any sequence of the shape `init :: body ++ [terminal]` whose body
contains neither `init` nor terminal steps is well formed. -/
theorem seqWellFormed_shape {X : Type} (typeOf : X → StepType) (s0 : X)
    (body : List X) (sl : X)
    (h0 : typeOf s0 = .init) (hterm : isTerminalStep (typeOf sl) = true)
    (hbody : ∀ s ∈ body, typeOf s ≠ .init ∧ isTerminalStep (typeOf s) = false) :
    seqWellFormed typeOf (s0 :: (body ++ [sl])) := by
  have hslinit : typeOf sl ≠ .init := by
    intro hc
    rw [hc] at hterm
    exact Bool.noConfusion hterm
  have hs0term : isTerminalStep (typeOf s0) = false := by
    rw [h0]
    rfl
  refine ⟨⟨s0, rfl, h0⟩, ?_, ⟨sl, ?_, hterm⟩, ?_⟩
  · rw [List.countP_cons, List.countP_append, List.countP_cons]
    rw [List.countP_eq_zero.mpr (fun a ha => by
      simp only [beq_iff_eq, decide_eq_true_eq]
      exact (hbody a ha).1)]
    simp [h0, hslinit]
  · rw [show s0 :: (body ++ [sl]) = (s0 :: body) ++ [sl] from rfl,
      List.getLast?_concat]
  · rw [List.countP_cons, List.countP_append, List.countP_cons]
    rw [List.countP_eq_zero.mpr (fun a ha => by
      intro hc
      rw [(hbody a ha).2] at hc
      exact Bool.noConfusion hc)]
    simp [hs0term, hterm]

/-- Step types emitted by the bubble-sort inner loop. -/
theorem bubbleInner_types (n i : Nat) :
    ∀ (count j : Nat) (arr : List Int) (sw : Bool),
      ∀ s ∈ (bubbleInner n i count j arr sw).2.2,
        s.type = .compare ∨ s.type = .swap := by
  intro count
  induction count with
  | zero => intro j arr sw s hs; simp [bubbleInner] at hs
  | succ count ih =>
      intro j arr sw s hs
      simp only [bubbleInner] at hs
      by_cases hgt : arr.getD j 0 > arr.getD (j + 1) 0
      · rw [if_pos hgt] at hs
        rcases hinner : bubbleInner n i count (j + 1) (listSwap arr j (j + 1)) true
          with ⟨a, sw2, rest⟩
        rw [hinner] at hs
        simp only [] at hs
        rcases List.mem_cons.mp hs with rfl | hs'
        · exact Or.inl rfl
        · rcases List.mem_cons.mp hs' with rfl | hs''
          · exact Or.inr rfl
          · have := ih (j + 1) (listSwap arr j (j + 1)) true s
            rw [hinner] at this
            exact this hs''
      · rw [if_neg hgt] at hs
        rcases hinner : bubbleInner n i count (j + 1) arr sw with ⟨a, sw2, rest⟩
        rw [hinner] at hs
        simp only [] at hs
        rcases List.mem_cons.mp hs with rfl | hs'
        · exact Or.inl rfl
        · have := ih (j + 1) arr sw s
          rw [hinner] at this
          exact this hs'

/-- Step types emitted by the bubble-sort outer loop. -/
theorem bubbleOuter_types (n : Nat) :
    ∀ (count i : Nat) (arr : List Int),
      ∀ s ∈ (bubbleOuter n count i arr).2,
        s.type = .pass ∨ s.type = .compare ∨ s.type = .swap ∨
          s.type = .earlyExit := by
  intro count
  induction count with
  | zero => intro i arr s hs; simp [bubbleOuter] at hs
  | succ count ih =>
      intro i arr s hs
      simp only [bubbleOuter] at hs
      rcases hinner : bubbleInner n i (n - i - 1) 0 arr false with ⟨a, sw, inner⟩
      rw [hinner] at hs
      simp only [] at hs
      by_cases hsw : sw
      · rw [if_pos hsw] at hs
        rcases houter : bubbleOuter n count (i + 1) a with ⟨a2, rest⟩
        rw [houter] at hs
        simp only [] at hs
        rcases List.mem_cons.mp hs with rfl | hs'
        · exact Or.inl rfl
        · rcases List.mem_append.mp hs' with h' | h'
          · have := bubbleInner_types n i (n - i - 1) 0 arr false s
            rw [hinner] at this
            rcases this h' with h'' | h''
            · exact Or.inr (Or.inl h'')
            · exact Or.inr (Or.inr (Or.inl h''))
          · have := ih (i + 1) a s
            rw [houter] at this
            exact this h'
      · rw [if_neg hsw] at hs
        rcases List.mem_cons.mp hs with rfl | hs'
        · exact Or.inl rfl
        · rcases List.mem_append.mp hs' with h' | h'
          · have := bubbleInner_types n i (n - i - 1) 0 arr false s
            rw [hinner] at this
            rcases this h' with h'' | h''
            · exact Or.inr (Or.inl h'')
            · exact Or.inr (Or.inr (Or.inl h''))
          · rcases List.mem_singleton.mp h' with rfl
            exact Or.inr (Or.inr (Or.inr rfl))

/-- Step types emitted by the insertion-sort shift loop. -/
theorem insWhile_types (i : Nat) (key : Int) :
    ∀ (jj : Nat) (arr : List Int),
      ∀ s ∈ (insWhile i key jj arr).2.2,
        s.type = .compare ∨ s.type = .shift := by
  intro jj
  induction jj with
  | zero => intro arr s hs; simp [insWhile] at hs
  | succ jj ih =>
      intro arr s hs
      simp only [insWhile] at hs
      by_cases hgt : arr.getD jj 0 > key
      · rw [if_pos hgt] at hs
        rcases hw : insWhile i key jj (arr.set (jj + 1) (arr.getD jj 0))
          with ⟨a, p, rest⟩
        rw [hw] at hs
        simp only [] at hs
        rcases List.mem_cons.mp hs with rfl | hs'
        · exact Or.inl rfl
        · rcases List.mem_cons.mp hs' with rfl | hs''
          · exact Or.inr rfl
          · have := ih (arr.set (jj + 1) (arr.getD jj 0)) s
            rw [hw] at this
            exact this hs''
      · rw [if_neg hgt] at hs
        simp at hs

/-- Step types emitted by the insertion-sort outer loop. -/
theorem insOuter_types (n : Nat) :
    ∀ (count i : Nat) (arr : List Int),
      ∀ s ∈ (insOuter n count i arr).2,
        s.type = .select ∨ s.type = .compare ∨ s.type = .shift ∨
          s.type = .insert := by
  intro count
  induction count with
  | zero => intro i arr s hs; simp [insOuter] at hs
  | succ count ih =>
      intro i arr s hs
      simp only [insOuter] at hs
      rcases hw : insWhile i (arr.getD i 0) i arr with ⟨a1, p, wsteps⟩
      rw [hw] at hs
      simp only [] at hs
      rcases houter : insOuter n count (i + 1) (a1.set p (arr.getD i 0))
        with ⟨aF, rest⟩
      rw [houter] at hs
      simp only [] at hs
      rcases List.mem_cons.mp hs with rfl | hs'
      · exact Or.inl rfl
      · rcases List.mem_append.mp hs' with h' | h'
        · have := insWhile_types i (arr.getD i 0) i arr s
          rw [hw] at this
          rcases this h' with h'' | h''
          · exact Or.inr (Or.inl h'')
          · exact Or.inr (Or.inr (Or.inl h''))
        · rcases List.mem_cons.mp h' with rfl | h''
          · exact Or.inr (Or.inr (Or.inr rfl))
          · have := ih (i + 1) (a1.set p (arr.getD i 0)) s
            rw [houter] at this
            exact this h''

end WellFormedProofs

section MergeTypeProofs

/-- Step types emitted by the first merge loop. -/
theorem mergeLoop_types (leftArr rightArr : List Int) (lOfs mOfs : Nat) :
    ∀ (fuel i j k : Nat) (arr : List Int),
      ∀ s ∈ (mergeLoop leftArr rightArr lOfs mOfs fuel i j k arr).2.2.2.2,
        s.type = .compare ∨ s.type = .place := by
  intro fuel
  induction fuel with
  | zero => intro i j k arr s hs; simp [mergeLoop] at hs
  | succ fuel ih =>
      intro i j k arr s hs
      simp only [mergeLoop] at hs
      by_cases hcond : i < leftArr.length ∧ j < rightArr.length
      · rw [if_pos hcond] at hs
        by_cases hle : leftArr.getD i 0 ≤ rightArr.getD j 0
        · rw [if_pos hle] at hs
          rcases hrec : mergeLoop leftArr rightArr lOfs mOfs fuel (i + 1) j
              (k + 1) (arr.set k (leftArr.getD i 0)) with ⟨a, i2, j2, k2, rest⟩
          rw [hrec] at hs
          simp only [] at hs
          rcases List.mem_cons.mp hs with rfl | hs'
          · exact Or.inl rfl
          · rcases List.mem_cons.mp hs' with rfl | hs''
            · exact Or.inr rfl
            · have := ih (i + 1) j (k + 1) (arr.set k (leftArr.getD i 0)) s
              rw [hrec] at this
              exact this hs''
        · rw [if_neg hle] at hs
          rcases hrec : mergeLoop leftArr rightArr lOfs mOfs fuel i (j + 1)
              (k + 1) (arr.set k (rightArr.getD j 0)) with ⟨a, i2, j2, k2, rest⟩
          rw [hrec] at hs
          simp only [] at hs
          rcases List.mem_cons.mp hs with rfl | hs'
          · exact Or.inl rfl
          · rcases List.mem_cons.mp hs' with rfl | hs''
            · exact Or.inr rfl
            · have := ih i (j + 1) (k + 1) (arr.set k (rightArr.getD j 0)) s
              rw [hrec] at this
              exact this hs''
      · rw [if_neg hcond] at hs
        simp at hs

/-- Step types emitted by the merge copy-through loops. -/
theorem mergeCopy_types (src : List Int) :
    ∀ (count i k : Nat) (arr : List Int),
      ∀ s ∈ (mergeCopy src count i k arr).2.2, s.type = .place := by
  intro count
  induction count with
  | zero => intro i k arr s hs; simp [mergeCopy] at hs
  | succ count ih =>
      intro i k arr s hs
      simp only [mergeCopy] at hs
      rcases hrec : mergeCopy src count (i + 1) (k + 1)
          (arr.set k (src.getD i 0)) with ⟨a, kF, rest⟩
      rw [hrec] at hs
      simp only [] at hs
      rcases List.mem_cons.mp hs with rfl | hs'
      · rfl
      · have := ih (i + 1) (k + 1) (arr.set k (src.getD i 0)) s
        rw [hrec] at this
        exact this hs'

/-- Step types emitted by one `merge` call. -/
theorem mergeRuns_types (arr : List Int) (left mid right : Int) (depth : Nat) :
    ∀ s ∈ (mergeRuns arr left mid right depth).2,
      s.type = .mergeStart ∨ s.type = .compare ∨ s.type = .place ∨
        s.type = .mergeComplete := by
  intro s hs
  simp only [mergeRuns] at hs
  rcases h1 : mergeLoop (jsSlice arr left (mid + 1))
      (jsSlice arr (mid + 1) (right + 1)) left.toNat (mid + 1).toNat
      ((jsSlice arr left (mid + 1)).length +
        (jsSlice arr (mid + 1) (right + 1)).length) 0 0 left.toNat arr
    with ⟨a1, i1, j1, k1, s1⟩
  rw [h1] at hs
  simp only [] at hs
  rcases h2 : mergeCopy (jsSlice arr left (mid + 1))
      ((jsSlice arr left (mid + 1)).length - i1) i1 k1 a1 with ⟨a2, k2, s2⟩
  rw [h2] at hs
  simp only [] at hs
  rcases h3 : mergeCopy (jsSlice arr (mid + 1) (right + 1))
      ((jsSlice arr (mid + 1) (right + 1)).length - j1) j1 k2 a2
    with ⟨a3, k3, s3⟩
  rw [h3] at hs
  simp only [] at hs
  rcases List.mem_cons.mp hs with rfl | hs'
  · exact Or.inl rfl
  · rcases List.mem_append.mp hs' with h' | h'
    · rcases List.mem_append.mp h' with h'' | h''
      · rcases List.mem_append.mp h'' with h3' | h3'
        · have := mergeLoop_types (jsSlice arr left (mid + 1))
            (jsSlice arr (mid + 1) (right + 1)) left.toNat (mid + 1).toNat
            ((jsSlice arr left (mid + 1)).length +
              (jsSlice arr (mid + 1) (right + 1)).length) 0 0 left.toNat arr s
          rw [h1] at this
          rcases this h3' with h4 | h4
          · exact Or.inr (Or.inl h4)
          · exact Or.inr (Or.inr (Or.inl h4))
        · have := mergeCopy_types (jsSlice arr left (mid + 1))
            ((jsSlice arr left (mid + 1)).length - i1) i1 k1 a1 s
          rw [h2] at this
          exact Or.inr (Or.inr (Or.inl (this h3')))
      · have := mergeCopy_types (jsSlice arr (mid + 1) (right + 1))
          ((jsSlice arr (mid + 1) (right + 1)).length - j1) j1 k2 a2 s
        rw [h3] at this
        exact Or.inr (Or.inr (Or.inl (this h'')))
    · rcases List.mem_singleton.mp h' with rfl
      exact Or.inr (Or.inr (Or.inr rfl))

/-- Step types emitted by the recursive merge-sort helper. -/
theorem mergeSortHelper_types (arr : List Int) (left right : Int) (depth : Nat) :
    ∀ s ∈ (mergeSortHelper arr left right depth).2,
      s.type = .divide ∨ s.type = .mergeStart ∨ s.type = .compare ∨
        s.type = .place ∨ s.type = .mergeComplete := by
  by_cases h : left ≥ right
  · intro s hs
    rw [mergeSortHelper] at hs
    rw [dif_pos h] at hs
    simp at hs
  · intro s hs
    rw [mergeSortHelper] at hs
    rw [dif_neg h] at hs
    simp only [] at hs
    rcases h1 : mergeSortHelper arr left (Int.fdiv (left + right) 2) (depth + 1)
      with ⟨a1, s1⟩
    rw [h1] at hs
    simp only [] at hs
    rcases h2 : mergeSortHelper a1 (Int.fdiv (left + right) 2 + 1) right
        (depth + 1) with ⟨a2, s2⟩
    rw [h2] at hs
    simp only [] at hs
    rcases h3 : mergeRuns a2 left (Int.fdiv (left + right) 2) right depth
      with ⟨a3, s3⟩
    rw [h3] at hs
    simp only [] at hs
    rcases List.mem_cons.mp hs with rfl | hs'
    · exact Or.inl rfl
    · rcases List.mem_append.mp hs' with h' | h'
      · rcases List.mem_append.mp h' with h'' | h''
        · have := mergeSortHelper_types arr left (Int.fdiv (left + right) 2)
            (depth + 1) s
          rw [h1] at this
          exact this h''
        · have := mergeSortHelper_types a1 (Int.fdiv (left + right) 2 + 1) right
            (depth + 1) s
          rw [h2] at this
          exact this h''
      · have := mergeRuns_types a2 left (Int.fdiv (left + right) 2) right
          depth s
        rw [h3] at this
        rcases this h' with h4 | h4 | h4 | h4
        · exact Or.inr (Or.inl h4)
        · exact Or.inr (Or.inr (Or.inl h4))
        · exact Or.inr (Or.inr (Or.inr (Or.inl h4)))
        · exact Or.inr (Or.inr (Or.inr (Or.inr h4)))
termination_by (right - left).toNat
decreasing_by
  · rw [Int.fdiv_eq_ediv _ (by norm_num)]
    omega
  · rw [Int.fdiv_eq_ediv _ (by norm_num)]
    omega

end MergeTypeProofs

section TraversalTypeProofs

/-- Step types emitted by the preorder traversal body. -/
theorem preTrav_types :
    ∀ (t : Tree) (depth : Nat) (cs : List String),
      ∀ s ∈ preTrav t depth cs,
        s.type = .nullNode ∨ s.type = .visit ∨ s.type = .recurse ∨
          s.type = .ret := by
  intro t
  induction t with
  | nil => intro depth cs s hs; rcases List.mem_singleton.mp hs with rfl; simp
  | node i v l r ihl ihr =>
      intro depth cs s hs
      simp only [preTrav] at hs
      rcases List.mem_append.mp hs with h | h
      · rcases List.mem_append.mp h with h | h
        · rcases List.mem_append.mp h with h | h
          · rcases List.mem_append.mp h with h | h
            · rcases List.mem_cons.mp h with rfl | h'
              · exact Or.inr (Or.inl rfl)
              · rcases List.mem_singleton.mp h' with rfl
                exact Or.inr (Or.inr (Or.inl rfl))
            · exact ihl _ _ s h
          · rcases List.mem_singleton.mp h with rfl
            exact Or.inr (Or.inr (Or.inl rfl))
        · exact ihr _ _ s h
      · rcases List.mem_singleton.mp h with rfl
        exact Or.inr (Or.inr (Or.inr rfl))

/-- Step types emitted by the inorder traversal body. -/
theorem inTrav_types :
    ∀ (t : Tree) (depth : Nat) (cs : List String),
      ∀ s ∈ inTrav t depth cs,
        s.type = .nullNode ∨ s.type = .visit ∨ s.type = .recurse ∨
          s.type = .ret := by
  intro t
  induction t with
  | nil => intro depth cs s hs; rcases List.mem_singleton.mp hs with rfl; simp
  | node i v l r ihl ihr =>
      intro depth cs s hs
      simp only [inTrav] at hs
      rcases List.mem_append.mp hs with h | h
      · rcases List.mem_append.mp h with h | h
        · rcases List.mem_append.mp h with h | h
          · rcases List.mem_append.mp h with h | h
            · rcases List.mem_singleton.mp h with rfl
              exact Or.inr (Or.inr (Or.inl rfl))
            · exact ihl _ _ s h
          · rcases List.mem_cons.mp h with rfl | h'
            · exact Or.inr (Or.inl rfl)
            · rcases List.mem_singleton.mp h' with rfl
              exact Or.inr (Or.inr (Or.inl rfl))
        · exact ihr _ _ s h
      · rcases List.mem_singleton.mp h with rfl
        exact Or.inr (Or.inr (Or.inr rfl))

/-- Step types emitted by the postorder traversal body. -/
theorem postTrav_types :
    ∀ (t : Tree) (depth : Nat) (cs : List String),
      ∀ s ∈ postTrav t depth cs,
        s.type = .nullNode ∨ s.type = .visit ∨ s.type = .recurse ∨
          s.type = .ret := by
  intro t
  induction t with
  | nil => intro depth cs s hs; rcases List.mem_singleton.mp hs with rfl; simp
  | node i v l r ihl ihr =>
      intro depth cs s hs
      simp only [postTrav] at hs
      rcases List.mem_append.mp hs with h | h
      · rcases List.mem_append.mp h with h | h
        · rcases List.mem_append.mp h with h | h
          · rcases List.mem_append.mp h with h | h
            · rcases List.mem_singleton.mp h with rfl
              exact Or.inr (Or.inr (Or.inl rfl))
            · exact ihl _ _ s h
          · rcases List.mem_singleton.mp h with rfl
            exact Or.inr (Or.inr (Or.inl rfl))
        · exact ihr _ _ s h
      · rcases List.mem_cons.mp h with rfl | h'
        · exact Or.inr (Or.inl rfl)
        · rcases List.mem_singleton.mp h' with rfl
          exact Or.inr (Or.inr (Or.inr rfl))

end TraversalTypeProofs

section ClaimThreeFive

/-- Helper: a sorting body step type is neither `init` nor terminal. -/
theorem sortBody_not_init_terminal {s : SortStep}
    (h : s.type = .pass ∨ s.type = .compare ∨ s.type = .swap ∨
      s.type = .earlyExit ∨ s.type = .select ∨ s.type = .shift ∨
      s.type = .insert ∨ s.type = .divide ∨ s.type = .mergeStart ∨
      s.type = .place ∨ s.type = .mergeComplete) :
    s.type ≠ .init ∧ isTerminalStep s.type = false := by
  rcases h with h | h | h | h | h | h | h | h | h | h | h <;>
    exact ⟨by simp [h], by rw [h]; rfl⟩

/-- Helper: a pathfinding/traversal body step type is neither `init` nor
terminal. -/
theorem pathBody_not_init_terminal {t : StepType}
    (h : t = .visit ∨ t = .discover ∨ t = .backtrack ∨ t = .update ∨
      t = .nullNode ∨ t = .recurse ∨ t = .ret) :
    t ≠ .init ∧ isTerminalStep t = false := by
  rcases h with h | h | h | h | h | h | h <;>
    exact ⟨by simp [h], by rw [h]; rfl⟩

/-- C3 (amended): every step sequence produced by any of the ten generators
starts with exactly one `init` step and ends with exactly one terminal step,
whose type is `complete`, `no-path` or `path-found`. -/
theorem all_step_sequences_well_formed :
    (∀ arr : List Int, seqWellFormed SortStep.type (bubbleSort arr)) ∧
    (∀ arr : List Int, seqWellFormed SortStep.type (insertionSort arr)) ∧
    (∀ arr : List Int, seqWellFormed SortStep.type (mergeSort arr)) ∧
    (∀ (rows cols : Int) (start : Pos) (walls : Finset Pos),
        seqWellFormed PathStep.type (bfs rows cols start walls)) ∧
    (∀ (rows cols : Int) (start : Pos) (walls : Finset Pos),
        seqWellFormed PathStep.type (dfs rows cols start walls)) ∧
    (∀ (rows cols : Int) (start endP : Pos) (walls : Finset Pos),
        seqWellFormed PathStep.type (dijkstra rows cols start endP walls)) ∧
    (∀ (rows cols : Int) (start endP : Pos) (walls : Finset Pos),
        seqWellFormed PathStep.type (aStar rows cols start endP walls)) ∧
    (∀ root : Tree, seqWellFormed TreeStep.type (preorderTraversal root)) ∧
    (∀ root : Tree, seqWellFormed TreeStep.type (inorderTraversal root)) ∧
    (∀ root : Tree, seqWellFormed TreeStep.type (postorderTraversal root)) := by
  refine ⟨?_, ?_, ?_, ?_, ?_, ?_, ?_, ?_, ?_, ?_⟩
  · intro arr
    rcases h : bubbleOuter arr.length (arr.length - 1) 0 arr with ⟨fa, body⟩
    have heq : bubbleSort arr =
        ({ type := .init, array := arr } : SortStep) ::
          (body ++ [{ type := .complete, array := fa,
                      sorted := some (List.range arr.length) }]) := by
      simp only [bubbleSort, h]
    rw [heq]
    refine seqWellFormed_shape _ _ _ _ rfl rfl (fun x hx => ?_)
    have := bubbleOuter_types arr.length (arr.length - 1) 0 arr x
    rw [h] at this
    exact sortBody_not_init_terminal (by tauto) (s := x)
  · intro arr
    rcases h : insOuter arr.length (arr.length - 1) 1 arr with ⟨fa, body⟩
    have heq : insertionSort arr =
        ({ type := .init, array := arr } : SortStep) ::
          (body ++ [{ type := .complete, array := fa,
                      sorted := some (List.range arr.length) }]) := by
      simp only [insertionSort, h]
    rw [heq]
    refine seqWellFormed_shape _ _ _ _ rfl rfl (fun x hx => ?_)
    have := insOuter_types arr.length (arr.length - 1) 1 arr x
    rw [h] at this
    exact sortBody_not_init_terminal (by tauto) (s := x)
  · intro arr
    rcases h : mergeSortHelper arr 0 ((arr.length : Int) - 1) 0 with ⟨fa, body⟩
    have heq : mergeSort arr =
        ({ type := .init, array := arr } : SortStep) ::
          (body ++ [{ type := .complete, array := fa,
                      sorted := some (List.range arr.length) }]) := by
      simp only [mergeSort, h]
    rw [heq]
    refine seqWellFormed_shape _ _ _ _ rfl rfl (fun x hx => ?_)
    have := mergeSortHelper_types arr 0 ((arr.length : Int) - 1) 0 x
    rw [h] at this
    exact sortBody_not_init_terminal (by tauto) (s := x)
  · intro rows cols start walls
    obtain ⟨delta, v, heq, _, hdp⟩ := bfs_structure rows cols start walls
    rw [heq]
    refine seqWellFormed_shape _ _ _ _ rfl rfl (fun x hx => ?_)
    obtain ⟨ht, -⟩ := hdp x hx
    exact pathBody_not_init_terminal (by tauto)
  · intro rows cols start walls
    set st0 : DfsState :=
      { steps := [{ type := .init, current := some start,
                    visited := some (∅ : Finset Pos) }],
        visited := ∅ } with hst0
    obtain ⟨delta, hd, hdp⟩ := dfsVisit_steps_delta rows cols walls
      (dfsFuel rows cols) st0 start 0
    have heq : dfs rows cols start walls =
        ({ type := .init, current := some start,
           visited := some (∅ : Finset Pos) } : PathStep) ::
          (delta ++
            [{ type := .complete,
               visited := some (dfsVisit rows cols walls
                 (dfsFuel rows cols) st0 start 0).visited }]) := by
      simp only [dfs]
      rw [← hst0, hd, hst0]
      simp
    rw [heq]
    refine seqWellFormed_shape _ _ _ _ rfl rfl (fun x hx => ?_)
    exact pathBody_not_init_terminal (by have := hdp x hx; tauto)
  · intro rows cols start endP walls
    obtain ⟨delta, term, heq, hdp, hterm⟩ :=
      dijkstra_structure rows cols start endP walls
    rw [heq]
    refine seqWellFormed_shape _ _ _ _ rfl ?_ (fun x hx => ?_)
    · rcases hterm with h | ⟨h, -⟩ <;> rw [h] <;> rfl
    · exact pathBody_not_init_terminal (by have := hdp x hx; tauto)
  · intro rows cols start endP walls
    obtain ⟨delta, term, heq, hdp, hterm⟩ :=
      aStar_structure rows cols start endP walls
    rw [heq]
    refine seqWellFormed_shape _ _ _ _ rfl ?_ (fun x hx => ?_)
    · rcases hterm with h | ⟨h, -⟩ <;> rw [h] <;> rfl
    · exact pathBody_not_init_terminal (by have := hdp x hx; tauto)
  · intro root
    refine seqWellFormed_shape _ _ _ _ rfl rfl (fun x hx => ?_)
    exact pathBody_not_init_terminal (by have := preTrav_types root 0 [] x hx; tauto)
  · intro root
    refine seqWellFormed_shape _ _ _ _ rfl rfl (fun x hx => ?_)
    exact pathBody_not_init_terminal (by have := inTrav_types root 0 [] x hx; tauto)
  · intro root
    refine seqWellFormed_shape _ _ _ _ rfl rfl (fun x hx => ?_)
    exact pathBody_not_init_terminal (by have := postTrav_types root 0 [] x hx; tauto)

/-- Counterexample to C3 as stated: on the 1-by-1 grid with start = end,
Dijkstra's sequence is `init`, `visit`, `path-found` — its terminal step has
type `path-found`, which is neither `complete` nor `no-path`. -/
theorem dijkstra_terminal_pathFound_counterexample :
    (dijkstra 1 1 ⟨0, 0⟩ ⟨0, 0⟩ ∅).map (fun s => s.type) =
      [.init, .visit, .pathFound] ∧
    (dijkstra 1 1 ⟨0, 0⟩ ⟨0, 0⟩ ∅).getLast?.map (fun s => s.type) =
      some .pathFound ∧
    StepType.pathFound ≠ StepType.complete ∧
    StepType.pathFound ≠ StepType.noPath := by
  decide

/-- C5 (amended): step generation never rejects a configuration — for every
input, valid or not (negative sizes, out-of-bounds start/end included, since
the quantifiers range over all integers and positions), the generators named
by the claim return a fully formed sequence ending in a terminal step. -/
theorem no_validation_no_rejection :
    (∀ (rows cols : Int) (start endP : Pos) (walls : Finset Pos),
        ∃ term, (dijkstra rows cols start endP walls).getLast? = some term ∧
          isTerminalStep term.type = true) ∧
    (∀ (rows cols : Int) (start : Pos) (walls : Finset Pos),
        ∃ term, (bfs rows cols start walls).getLast? = some term ∧
          isTerminalStep term.type = true) ∧
    (∀ arr : List Int,
        ∃ term, (bubbleSort arr).getLast? = some term ∧
          isTerminalStep term.type = true) := by
  refine ⟨fun rows cols start endP walls => ?_,
          fun rows cols start walls => ?_, fun arr => ?_⟩
  · obtain ⟨delta, term, heq, -, hterm⟩ :=
      dijkstra_structure rows cols start endP walls
    refine ⟨term, ?_, ?_⟩
    · have hconcat : dijkstra rows cols start endP walls =
          (({ type := .init, startP := some start,
              endP := some endP } : PathStep) :: delta) ++ [term] := by
        rw [heq]
        simp
      rw [hconcat, List.getLast?_concat]
    · rcases hterm with h | ⟨h, -⟩ <;> rw [h] <;> rfl
  · obtain ⟨delta, v, heq, -, -⟩ := bfs_structure rows cols start walls
    refine ⟨{ type := .complete, visited := some v }, ?_, rfl⟩
    have hconcat : bfs rows cols start walls =
        (({ type := .init, current := some start,
            visited := some ({start} : Finset Pos) } : PathStep) :: delta) ++
          [{ type := .complete, visited := some v }] := by
      rw [heq]
      simp
    rw [hconcat, List.getLast?_concat]
  · rcases h : bubbleOuter arr.length (arr.length - 1) 0 arr with ⟨fa, body⟩
    refine ⟨{ type := .complete, array := fa,
              sorted := some (List.range arr.length) }, ?_, rfl⟩
    have hconcat : bubbleSort arr =
        (({ type := .init, array := arr } : SortStep) :: body) ++
          [{ type := .complete, array := fa,
             sorted := some (List.range arr.length) }] := by
      simp only [bubbleSort, h]
      simp
    rw [hconcat, List.getLast?_concat]

/-- Counterexample to C5 as stated: an out-of-bounds start on a 2-by-2 grid,
and a grid with negative row count, are both accepted by `dijkstra`, which
emits a complete normal sequence (`init`, `visit`, `no-path`) instead of any
rejection at the point of the generator call. -/
theorem invalid_config_no_rejection_counterexample :
    (dijkstra 2 2 ⟨5, 5⟩ ⟨0, 0⟩ ∅).map (fun s => s.type) =
      [.init, .visit, .noPath] ∧
    (dijkstra (-3) 0 ⟨0, 0⟩ ⟨1, 1⟩ ∅).map (fun s => s.type) =
      [.init, .visit, .noPath] := by
  decide

end ClaimThreeFive

section BubbleCorrectness

/-- Functional model of one bubble pass over a window: compare adjacent
pairs left to right, swapping out-of-order ones; the flag records whether
any swap happened. -/
def funcPass : List Int → List Int × Bool
  | [] => ([], false)
  | [a] => ([a], false)
  | a :: b :: t =>
      if a > b then
        let r := funcPass (a :: t)
        (b :: r.1, true)
      else
        let r := funcPass (b :: t)
        (a :: r.1, r.2)
termination_by l => l.length

theorem funcPass_perm : ∀ l : List Int, (funcPass l).1.Perm l := by
  intro l
  induction l using funcPass.induct with
  | case1 => simp [funcPass]
  | case2 a => simp [funcPass]
  | case3 a b t h ih =>
      show ((funcPass (a :: b :: t)).1).Perm _
      rw [funcPass, if_pos h]
      exact (List.Perm.cons b ih).trans (List.Perm.swap a b t)
  | case4 a b t h ih =>
      show ((funcPass (a :: b :: t)).1).Perm _
      rw [funcPass, if_neg h]
      exact List.Perm.cons a ih

theorem funcPass_false : ∀ l : List Int, (funcPass l).2 = false →
    (funcPass l).1 = l ∧ l.Sorted (· ≤ ·) := by
  intro l
  induction l using funcPass.induct with
  | case1 => simp [funcPass]
  | case2 a => simp [funcPass]
  | case3 a b t h ih =>
      intro hfl
      rw [funcPass, if_pos h] at hfl
      simp at hfl
  | case4 a b t h ih =>
      intro hfl
      rw [funcPass, if_neg h] at hfl
      simp only [] at hfl
      obtain ⟨heq, hsorted⟩ := ih hfl
      rw [funcPass, if_neg h]
      refine ⟨by simp [heq], ?_⟩
      rw [List.sorted_cons]
      refine ⟨?_, hsorted⟩
      intro x hx
      rcases List.mem_cons.mp hx with rfl | hx'
      · omega
      · have hb := (List.sorted_cons.mp hsorted).1 x hx'
        omega

theorem funcPass_max : ∀ l : List Int, l ≠ [] →
    ∃ F M, (funcPass l).1 = F ++ [M] ∧ ∀ x ∈ (funcPass l).1, x ≤ M := by
  intro l
  induction l using funcPass.induct with
  | case1 => intro h; exact absurd rfl h
  | case2 a =>
      intro _
      exact ⟨[], a, by simp [funcPass], by simp [funcPass]⟩
  | case3 a b t h ih =>
      intro _
      obtain ⟨F, M, hFM, hmax⟩ := ih (by simp)
      have hamem : a ∈ (funcPass (a :: t)).1 :=
        (funcPass_perm (a :: t)).mem_iff.mpr (List.mem_cons_self _ _)
      refine ⟨b :: F, M, ?_, ?_⟩
      · rw [funcPass, if_pos h]
        simp [hFM]
      · intro x hx
        rw [funcPass, if_pos h] at hx
        simp only [] at hx
        rcases List.mem_cons.mp hx with rfl | hx'
        · have := hmax a hamem
          omega
        · exact hmax x hx'
  | case4 a b t h ih =>
      intro _
      obtain ⟨F, M, hFM, hmax⟩ := ih (by simp)
      have hbmem : b ∈ (funcPass (b :: t)).1 :=
        (funcPass_perm (b :: t)).mem_iff.mpr (List.mem_cons_self _ _)
      refine ⟨a :: F, M, ?_, ?_⟩
      · rw [funcPass, if_neg h]
        simp [hFM]
      · intro x hx
        rw [funcPass, if_neg h] at hx
        simp only [] at hx
        rcases List.mem_cons.mp hx with rfl | hx'
        · have := hmax b hbmem
          omega
        · exact hmax x hx'

theorem getD_append_middle (pre win post : List Int) (k : Nat)
    (hk : k < win.length) :
    (pre ++ win ++ post).getD (pre.length + k) 0 = win.getD k 0 := by
  rw [List.append_assoc, List.getD_append_right _ _ _ _ (Nat.le_add_right _ _),
    Nat.add_sub_cancel_left, List.getD_append _ _ _ _ hk]

theorem set_append_middle (pre win post : List Int) (k : Nat) (v : Int)
    (hk : k < win.length) :
    (pre ++ win ++ post).set (pre.length + k) v = pre ++ win.set k v ++ post := by
  rw [List.append_assoc, List.set_append,
    if_neg (by omega : ¬ pre.length + k < pre.length),
    Nat.add_sub_cancel_left, List.set_append, if_pos hk, List.append_assoc]

/-- The index-based inner bubble pass computes the functional pass on the
window starting at index `pre.length`: the array becomes the passed window in
place, and the swapped flag accumulates the pass's flag. -/
theorem bubbleInner_funcPass (n i : Nat) :
    ∀ (count : Nat) (pre win post : List Int) (sw : Bool),
      win.length = count + 1 →
      (bubbleInner n i count pre.length (pre ++ win ++ post) sw).1 =
          pre ++ (funcPass win).1 ++ post ∧
      (bubbleInner n i count pre.length (pre ++ win ++ post) sw).2.1 =
          (sw || (funcPass win).2) := by
  intro count
  induction count with
  | zero =>
      intro pre win post sw hwin
      cases win with
      | nil => exact absurd hwin (by simp)
      | cons a t =>
          cases t with
          | nil => simp [bubbleInner, funcPass]
          | cons b t2 => exact absurd hwin (by simp)
  | succ count ih =>
      intro pre win post sw hwin
      cases win with
      | nil => exact absurd hwin (by simp)
      | cons w0 t =>
          cases t with
          | nil => exact absurd hwin (by simp)
          | cons w1 wrest =>
          have hget0 : (pre ++ (w0 :: w1 :: wrest) ++ post).getD pre.length 0 = w0 := by
            have := getD_append_middle pre (w0 :: w1 :: wrest) post 0 (by simp)
            simpa using this
          have hget1 : (pre ++ (w0 :: w1 :: wrest) ++ post).getD
              (pre.length + 1) 0 = w1 :=
            getD_append_middle pre (w0 :: w1 :: wrest) post 1 (by simp)
          have hwrest : wrest.length = count := by
            simp at hwin
            omega
          by_cases hcmp : w0 > w1
          · have hs0 : (pre ++ (w0 :: w1 :: wrest) ++ post).set pre.length w1 =
                pre ++ (w1 :: w1 :: wrest) ++ post := by
              have := set_append_middle pre (w0 :: w1 :: wrest) post 0 w1 (by simp)
              simpa using this
            have hs1 : (pre ++ (w1 :: w1 :: wrest) ++ post).set
                (pre.length + 1) w0 = pre ++ (w1 :: w0 :: wrest) ++ post := by
              have := set_append_middle pre (w1 :: w1 :: wrest) post 1 w0 (by simp)
              simpa using this
            have hswap : listSwap (pre ++ (w0 :: w1 :: wrest) ++ post)
                pre.length (pre.length + 1) =
                pre ++ (w1 :: w0 :: wrest) ++ post := by
              simp only [listSwap, hget0, hget1, hs0, hs1]
            have ihs := ih (pre ++ [w1]) (w0 :: wrest) post true
              (by simpa using hwrest)
            rw [show ((pre ++ [w1] : List Int)).length = pre.length + 1 by simp,
                show (pre ++ [w1]) ++ (w0 :: wrest) ++ post =
                  pre ++ (w1 :: w0 :: wrest) ++ post by simp] at ihs
            rcases hE : bubbleInner n i count (pre.length + 1)
                (pre ++ (w1 :: w0 :: wrest) ++ post) true with ⟨a, s2, rest⟩
            rw [hE] at ihs
            have ha : a = (pre ++ [w1]) ++ (funcPass (w0 :: wrest)).1 ++ post :=
              ihs.1
            have hs2 : s2 = (true || (funcPass (w0 :: wrest)).2) := ihs.2
            have hred : bubbleInner n i (count + 1) pre.length
                (pre ++ (w0 :: w1 :: wrest) ++ post) sw =
                (a, s2,
                  ({ type := .compare, array := pre ++ (w0 :: w1 :: wrest) ++ post,
                     indices := some [pre.length, pre.length + 1],
                     sorted := some ((List.range i).map (fun idx => n - 1 - idx)) } :
                      SortStep) ::
                  ({ type := .swap, array := pre ++ (w1 :: w0 :: wrest) ++ post,
                     indices := some [pre.length, pre.length + 1],
                     sorted := some ((List.range i).map (fun idx => n - 1 - idx)) } :
                      SortStep) :: rest) := by
              simp only [bubbleInner, hget0, hget1]
              rw [if_pos hcmp, hswap, hE]
            rw [hred]
            constructor
            · show a = _
              rw [ha, funcPass, if_pos hcmp]
              simp
            · show s2 = _
              rw [hs2, funcPass, if_pos hcmp]
              simp
          · have ihs := ih (pre ++ [w0]) (w1 :: wrest) post sw
              (by simpa using hwrest)
            rw [show ((pre ++ [w0] : List Int)).length = pre.length + 1 by simp,
                show (pre ++ [w0]) ++ (w1 :: wrest) ++ post =
                  pre ++ (w0 :: w1 :: wrest) ++ post by simp] at ihs
            rcases hE : bubbleInner n i count (pre.length + 1)
                (pre ++ (w0 :: w1 :: wrest) ++ post) sw with ⟨a, s2, rest⟩
            rw [hE] at ihs
            have ha : a = (pre ++ [w0]) ++ (funcPass (w1 :: wrest)).1 ++ post :=
              ihs.1
            have hs2 : s2 = (sw || (funcPass (w1 :: wrest)).2) := ihs.2
            have hred : bubbleInner n i (count + 1) pre.length
                (pre ++ (w0 :: w1 :: wrest) ++ post) sw =
                (a, s2,
                  ({ type := .compare, array := pre ++ (w0 :: w1 :: wrest) ++ post,
                     indices := some [pre.length, pre.length + 1],
                     sorted := some ((List.range i).map (fun idx => n - 1 - idx)) } :
                      SortStep) :: rest) := by
              simp only [bubbleInner, hget0, hget1]
              rw [if_neg hcmp, hE]
            rw [hred]
            constructor
            · show a = _
              rw [ha, funcPass, if_neg hcmp]
              simp
            · show s2 = _
              rw [hs2, funcPass, if_neg hcmp]

/-- The bubble outer loop sorts: given the suffix of length `i` already
sorted and dominating the prefix, the remaining passes deliver a sorted
permutation of the array. -/
theorem bubbleOuter_sorted (n : Nat) :
    ∀ (count i : Nat) (arr : List Int),
      arr.length = n → i + count = n - 1 →
      (arr.drop (n - i)).Sorted (· ≤ ·) →
      (∀ x ∈ arr.take (n - i), ∀ y ∈ arr.drop (n - i), x ≤ y) →
      (bubbleOuter n count i arr).1.Perm arr ∧
        (bubbleOuter n count i arr).1.Sorted (· ≤ ·) := by
  intro count
  induction count with
  | zero =>
      intro i arr hlen hcnt hsorted hdom
      refine ⟨by simp [bubbleOuter], ?_⟩
      simp only [bubbleOuter]
      by_cases hn : n = 0
      · have hnil : arr = [] := List.length_eq_zero.mp (by omega)
        subst hnil
        simp
      · have h1 : n - i = 1 := by omega
        rw [h1] at hsorted hdom
        cases arr with
        | nil => simp
        | cons a t =>
            rw [List.sorted_cons]
            refine ⟨?_, by simpa using hsorted⟩
            intro b hb
            exact hdom a (by simp) b (by simpa using hb)
  | succ count ih =>
      intro i arr hlen hcnt hsorted hdom
      have hn2 : i + 2 ≤ n := by omega
      set win := arr.take (n - i) with hwin
      set post := arr.drop (n - i) with hpost
      have harr : arr = win ++ post := (List.take_append_drop _ _).symm
      have hwinlen : win.length = n - i := by
        rw [hwin, List.length_take]
        omega
      have hbridge := bubbleInner_funcPass n i (n - i - 1) [] win post false
        (by omega)
      rw [show (([] : List Int)).length = 0 from rfl, List.nil_append] at hbridge
      rw [show win ++ post = arr from harr.symm] at hbridge
      rcases hE : bubbleInner n i (n - i - 1) 0 arr false with ⟨a, swp, inner⟩
      rw [hE] at hbridge
      have ha : a = (funcPass win).1 ++ post := by
        have := hbridge.1
        simpa using this
      have hswp : swp = (funcPass win).2 := by
        have := hbridge.2
        simpa using this
      have hwinne : win ≠ [] := by
        intro hc
        rw [hc] at hwinlen
        simp at hwinlen
        omega
      have hwinperm : ((funcPass win).1).Perm win := funcPass_perm win
      by_cases hflag : swp = true
      · have hred : bubbleOuter n (count + 1) i arr =
            ((bubbleOuter n count (i + 1) a).1,
              ({ type := .pass, array := arr,
                 sorted := some ((List.range (n - i)).map
                   (fun idx => n - 1 - idx)) } : SortStep) ::
                (inner ++ (bubbleOuter n count (i + 1) a).2)) := by
          simp only [bubbleOuter, hE]
          rw [if_pos hflag]
        obtain ⟨F, M, hFM, hmax⟩ := funcPass_max win hwinne
        have hwin'len : (funcPass win).1.length = n - i := by
          rw [hwinperm.length_eq, hwinlen]
        have hFlen : F.length = n - i - 1 := by
          have : (F ++ [M]).length = n - i := by rw [← hFM, hwin'len]
          simp at this
          omega
        have halen : a.length = n := by
          rw [ha]
          have : ((funcPass win).1 ++ post).length =
              (win ++ post).length := by
            simp [hwinperm.length_eq]
          rw [this, ← harr, hlen]
        have hadecomp : a = F ++ (M :: post) := by
          rw [ha, hFM]
          simp
        have hdropa : a.drop (n - (i + 1)) = M :: post := by
          rw [hadecomp, show n - (i + 1) = F.length by omega]
          exact List.drop_left F (M :: post)
        have htakea : a.take (n - (i + 1)) = F := by
          rw [hadecomp, show n - (i + 1) = F.length by omega]
          exact List.take_left F (M :: post)
        have hMmem : M ∈ win := hwinperm.mem_iff.mp (by rw [hFM]; simp)
        have hsorted' : (a.drop (n - (i + 1))).Sorted (· ≤ ·) := by
          rw [hdropa, List.sorted_cons]
          refine ⟨?_, hsorted⟩
          intro b hb
          exact hdom M hMmem b hb
        have hdom' : ∀ x ∈ a.take (n - (i + 1)), ∀ y ∈ a.drop (n - (i + 1)),
            x ≤ y := by
          rw [htakea, hdropa]
          intro x hx y hy
          have hxwin' : x ∈ (funcPass win).1 := by rw [hFM]; simp [hx]
          rcases List.mem_cons.mp hy with rfl | hy'
          · exact hmax x hxwin'
          · exact hdom x (hwinperm.mem_iff.mp hxwin') y hy'
        obtain ⟨hperm, hsorted2⟩ := ih (i + 1) a halen (by omega) hsorted' hdom'
        rw [hred]
        refine ⟨?_, hsorted2⟩
        have h2 : a.Perm arr := by
          rw [ha, harr]
          exact hwinperm.append_right post
        exact hperm.trans h2
      · have hflag' : swp = false := by
          cases swp
          · rfl
          · exact absurd rfl hflag
        have hred : bubbleOuter n (count + 1) i arr =
            (a, ({ type := .pass, array := arr,
                   sorted := some ((List.range (n - i)).map
                     (fun idx => n - 1 - idx)) } : SortStep) ::
              (inner ++ [{ type := .earlyExit, array := a,
                           sorted := some (List.range n) }])) := by
          simp only [bubbleOuter, hE]
          rw [if_neg (by rw [hflag']; simp)]
        obtain ⟨hid, hwinsorted⟩ := funcPass_false win (hflag' ▸ hswp.symm)
        rw [hred]
        have ha' : a = arr := by
          rw [ha, hid, ← harr]
        refine ⟨by rw [ha'], ?_⟩
        rw [ha', harr]
        rw [show ((· ≤ ·) : Int → Int → Prop) = (fun x y => x ≤ y) from rfl]
        rw [List.Sorted, List.pairwise_append]
        exact ⟨hwinsorted, hsorted, fun x hx y hy => hdom x hx y hy⟩

end BubbleCorrectness

section InsertionCorrectness

theorem getD_set_ne (c : List Int) (idx : Nat) (v : Int) (m : Nat)
    (h : m ≠ idx) : (c.set idx v).getD m 0 = c.getD m 0 := by
  by_cases hm : m < c.length
  · rw [List.getD_eq_getElem _ _ (by simpa using hm), List.getD_eq_getElem _ _ hm]
    exact List.getElem_set_ne (Ne.symm h) _
  · rw [List.getD_eq_default _ _ (by simpa using not_lt.mp hm),
      List.getD_eq_default _ _ (not_lt.mp hm)]

/-- Closed form of the insertion-sort shift loop: starting at `jj` (the JS
index `j + 1`), it returns the insertion position `p` and the array whose
cells `p+1 .. jj` hold the former cells `p .. jj-1`, each of which was
greater than the key; the cell below the insertion position (if any) is at
most the key. -/
theorem insWhile_spec (i : Nat) (key : Int) :
    ∀ (jj : Nat) (c : List Int), jj ≤ i → i < c.length →
      (insWhile i key jj c).2.1 ≤ jj ∧
      (insWhile i key jj c).1 =
        c.take ((insWhile i key jj c).2.1 + 1) ++
          (c.drop (insWhile i key jj c).2.1).take (jj - (insWhile i key jj c).2.1) ++
          c.drop (jj + 1) ∧
      (∀ m, (insWhile i key jj c).2.1 ≤ m → m < jj → c.getD m 0 > key) ∧
      ((insWhile i key jj c).2.1 = 0 ∨
        c.getD ((insWhile i key jj c).2.1 - 1) 0 ≤ key) := by
  intro jj
  induction jj with
  | zero =>
      intro c _ hi
      refine ⟨le_refl _, ?_, fun m _ hm => absurd hm (Nat.not_lt_zero m), Or.inl rfl⟩
      show c = c.take 1 ++ (c.drop 0).take 0 ++ c.drop 1
      simp only [List.take_zero, List.append_nil]
      exact (List.take_append_drop 1 c).symm
  | succ jj ih =>
      intro c hji hi
      by_cases hguard : c.getD jj 0 > key
      · set w := c.getD jj 0 with hw
        set c' := c.set (jj + 1) w with hc'
        have hjlt : jj + 1 < c.length := by omega
        have hcdecomp : c' = c.take (jj + 1) ++ w :: c.drop (jj + 2) := by
          rw [hc', List.set_eq_take_append_cons_drop]
          rw [if_pos hjlt]
        have hlen' : c'.length = c.length := by rw [hc', List.length_set]
        have hred : insWhile i key (jj + 1) c =
            ((insWhile i key jj c').1, (insWhile i key jj c').2.1,
              ({ type := .compare, array := c,
                 indices := some [jj, jj + 1],
                 sorted := some (List.range i) } : SortStep) ::
              ({ type := .shift, array := c',
                 indices := some [jj, jj + 1],
                 sorted := some (List.range i) } : SortStep) ::
              (insWhile i key jj c').2.2) := by
          rcases hE : insWhile i key jj c' with ⟨a, p, rest⟩
          simp only [insWhile]
          rw [if_pos hguard, ← hw, ← hc', hE]
        obtain ⟨hp, ha, hshift, hstop⟩ := ih c' (by omega) (by omega)
        rw [hred]
        dsimp only
        set p := (insWhile i key jj c').2.1 with hpdef
        have hp1 : p + 1 ≤ jj + 1 := by omega
        have htake1 : c'.take (p + 1) = c.take (p + 1) := by
          rw [hcdecomp, List.take_append_eq_append_take,
            List.take_take]
          have h1 : min (p + 1) (jj + 1) = p + 1 := by omega
          have h2 : p + 1 - (c.take (jj + 1)).length = 0 := by
            rw [List.length_take]
            omega
          rw [h1, h2]
          simp
        have hdroptake : (c'.drop p).take (jj - p) = (c.drop p).take (jj - p) := by
          rw [hcdecomp, List.drop_append_eq_append_drop]
          have h2 : p - (c.take (jj + 1)).length = 0 := by
            rw [List.length_take]
            omega
          rw [h2, List.take_append_eq_append_take]
          have h3 : (jj - p) - ((c.take (jj + 1)).drop p).length = 0 := by
            rw [List.length_drop, List.length_take]
            omega
          rw [h3, List.drop_take, List.take_take]
          have h4 : min (jj - p) (jj + 1 - p) = jj - p := by omega
          rw [h4]
          simp
        have hdrop' : c'.drop (jj + 1) = w :: c.drop (jj + 2) := by
          rw [hcdecomp, List.drop_append_eq_append_drop]
          have h1 : jj + 1 - (c.take (jj + 1)).length = 0 := by
            rw [List.length_take]
            omega
          rw [h1]
          have h2 : (c.take (jj + 1)).drop (jj + 1) = [] := by
            apply List.drop_eq_nil_of_le
            rw [List.length_take]
            omega
          rw [h2]
          simp
        have hslice : (c.drop p).take (jj - p) ++ [w] =
            (c.drop p).take (jj + 1 - p) := by
          have hjlen : jj - p < (c.drop p).length := by
            rw [List.length_drop]
            omega
          have hval : (c.drop p).get ⟨jj - p, hjlen⟩ = w := by
            rw [hw, List.get_eq_getElem, List.getElem_drop,
              List.getD_eq_getElem _ _ (by omega : jj < c.length)]
            simp only [show p + (jj - p) = jj from by omega]
          have ht : (c.drop p).take (jj - p + 1) =
              (c.drop p).take (jj - p) ++ [(c.drop p).get ⟨jj - p, hjlen⟩] := by
            rw [List.take_succ, List.getElem?_eq_getElem hjlen]
            rfl
          rw [show jj + 1 - p = jj - p + 1 by omega, ht, hval]
        refine ⟨by omega, ?_, ?_, ?_⟩
        · rw [ha, htake1, hdroptake, hdrop', ← hslice]
          simp
        · intro m hm1 hm2
          rcases Nat.lt_or_ge m jj with hmlt | hmge
          · have := hshift m hm1 hmlt
            rwa [hc', getD_set_ne _ _ _ _ (by omega)] at this
          · have hmeq : m = jj := by omega
            rw [hmeq]
            exact hguard
        · rcases hstop with h0 | hle
          · exact Or.inl h0
          · right
            rwa [hc', getD_set_ne _ _ _ _ (by omega)] at hle
      · have hred : insWhile i key (jj + 1) c = (c, jj + 1, []) := by
          simp only [insWhile]
          rw [if_neg hguard]
        rw [hred]
        dsimp only
        refine ⟨le_refl _, ?_, fun m h1 h2 => absurd h2 (not_lt.mpr h1),
          Or.inr (by simpa using not_lt.mp hguard)⟩
        simp only [Nat.sub_self, List.take_zero, List.append_nil]
        exact (List.take_append_drop (jj + 1 + 1) c).symm

set_option maxHeartbeats 1200000 in
/-- One outer insertion step: writing the key at the insertion position
produced by the shift loop yields a permutation of the array of unchanged
length whose first `i + 1` cells are sorted whenever the first `i` were. -/
theorem insStep_facts (arr : List Int) (i : Nat) (hi : i < arr.length) :
    ((insWhile i (arr.getD i 0) i arr).1.set
        (insWhile i (arr.getD i 0) i arr).2.1 (arr.getD i 0)).Perm arr ∧
    ((insWhile i (arr.getD i 0) i arr).1.set
        (insWhile i (arr.getD i 0) i arr).2.1 (arr.getD i 0)).length = arr.length ∧
    ((arr.take i).Sorted (· ≤ ·) →
      (((insWhile i (arr.getD i 0) i arr).1.set
          (insWhile i (arr.getD i 0) i arr).2.1 (arr.getD i 0)).take
        (i + 1)).Sorted (· ≤ ·)) := by
  set key := arr.getD i 0 with hkey
  obtain ⟨hp, ha, hshift, hstop⟩ := insWhile_spec i key i arr (le_refl i) hi
  set p := (insWhile i key i arr).2.1 with hpdef
  set a1 := (insWhile i key i arr).1 with ha1def
  set A := arr.take p with hA
  set S := (arr.drop p).take (i - p) with hS
  set D := arr.drop (i + 1) with hD
  have hplt : p < arr.length := by omega
  have hAlen : A.length = p := by rw [hA, List.length_take]; omega
  have hSlen : S.length = i - p := by
    rw [hS, List.length_take, List.length_drop]; omega
  have htakep : arr.take (p + 1) = A ++ [arr.get ⟨p, hplt⟩] := by
    rw [hA, List.take_succ, List.getElem?_eq_getElem hplt]; rfl
  have harr2 : a1.set p key = A ++ key :: (S ++ D) := by
    rw [ha, htakep, List.append_assoc, List.append_assoc, List.singleton_append,
      List.set_append, if_neg (by rw [hAlen]; omega), hAlen, Nat.sub_self,
      List.set_cons_zero]
  have hdrop3 : arr.drop i = key :: D := by
    rw [hD, List.drop_eq_getElem_cons hi, hkey, List.getD_eq_getElem _ _ hi]
  have hdrop2 : arr.drop p = S ++ (key :: D) := by
    rw [hS, ← hdrop3]
    have hdd : arr.drop i = (arr.drop p).drop (i - p) := by
      rw [List.drop_drop]
      congr 1
      omega
    rw [hdd, List.take_append_drop]
  have hdecomp : arr = A ++ (S ++ (key :: D)) := by
    rw [← hdrop2, hA, List.take_append_drop]
  have hperm : (a1.set p key).Perm arr := by
    rw [harr2]
    have h2 : (A ++ (key :: (S ++ D))).Perm (A ++ (S ++ (key :: D))) :=
      List.Perm.append_left A List.perm_middle.symm
    rw [← hdecomp] at h2
    exact h2
  refine ⟨hperm, hperm.length_eq, ?_⟩
  intro hsort
  have htake2 : (a1.set p key).take (i + 1) = A ++ key :: S := by
    rw [harr2]
    have hshape : A ++ key :: (S ++ D) = (A ++ key :: S) ++ D := by
      simp [List.append_assoc]
    rw [hshape]
    have hlen3 : (A ++ key :: S).length = i + 1 := by
      simp only [List.length_append, List.length_cons, hAlen, hSlen]
      omega
    rw [← hlen3, List.take_left]
  have hAS : arr.take i = A ++ S := by
    rw [← List.take_append_drop p (arr.take i)]
    congr 1
    · rw [List.take_take, hA]
      congr 1
      omega
    · rw [List.drop_take, hS]
  have hsortAS := hsort
  rw [hAS, show ((· ≤ ·) : Int → Int → Prop) = (fun x y => x ≤ y) from rfl,
    List.Sorted, List.pairwise_append] at hsortAS
  obtain ⟨hsA, hsS, _⟩ := hsortAS
  have hlen_ti : (arr.take i).length = i := by
    rw [List.length_take]; omega
  have hSgt : ∀ y ∈ S, key < y := by
    intro y hy
    rw [hS] at hy
    obtain ⟨k, hk, hky⟩ := List.mem_iff_getElem.mp hy
    have hk2 : k < i - p := by
      rw [List.length_take, List.length_drop] at hk
      omega
    rw [List.getElem_take, List.getElem_drop] at hky
    have hgt := hshift (p + k) (by omega) (by omega)
    rw [List.getD_eq_getElem _ _ (by omega)] at hgt
    rw [hky] at hgt
    exact hgt
  have hAle : ∀ x ∈ A, x ≤ key := by
    intro x hx
    rcases hstop with h0 | hle
    · rw [hA, h0] at hx
      simp at hx
    · rw [hA] at hx
      obtain ⟨m, hm, hmx⟩ := List.mem_iff_getElem.mp hx
      have hm2 : m < p := by
        rw [List.length_take] at hm
        omega
      rw [List.getElem_take] at hmx
      rw [List.getD_eq_getElem _ _ (by omega : p - 1 < arr.length)] at hle
      rcases Nat.lt_or_ge m (p - 1) with hmlt | hmge
      · have hrel := List.pairwise_iff_getElem.mp hsort m (p - 1)
          (by rw [hlen_ti]; omega) (by rw [hlen_ti]; omega) hmlt
        rw [List.getElem_take, List.getElem_take] at hrel
        rw [hmx] at hrel
        exact hrel.trans hle
      · have hmeq : m = p - 1 := by omega
        subst hmeq
        rw [← hmx]
        exact hle
  rw [htake2, show ((· ≤ ·) : Int → Int → Prop) = (fun x y => x ≤ y) from rfl,
    List.Sorted, List.pairwise_append]
  refine ⟨hsA, ?_, ?_⟩
  · rw [List.pairwise_cons]
    exact ⟨fun y hy => le_of_lt (hSgt y hy), hsS⟩
  · intro x hx y hy
    rcases List.mem_cons.mp hy with rfl | hyS
    · exact hAle x hx
    · exact (hAle x hx).trans (le_of_lt (hSgt y hyS))

/-- The insertion-sort outer loop returns a sorted permutation of its input
whenever the prefix below the starting index is already sorted. -/
theorem insOuter_sorted (n : Nat) :
    ∀ (count i : Nat) (arr : List Int), arr.length = n → i + count = n →
      (arr.take i).Sorted (· ≤ ·) →
      (insOuter n count i arr).1.Perm arr ∧
      (insOuter n count i arr).1.Sorted (· ≤ ·) := by
  intro count
  induction count with
  | zero =>
      intro i arr hlen hcount hsort
      refine ⟨List.Perm.refl arr, ?_⟩
      have hieq : i = arr.length := by omega
      rw [hieq, List.take_length] at hsort
      exact hsort
  | succ count ih =>
      intro i arr hlen hcount hsort
      have hi : i < arr.length := by omega
      obtain ⟨hperm, hlen2, hsorted⟩ := insStep_facts arr i hi
      rcases hW : insWhile i (arr.getD i 0) i arr with ⟨a1, p, ws⟩
      rw [hW] at hperm hlen2 hsorted
      dsimp only at hperm hlen2 hsorted
      have hred : (insOuter n (count + 1) i arr).1 =
          (insOuter n count (i + 1) (a1.set p (arr.getD i 0))).1 := by
        rcases hR : insOuter n count (i + 1) (a1.set p (arr.getD i 0)) with ⟨arrF, rest⟩
        simp only [insOuter, hW, hR]
      obtain ⟨hperm2, hsort2⟩ := ih (i + 1) (a1.set p (arr.getD i 0))
        (by rw [hlen2, hlen]) (by omega) (hsorted hsort)
      rw [hred]
      exact ⟨hperm2.trans hperm, hsort2⟩

/-- The array carried out of the insertion-sort loop is a sorted permutation
of the input. -/
theorem insertionSort_final (arr : List Int) :
    (insOuter arr.length (arr.length - 1) 1 arr).1.Perm arr ∧
    (insOuter arr.length (arr.length - 1) 1 arr).1.Sorted (· ≤ ·) := by
  cases arr with
  | nil => exact ⟨List.Perm.refl _, by simp [insOuter]⟩
  | cons a t =>
      apply insOuter_sorted (a :: t).length ((a :: t).length - 1) 1 (a :: t) rfl
        (by simp; omega)
      simp

end InsertionCorrectness

section MergeCorrectness

/-- Functional left-biased merge: the comparison `leftArr[i] <= rightArr[j]`
in the JS merge takes from the left run on ties, which is core `List.merge`
with the boolean `≤` test. -/
def mergeF (l r : List Int) : List Int :=
  l.merge r (fun a b => decide (a ≤ b))

theorem take_at_append (pre t : List Int) (m : Nat) (hm : pre.length = m) :
    (pre ++ t).take m = pre := by
  rw [← hm, List.take_left]

theorem drop_at_append (pre t : List Int) (m : Nat) (hm : pre.length = m) :
    (pre ++ t).drop m = t := by
  rw [← hm, List.drop_left]

/-- Writing one cell inside bounds splits the array at that cell. -/
theorem set_take_drop (arr : List Int) (k : Nat) (v : Int) (hk : k < arr.length) :
    (arr.set k v).take (k + 1) = arr.take k ++ [v] ∧
    ∀ m, k < m → (arr.set k v).drop m = arr.drop m := by
  constructor
  · rw [List.set_eq_take_append_cons_drop, if_pos hk, List.take_append_eq_append_take,
      List.take_take]
    have h1 : min (k + 1) k = k := by omega
    have h2 : k + 1 - (arr.take k).length = 1 := by
      rw [List.length_take]; omega
    rw [h1, h2, List.take_succ_cons, List.take_zero]
  · intro m hm
    rw [List.drop_set, if_pos hm]

/-- Views of an array of the shape `prefix ++ window ++ suffix` where the
prefix and suffix are untouched cells of `arr`. -/
theorem seg_state (arr W : List Int) (s : Nat) (h : s + W.length ≤ arr.length) :
    (arr.take s ++ W ++ arr.drop (s + W.length)).length = arr.length ∧
    (arr.take s ++ W ++ arr.drop (s + W.length)).take (s + W.length) =
      arr.take s ++ W ∧
    (∀ m, s + W.length ≤ m →
      (arr.take s ++ W ++ arr.drop (s + W.length)).drop m = arr.drop m) ∧
    (arr.take s ++ W ++ arr.drop (s + W.length)).take s = arr.take s ∧
    (arr.take s ++ W ++ arr.drop (s + W.length)).drop s =
      W ++ arr.drop (s + W.length) := by
  have hpre : (arr.take s ++ W).length = s + W.length := by
    rw [List.length_append, List.length_take]; omega
  refine ⟨?_, ?_, ?_, ?_, ?_⟩
  · rw [List.length_append, List.length_append, List.length_take, List.length_drop]
    omega
  · rw [← hpre, List.take_left]
  · intro m hm
    rw [List.drop_append_eq_append_drop, List.drop_eq_nil_of_le (by rw [hpre]; omega),
      List.nil_append, hpre, List.drop_drop]
    congr 1
    omega
  · rw [List.append_assoc]
    exact take_at_append _ _ _ (by rw [List.length_take]; omega)
  · rw [List.append_assoc]
    exact drop_at_append _ _ _ (by rw [List.length_take]; omega)

/-- Closed form of the first merge loop: it fills consecutive cells starting
at `k` with a prefix `P` of the functional merge of the two remaining runs,
stopping exactly when one run is exhausted. -/
theorem mergeLoop_spec (L R : List Int) (lOfs mOfs : Nat) :
    ∀ (fuel i j k : Nat) (arr a : List Int) (iF jF kF : Nat)
      (steps : List SortStep),
      mergeLoop L R lOfs mOfs fuel i j k arr = (a, iF, jF, kF, steps) →
      i ≤ L.length → j ≤ R.length →
      L.length - i + (R.length - j) ≤ fuel →
      k + (L.length - i + (R.length - j)) ≤ arr.length →
      ∃ P : List Int,
        a = arr.take k ++ P ++ arr.drop (k + P.length) ∧
        kF = k + P.length ∧
        P.length = iF - i + (jF - j) ∧
        i ≤ iF ∧ iF ≤ L.length ∧ j ≤ jF ∧ jF ≤ R.length ∧
        (iF = L.length ∨ jF = R.length) ∧
        mergeF (L.drop i) (R.drop j) = P ++ L.drop iF ++ R.drop jF := by
  intro fuel
  induction fuel with
  | zero =>
      intro i j k arr a iF jF kF steps hE hi hj hfuel harr
      simp only [mergeLoop, Prod.mk.injEq] at hE
      obtain ⟨rfl, rfl, rfl, rfl, rfl⟩ := hE
      have hiL : i = L.length := by omega
      refine ⟨[], by simpa using (List.take_append_drop k arr).symm, by simp,
        by simp only [List.length_nil]; omega, le_refl i, hi, le_refl j, hj,
        Or.inl hiL, ?_⟩
      rw [hiL]
      simp [mergeF, List.drop_length, List.nil_merge]
  | succ fuel ih =>
      intro i j k arr a iF jF kF steps hE hi hj hfuel harr
      by_cases hg : i < L.length ∧ j < R.length
      · have hkarr : k < arr.length := by omega
        by_cases hcmp : L.getD i 0 ≤ R.getD j 0
        · rcases hR : mergeLoop L R lOfs mOfs fuel (i + 1) j (k + 1)
              (arr.set k (L.getD i 0)) with ⟨a2, i2, j2, k2, rest2⟩
          simp only [mergeLoop] at hE
          rw [if_pos hg] at hE
          rw [if_pos hcmp] at hE
          dsimp only at hE
          rw [hR] at hE
          dsimp only at hE
          simp only [Prod.mk.injEq] at hE
          obtain ⟨rfl, rfl, rfl, rfl, rfl⟩ := hE
          obtain ⟨Q, hP1, hP2, hP3, h4, h5, h6, h7, hdisj, hmerge⟩ :=
            ih (i + 1) j (k + 1) (arr.set k (L.getD i 0)) a2 i2 j2 k2 rest2 hR
              (by omega) hj (by omega) (by rw [List.length_set]; omega)
          refine ⟨L.getD i 0 :: Q, ?_, ?_, ?_, by omega, h5, h6, h7, hdisj, ?_⟩
          · rw [hP1, (set_take_drop arr k (L.getD i 0) hkarr).1,
              (set_take_drop arr k (L.getD i 0) hkarr).2 (k + 1 + Q.length)
                (by omega)]
            rw [show k + (L.getD i 0 :: Q).length = k + 1 + Q.length from by
              simp only [List.length_cons]; omega]
            simp [List.append_assoc]
          · rw [hP2]
            simp only [List.length_cons]
            omega
          · simp only [List.length_cons]
            omega
          · have hdL : L.drop i = L.getD i 0 :: L.drop (i + 1) := by
              rw [List.drop_eq_getElem_cons hg.1, List.getD_eq_getElem _ _ hg.1]
            have hdR : R.drop j = R.getD j 0 :: R.drop (j + 1) := by
              rw [List.drop_eq_getElem_cons hg.2, List.getD_eq_getElem _ _ hg.2]
            simp only [mergeF] at hmerge ⊢
            rw [hdL, hdR, List.cons_merge_cons_pos _ _ _ (decide_eq_true hcmp),
              ← hdR, hmerge]
            simp
        · rcases hR : mergeLoop L R lOfs mOfs fuel i (j + 1) (k + 1)
              (arr.set k (R.getD j 0)) with ⟨a2, i2, j2, k2, rest2⟩
          simp only [mergeLoop] at hE
          rw [if_pos hg] at hE
          rw [if_neg hcmp] at hE
          dsimp only at hE
          rw [hR] at hE
          dsimp only at hE
          simp only [Prod.mk.injEq] at hE
          obtain ⟨rfl, rfl, rfl, rfl, rfl⟩ := hE
          obtain ⟨Q, hP1, hP2, hP3, h4, h5, h6, h7, hdisj, hmerge⟩ :=
            ih i (j + 1) (k + 1) (arr.set k (R.getD j 0)) a2 i2 j2 k2 rest2 hR
              hi (by omega) (by omega) (by rw [List.length_set]; omega)
          refine ⟨R.getD j 0 :: Q, ?_, ?_, ?_, h4, h5, by omega, h7, hdisj, ?_⟩
          · rw [hP1, (set_take_drop arr k (R.getD j 0) hkarr).1,
              (set_take_drop arr k (R.getD j 0) hkarr).2 (k + 1 + Q.length)
                (by omega)]
            rw [show k + (R.getD j 0 :: Q).length = k + 1 + Q.length from by
              simp only [List.length_cons]; omega]
            simp [List.append_assoc]
          · rw [hP2]
            simp only [List.length_cons]
            omega
          · simp only [List.length_cons]
            omega
          · have hdL : L.drop i = L.getD i 0 :: L.drop (i + 1) := by
              rw [List.drop_eq_getElem_cons hg.1, List.getD_eq_getElem _ _ hg.1]
            have hdR : R.drop j = R.getD j 0 :: R.drop (j + 1) := by
              rw [List.drop_eq_getElem_cons hg.2, List.getD_eq_getElem _ _ hg.2]
            simp only [mergeF] at hmerge ⊢
            rw [hdL, hdR, List.cons_merge_cons_neg _ _ _ (by simpa using hcmp),
              ← hdL, hmerge]
            simp
      · simp only [mergeLoop] at hE
        rw [if_neg hg] at hE
        simp only [Prod.mk.injEq] at hE
        obtain ⟨rfl, rfl, rfl, rfl, rfl⟩ := hE
        have hor : i = L.length ∨ j = R.length := by
          rcases not_and_or.mp hg with h | h
          · left; omega
          · right; omega
        refine ⟨[], by simpa using (List.take_append_drop k arr).symm, by simp,
          by simp only [List.length_nil]; omega, le_refl i, hi, le_refl j, hj,
          hor, ?_⟩
        rcases hor with h | h
        · rw [h]
          simp [mergeF, List.drop_length, List.nil_merge]
        · rw [h]
          simp [mergeF, List.drop_length, List.merge_right]

/-- Closed form of the copy-through loop: `count` consecutive cells of `src`
starting at `i` are written to consecutive cells starting at `k`. -/
theorem mergeCopy_spec (src : List Int) :
    ∀ (count i k : Nat) (arr a : List Int) (kF : Nat) (steps : List SortStep),
      mergeCopy src count i k arr = (a, kF, steps) →
      i + count ≤ src.length → k + count ≤ arr.length →
      a = arr.take k ++ (src.drop i).take count ++ arr.drop (k + count) ∧
      kF = k + count := by
  intro count
  induction count with
  | zero =>
      intro i k arr a kF steps hE hsrc harr
      simp only [mergeCopy, Prod.mk.injEq] at hE
      obtain ⟨rfl, rfl, rfl⟩ := hE
      exact ⟨by simpa using (List.take_append_drop k arr).symm, by omega⟩
  | succ count ih =>
      intro i k arr a kF steps hE hsrc harr
      rcases hR : mergeCopy src count (i + 1) (k + 1) (arr.set k (src.getD i 0))
        with ⟨a2, k2, rest2⟩
      simp only [mergeCopy] at hE
      rw [hR] at hE
      dsimp only at hE
      simp only [Prod.mk.injEq] at hE
      obtain ⟨rfl, rfl, rfl⟩ := hE
      obtain ⟨h1, h2⟩ := ih (i + 1) (k + 1) (arr.set k (src.getD i 0)) a2 k2
        rest2 hR (by omega) (by rw [List.length_set]; omega)
      have hkarr : k < arr.length := by omega
      have hisrc : i < src.length := by omega
      constructor
      · rw [h1, (set_take_drop arr k (src.getD i 0) hkarr).1,
          (set_take_drop arr k (src.getD i 0) hkarr).2 (k + 1 + count) (by omega)]
        rw [show (src.drop i).take (count + 1) =
            src.getD i 0 :: (src.drop (i + 1)).take count from by
          rw [List.drop_eq_getElem_cons hisrc, List.take_succ_cons,
            List.getD_eq_getElem _ _ hisrc]]
        rw [show k + (count + 1) = k + 1 + count from by omega]
        simp [List.append_assoc]
      · omega

/-- `merge(arr, left, mid, right)` replaces the cells `left .. right` with the
functional merge of the two adjacent runs and touches no other cell. -/
theorem mergeRuns_spec (arr : List Int) (left mid right : Int) (depth : Nat)
    (h0 : 0 ≤ left) (h1 : left ≤ mid + 1) (h2 : mid + 1 ≤ right + 1)
    (h3 : right + 1 ≤ (arr.length : Int)) :
    (mergeRuns arr left mid right depth).1 =
      arr.take left.toNat ++
        mergeF (jsSlice arr left (mid + 1)) (jsSlice arr (mid + 1) (right + 1)) ++
        arr.drop (right + 1).toNat := by
  rcases hE1 : mergeLoop (jsSlice arr left (mid + 1))
      (jsSlice arr (mid + 1) (right + 1)) left.toNat (mid + 1).toNat
      ((jsSlice arr left (mid + 1)).length +
        (jsSlice arr (mid + 1) (right + 1)).length)
      0 0 left.toNat arr with ⟨a1, i1, j1, k1, s1⟩
  rcases hE2 : mergeCopy (jsSlice arr left (mid + 1))
      ((jsSlice arr left (mid + 1)).length - i1) i1 k1 a1 with ⟨a2, k2, s2⟩
  rcases hE3 : mergeCopy (jsSlice arr (mid + 1) (right + 1))
      ((jsSlice arr (mid + 1) (right + 1)).length - j1) j1 k2 a2
    with ⟨a3, k3, s3⟩
  have hrw : (mergeRuns arr left mid right depth).1 = a3 := by
    simp only [mergeRuns, hE1, hE2, hE3]
  set L := jsSlice arr left (mid + 1) with hLdef
  set R := jsSlice arr (mid + 1) (right + 1) with hRdef
  set lN := left.toNat with hlN
  set rN := (right + 1).toNat with hrN
  have hLlen : L.length = (mid + 1).toNat - lN := by
    rw [hLdef]
    simp only [jsSlice, List.length_take, List.length_drop]
    omega
  have hRlen : R.length = rN - (mid + 1).toNat := by
    rw [hRdef]
    simp only [jsSlice, List.length_take, List.length_drop]
    omega
  have hbounds : lN ≤ (mid + 1).toNat ∧ (mid + 1).toNat ≤ rN ∧
      rN ≤ arr.length := by
    refine ⟨by omega, by omega, by omega⟩
  obtain ⟨P, hP1, hP2, hP3, h4, h5, h6, h7, hdisj, hmerge⟩ :=
    mergeLoop_spec L R lN (mid + 1).toNat (L.length + R.length) 0 0 lN arr
      a1 i1 j1 k1 s1 hE1 (by omega) (by omega) (by omega) (by omega)
  rw [List.drop_zero, List.drop_zero] at hmerge
  simp only [Nat.sub_zero] at hP3
  have hseg1 := seg_state arr P lN (by omega)
  have ha1len : a1.length = arr.length := by
    rw [hP1]
    exact hseg1.1
  obtain ⟨hc1, hk2⟩ := mergeCopy_spec L (L.length - i1) i1 k1 a1 a2 k2 s2 hE2
    (by omega) (by omega)
  have hLd : (L.drop i1).take (L.length - i1) = L.drop i1 :=
    List.take_of_length_le (by rw [List.length_drop])
  have ha2 : a2 = arr.take lN ++ (P ++ L.drop i1) ++
      arr.drop (lN + (P ++ L.drop i1).length) := by
    rw [hc1, hLd, hP1, hP2, hseg1.2.1,
      hseg1.2.2.1 (lN + P.length + (L.length - i1)) (by omega)]
    rw [show lN + (P ++ L.drop i1).length =
        lN + P.length + (L.length - i1) from by
      simp only [List.length_append, List.length_drop]; omega]
    simp [List.append_assoc]
  have hseg2 := seg_state arr (P ++ L.drop i1) lN
    (by simp only [List.length_append, List.length_drop]; omega)
  have ha2len : a2.length = arr.length := by
    rw [ha2]
    exact hseg2.1
  obtain ⟨hc2, hk3⟩ := mergeCopy_spec R (R.length - j1) j1 k2 a2 a3 k3 s3 hE3
    (by omega) (by rw [ha2len]; omega)
  have hRd : (R.drop j1).take (R.length - j1) = R.drop j1 :=
    List.take_of_length_le (by rw [List.length_drop])
  have hk2' : k2 = lN + (P ++ L.drop i1).length := by
    simp only [List.length_append, List.length_drop]
    omega
  have ha3 : a3 = arr.take lN ++ ((P ++ L.drop i1) ++ R.drop j1) ++
      arr.drop (lN + ((P ++ L.drop i1) ++ R.drop j1).length) := by
    rw [hc2, hRd, ha2, hk2', hseg2.2.1,
      hseg2.2.2.1 (lN + (P ++ L.drop i1).length + (R.length - j1)) (by omega)]
    rw [show lN + ((P ++ L.drop i1) ++ R.drop j1).length =
        lN + (P ++ L.drop i1).length + (R.length - j1) from by
      simp only [List.length_append, List.length_drop]; omega]
    simp [List.append_assoc]
  have hfin : lN + ((P ++ L.drop i1) ++ R.drop j1).length = rN := by
    simp only [List.length_append, List.length_drop]
    omega
  rw [hrw, ha3, hfin, hmerge]

/-- `mergeSortHelper` sorts exactly the segment `left .. right` in place: the
result is the input with that segment replaced by a sorted permutation of
itself. -/
theorem mergeSortHelper_spec (arr : List Int) (left right : Int) (depth : Nat)
    (h0 : 0 ≤ left) (h1 : left ≤ right + 1) (h2 : right < (arr.length : Int)) :
    ∃ S : List Int,
      (mergeSortHelper arr left right depth).1 =
        arr.take left.toNat ++ S ++ arr.drop (right + 1).toNat ∧
      S.length = (right + 1 - left).toNat ∧
      S.Perm (jsSlice arr left (right + 1)) ∧
      S.Sorted (· ≤ ·) := by
  by_cases h : left ≥ right
  · refine ⟨jsSlice arr left (right + 1), ?_, ?_, List.Perm.refl _, ?_⟩
    · rw [mergeSortHelper, dif_pos h]
      have hslice : jsSlice arr left (right + 1) =
          (arr.drop left.toNat).take ((right + 1).toNat - left.toNat) := by
        simp only [jsSlice]
        congr 1
        omega
      have hdr : arr.drop (right + 1).toNat =
          (arr.drop left.toNat).drop ((right + 1).toNat - left.toNat) := by
        rw [List.drop_drop]
        congr 1
        omega
      dsimp only
      rw [hslice, hdr, List.append_assoc, List.take_append_drop,
        List.take_append_drop]
    · simp only [jsSlice, List.length_take, List.length_drop]
      omega
    · have hlen : (jsSlice arr left (right + 1)).length ≤ 1 := by
        simp only [jsSlice, List.length_take, List.length_drop]
        omega
      cases hsl : jsSlice arr left (right + 1) with
      | nil => exact List.sorted_nil
      | cons x t =>
          cases t with
          | nil => exact List.sorted_singleton x
          | cons y u =>
              rw [hsl] at hlen
              simp only [List.length_cons] at hlen
              exact absurd hlen (by omega)
  · have hlr : left < right := by omega
    have hmidb : left ≤ Int.fdiv (left + right) 2 ∧
        Int.fdiv (left + right) 2 < right := by
      rw [Int.fdiv_eq_ediv _ (by norm_num)]
      omega
    set mid := Int.fdiv (left + right) 2 with hmid
    obtain ⟨S1, hf1, hl1, hp1, hs1⟩ := mergeSortHelper_spec arr left mid
      (depth + 1) h0 (by omega) (by omega)
    rcases hE1 : mergeSortHelper arr left mid (depth + 1) with ⟨a1, s1⟩
    rw [hE1] at hf1
    dsimp only at hf1
    set lN := left.toNat with hlN
    set mN := (mid + 1).toNat with hmN
    set rN := (right + 1).toNat with hrN
    have hS1len : S1.length = mN - lN := by omega
    have hf1' : a1 = arr.take lN ++ S1 ++ arr.drop (lN + S1.length) := by
      rw [hf1, show lN + S1.length = mN from by omega]
    have hseg1 := seg_state arr S1 lN (by omega)
    have ha1len : a1.length = arr.length := by
      rw [hf1']
      exact hseg1.1
    obtain ⟨S2, hf2, hl2, hp2, hs2⟩ := mergeSortHelper_spec a1 (mid + 1) right
      (depth + 1) (by omega) (by omega) (by rw [ha1len]; exact h2)
    rcases hE2 : mergeSortHelper a1 (mid + 1) right (depth + 1) with ⟨a2, s2⟩
    rw [hE2] at hf2
    dsimp only at hf2
    have hS2len : S2.length = rN - mN := by omega
    have hsliceR : jsSlice a1 (mid + 1) (right + 1) =
        jsSlice arr (mid + 1) (right + 1) := by
      simp only [jsSlice]
      rw [hf1', hseg1.2.2.1 (mid + 1).toNat (by omega)]
    have hp2' : S2.Perm (jsSlice arr (mid + 1) (right + 1)) := hsliceR ▸ hp2
    have hf2' : a2 = arr.take lN ++ (S1 ++ S2) ++
        arr.drop (lN + (S1 ++ S2).length) := by
      rw [hf2, show (mid + 1).toNat = lN + S1.length from by omega, hf1',
        hseg1.2.1, hseg1.2.2.1 (right + 1).toNat (by omega),
        show lN + (S1 ++ S2).length = (right + 1).toNat from by
          simp only [List.length_append]; omega]
      simp [List.append_assoc]
    have hseg2 := seg_state arr (S1 ++ S2) lN
      (by simp only [List.length_append]; omega)
    have ha2len : a2.length = arr.length := by
      rw [hf2']
      exact hseg2.1
    rcases hE3 : mergeRuns a2 left mid right depth with ⟨a3, s3⟩
    have hrun := mergeRuns_spec a2 left mid right depth h0 (by omega) (by omega)
      (by rw [ha2len]; omega)
    rw [hE3] at hrun
    dsimp only at hrun
    have hslice1 : jsSlice a2 left (mid + 1) = S1 := by
      simp only [jsSlice]
      rw [← hlN, hf2', hseg2.2.2.2.2,
        show (mid + 1 - left).toNat = S1.length from by omega,
        List.append_assoc]
      exact take_at_append _ _ _ rfl
    have hslice2 : jsSlice a2 (mid + 1) (right + 1) = S2 := by
      simp only [jsSlice]
      have hd : a2.drop (mid + 1).toNat = S2 ++ a1.drop (right + 1).toNat := by
        rw [hf2, List.append_assoc]
        exact drop_at_append _ _ _ (by rw [List.length_take, ha1len]; omega)
      rw [hd, show (right + 1 - (mid + 1)).toNat = S2.length from by omega]
      exact take_at_append _ _ _ rfl
    have htk : a2.take left.toNat = arr.take lN := by
      rw [← hlN, hf2']
      exact hseg2.2.2.2.1
    have hdp : a2.drop (right + 1).toNat = arr.drop (right + 1).toNat := by
      rw [hf2', hseg2.2.2.1 (right + 1).toNat
        (by simp only [List.length_append]; omega)]
    have hfinal : (mergeSortHelper arr left right depth).1 = a3 := by
      rw [mergeSortHelper, dif_neg h]
      simp only [← hmid, hE1, hE2, hE3]
    refine ⟨mergeF S1 S2, ?_, ?_, ?_, ?_⟩
    · rw [hfinal, hrun, hslice1, hslice2, htk, hdp]
    · have hpm := (List.perm_merge (fun a b => decide (a ≤ b)) S1 S2).length_eq
      simp only [mergeF]
      rw [hpm, List.length_append]
      omega
    · have hsplit : jsSlice arr left (right + 1) =
          jsSlice arr left (mid + 1) ++ jsSlice arr (mid + 1) (right + 1) := by
        simp only [jsSlice]
        rw [show (right + 1 - left).toNat = (mid + 1 - left).toNat +
            (right + 1 - (mid + 1)).toNat from by omega, List.take_add]
        congr 2
        rw [List.drop_drop]
        congr 1
        omega
      rw [hsplit]
      exact (List.perm_merge _ S1 S2).trans (hp1.append hp2')
    · have htrans : ∀ (a b c : Int), (fun a b => decide (a ≤ b)) a b = true →
          (fun a b => decide (a ≤ b)) b c = true →
          (fun a b => decide (a ≤ b)) a c = true := by
        intro a b c hab hbc
        simp only [decide_eq_true_eq] at hab hbc ⊢
        omega
      have htotal : ∀ (a b : Int), ((fun a b => decide (a ≤ b)) a b ||
          (fun a b => decide (a ≤ b)) b a) = true := by
        intro a b
        simp only [Bool.or_eq_true, decide_eq_true_eq]
        omega
      have hmrg := List.sorted_merge htrans htotal S1 S2
        (List.Pairwise.imp (fun hab => decide_eq_true hab) hs1)
        (List.Pairwise.imp (fun hab => decide_eq_true hab) hs2)
      exact List.Pairwise.imp (fun hab => of_decide_eq_true hab) hmrg
termination_by (right - left).toNat
decreasing_by
  · omega
  · omega

/-- The array carried out of the merge-sort recursion is a sorted permutation
of the input. -/
theorem mergeSort_final (arr : List Int) :
    (mergeSortHelper arr 0 ((arr.length : Int) - 1) 0).1.Perm arr ∧
    (mergeSortHelper arr 0 ((arr.length : Int) - 1) 0).1.Sorted (· ≤ ·) := by
  obtain ⟨S, hform, _, hperm, hsort⟩ := mergeSortHelper_spec arr 0
    ((arr.length : Int) - 1) 0 le_rfl (by omega) (by omega)
  have h1 : (((arr.length : Int) - 1) + 1).toNat = arr.length := by omega
  rw [h1, List.drop_length, List.append_nil] at hform
  have h2 : arr.take (0 : Int).toNat = [] := rfl
  rw [h2, List.nil_append] at hform
  have hslice : jsSlice arr 0 ((arr.length : Int) - 1 + 1) = arr := by
    simp only [jsSlice, Int.sub_add_cancel, Int.sub_zero, Int.toNat_zero,
      List.drop_zero, Int.toNat_natCast]
    exact List.take_length arr
  rw [hslice] at hperm
  rw [hform]
  exact ⟨hperm, hsort⟩

/-- The array carried out of the bubble-sort loop is a sorted permutation of
the input. -/
theorem bubbleSort_final (arr : List Int) :
    (bubbleOuter arr.length (arr.length - 1) 0 arr).1.Perm arr ∧
    (bubbleOuter arr.length (arr.length - 1) 0 arr).1.Sorted (· ≤ ·) := by
  apply bubbleOuter_sorted arr.length (arr.length - 1) 0 arr rfl (by omega)
  · rw [show arr.length - 0 = arr.length from rfl, List.drop_length]
    exact List.sorted_nil
  · intro x hx y hy
    rw [show arr.length - 0 = arr.length from rfl, List.drop_length] at hy
    exact absurd hy (List.not_mem_nil y)

/-- Specification-side canonical result: the input array sorted ascending
(stated via Mathlib's insertion sort on `≤`). -/
def specSortedAscending (arr : List Int) : List Int :=
  List.insertionSort (· ≤ ·) arr

end MergeCorrectness

section ClaimOne

/-- C1: for every input array, the step sequences of bubbleSort,
insertionSort and mergeSort each end with a `complete` step whose array
snapshot is the input sorted ascending and whose sorted-index set is the full
range `0 .. n-1`. -/
theorem sorting_complete_sorted (arr : List Int) :
    (bubbleSort arr).getLast? =
      some { type := .complete,
             array := specSortedAscending arr,
             sorted := some (List.range arr.length) } ∧
    (insertionSort arr).getLast? =
      some { type := .complete,
             array := specSortedAscending arr,
             sorted := some (List.range arr.length) } ∧
    (mergeSort arr).getLast? =
      some { type := .complete,
             array := specSortedAscending arr,
             sorted := some (List.range arr.length) } := by
  have hspec_sorted : (specSortedAscending arr).Sorted (· ≤ ·) :=
    List.sorted_insertionSort _ arr
  have hspec_perm : (specSortedAscending arr).Perm arr :=
    List.perm_insertionSort _ arr
  refine ⟨?_, ?_, ?_⟩
  · have hb := bubbleSort_final arr
    rcases hE : bubbleOuter arr.length (arr.length - 1) 0 arr with ⟨fb, sb⟩
    rw [hE] at hb
    have hfb : fb = specSortedAscending arr :=
      List.eq_of_perm_of_sorted (hb.1.trans hspec_perm.symm) hb.2 hspec_sorted
    have hbs : bubbleSort arr = ({ type := .init, array := arr } : SortStep) ::
        (sb ++ [{ type := .complete, array := fb,
                  sorted := some (List.range arr.length) }]) := by
      simp only [bubbleSort, hE]
    rw [hbs, ← List.cons_append, List.getLast?_concat, hfb]
  · have hb := insertionSort_final arr
    rcases hE : insOuter arr.length (arr.length - 1) 1 arr with ⟨fb, sb⟩
    rw [hE] at hb
    have hfb : fb = specSortedAscending arr :=
      List.eq_of_perm_of_sorted (hb.1.trans hspec_perm.symm) hb.2 hspec_sorted
    have hbs : insertionSort arr =
        ({ type := .init, array := arr } : SortStep) ::
        (sb ++ [{ type := .complete, array := fb,
                  sorted := some (List.range arr.length) }]) := by
      simp only [insertionSort, hE]
    rw [hbs, ← List.cons_append, List.getLast?_concat, hfb]
  · have hb := mergeSort_final arr
    rcases hE : mergeSortHelper arr 0 ((arr.length : Int) - 1) 0 with ⟨fb, sb⟩
    rw [hE] at hb
    have hfb : fb = specSortedAscending arr :=
      List.eq_of_perm_of_sorted (hb.1.trans hspec_perm.symm) hb.2 hspec_sorted
    have hbs : mergeSort arr = ({ type := .init, array := arr } : SortStep) ::
        (sb ++ [{ type := .complete, array := fb,
                  sorted := some (List.range arr.length) }]) := by
      simp only [mergeSort, hE]
    rw [hbs, ← List.cons_append, List.getLast?_concat, hfb]

end ClaimOne

section PathOptimality

/-- Walks of a given length: `ReachIn n v` holds when some walk of exactly
`n` unit moves from the start, through in-grid non-wall cells, ends at `v`
(the start itself is unconstrained, as in the algorithms). -/
inductive ReachIn (rows cols : Int) (walls : Finset Pos) (start : Pos) :
    Int → Pos → Prop where
  | base : ReachIn rows cols walls start 0 start
  | step {n : Int} {u v : Pos} : ReachIn rows cols walls start n u →
      v ∈ getNeighbors u.row u.col rows cols → v ∉ walls →
      ReachIn rows cols walls start (n + 1) v

/-- `IsDist v m`: `m` is the length of a shortest walk from the start
to `v`. -/
def IsDist (rows cols : Int) (walls : Finset Pos) (start : Pos)
    (v : Pos) (m : Int) : Prop :=
  ReachIn rows cols walls start m v ∧
    ∀ n, ReachIn rows cols walls start n v → m ≤ n

theorem reachIn_nonneg {rows cols : Int} {walls : Finset Pos} {start : Pos}
    {n : Int} {v : Pos} (h : ReachIn rows cols walls start n v) : 0 ≤ n := by
  induction h with
  | base => exact le_refl 0
  | step _ _ _ ih => omega

theorem reachIn_eq_start {rows cols : Int} {walls : Finset Pos} {start : Pos}
    {n : Int} {v : Pos} (h : ReachIn rows cols walls start n v) (hz : n ≤ 0) :
    v = start := by
  cases h with
  | base => rfl
  | step h2 _ _ => exact absurd (reachIn_nonneg h2) (by omega)

theorem reachable_iff_reachIn {rows cols : Int} {walls : Finset Pos}
    {start v : Pos} :
    Reachable rows cols walls start v ↔
      ∃ n, ReachIn rows cols walls start n v := by
  constructor
  · intro h
    induction h with
    | base => exact ⟨0, ReachIn.base⟩
    | step _ hnb hw ih =>
        obtain ⟨n, hn⟩ := ih
        exact ⟨n + 1, ReachIn.step hn hnb hw⟩
  · rintro ⟨n, hn⟩
    induction hn with
    | base => exact Reachable.base
    | step _ hnb hw ih => exact Reachable.step ih hnb hw

theorem exists_isDist {rows cols : Int} {walls : Finset Pos} {start v : Pos}
    (h : ∃ n, ReachIn rows cols walls start n v) :
    ∃ m, IsDist rows cols walls start v m := by
  classical
  obtain ⟨n, hn⟩ := h
  have h0 : 0 ≤ n := reachIn_nonneg hn
  have hnat : ∃ k : Nat, ReachIn rows cols walls start (k : Int) v :=
    ⟨n.toNat, by rwa [Int.toNat_of_nonneg h0]⟩
  refine ⟨(Nat.find hnat : Int), Nat.find_spec hnat, ?_⟩
  intro m hm
  have hm0 : 0 ≤ m := reachIn_nonneg hm
  have hmt : ReachIn rows cols walls start ((m.toNat : Nat) : Int) v := by
    rwa [Int.toNat_of_nonneg hm0]
  have hfind : Nat.find hnat ≤ m.toNat := Nat.find_le hmt
  omega

theorem isDist_unique {rows cols : Int} {walls : Finset Pos} {start v : Pos}
    {m m' : Int} (h1 : IsDist rows cols walls start v m)
    (h2 : IsDist rows cols walls start v m') : m = m' :=
  le_antisymm (h1.2 _ h2.1) (h2.2 _ h1.1)

theorem isDist_nonneg {rows cols : Int} {walls : Finset Pos} {start v : Pos}
    {m : Int} (h : IsDist rows cols walls start v m) : 0 ≤ m :=
  reachIn_nonneg h.1

theorem isDist_start {rows cols : Int} {walls : Finset Pos} {start : Pos}
    {m : Int} (h : IsDist rows cols walls start start m) : m = 0 :=
  le_antisymm (h.2 0 ReachIn.base) (reachIn_nonneg h.1)

theorem manhattan_nonneg (a b : Pos) : 0 ≤ manhattanDistance a b :=
  add_nonneg (abs_nonneg _) (abs_nonneg _)

theorem manhattan_self (a : Pos) : manhattanDistance a a = 0 := by
  simp [manhattanDistance]

theorem manhattan_pos {a b : Pos} (h : a ≠ b) : 1 ≤ manhattanDistance a b := by
  obtain ⟨ar, ac⟩ := a
  obtain ⟨br, bc⟩ := b
  simp only [manhattanDistance, Int.abs_eq_natAbs]
  by_contra hc
  push_neg at hc
  have heq : ar = br ∧ ac = bc := by omega
  exact h (by rw [heq.1, heq.2])

/-- Consistency of the Manhattan heuristic: moving to a grid neighbor changes
it by at most one. -/
theorem manhattan_adj {rows cols : Int} {u v : Pos} (e : Pos)
    (h : v ∈ getNeighbors u.row u.col rows cols) :
    manhattanDistance u e ≤ manhattanDistance v e + 1 ∧
    manhattanDistance v e ≤ manhattanDistance u e + 1 := by
  simp only [getNeighbors, List.mem_filterMap] at h
  obtain ⟨d, hd, hdv⟩ := h
  by_cases hcond : 0 ≤ u.row + d.1 ∧ u.row + d.1 < rows ∧
      0 ≤ u.col + d.2 ∧ u.col + d.2 < cols
  · rw [if_pos hcond] at hdv
    have hv : v = ⟨u.row + d.1, u.col + d.2⟩ := (Option.some.inj hdv).symm
    subst hv
    simp only [List.mem_cons, List.mem_singleton, List.not_mem_nil, or_false] at hd
    simp only [manhattanDistance, Int.abs_eq_natAbs]
    rcases hd with rfl | rfl | rfl | rfl <;>
      (dsimp only) <;> constructor <;> omega
  · rw [if_neg hcond] at hdv
    exact absurd hdv (by simp)

theorem mapGet_mapSet_self {β : Type} (m : List (Pos × β)) (k : Pos) (v : β) :
    mapGet (mapSet m k v) k = some v := by
  simp [mapGet, mapSet]

theorem mapGet_mapSet_ne {β : Type} (m : List (Pos × β)) {k k' : Pos} (v : β)
    (h : k ≠ k') : mapGet (mapSet m k v) k' = mapGet m k' := by
  simp [mapGet, mapSet, h]

theorem pq_enqueue_sorted {α : Type} (q : PriorityQueue α) (e : α) (p : Int) :
    (PQ.enqueue q e p).values.Sorted byPriority :=
  List.sorted_insertionSort _ _

/-- Quantitative Dijkstra invariant: queue sorted; every recorded distance is
realized by a walk; every queue entry over-approximates its node's recorded
distance; visited nodes carry their exact shortest distance; unvisited nodes
with a recorded distance have a queue entry at least as good; the start is
pinned at distance 0. -/
def DijkOpt (rows cols : Int) (walls : Finset Pos) (start : Pos)
    (st : DijkstraState) : Prop :=
  st.pq.values.Sorted byPriority ∧
  (∀ v g, mapGet st.distances v = some g →
      ReachIn rows cols walls start g v) ∧
  (∀ e ∈ st.pq.values, ∃ g, mapGet st.distances e.1 = some g ∧ g ≤ e.2) ∧
  (∀ v ∈ st.visited, ∃ g, mapGet st.distances v = some g ∧
      IsDist rows cols walls start v g) ∧
  (∀ v, v ∉ st.visited → ∀ g, mapGet st.distances v = some g →
      ∃ e ∈ st.pq.values, e.1 = v ∧ e.2 ≤ g) ∧
  mapGet st.distances start = some 0

/-- The expanded-node guarantee: all of `u`'s non-wall unvisited neighbors
carry a recorded distance at most one more than `u`'s. -/
def DijkFrontierAt (rows cols : Int) (walls : Finset Pos) (st : DijkstraState)
    (u : Pos) : Prop :=
  ∀ v, v ∈ getNeighbors u.row u.col rows cols → v ∉ walls →
    v ∉ st.visited →
    ∃ g gu, mapGet st.distances v = some g ∧
      mapGet st.distances u = some gu ∧ g ≤ gu + 1

/-- The relaxation loop preserves `DijkOpt`, never touches visited nodes'
distances, only improves recorded distances, and leaves every processed
non-wall unvisited neighbor with a recorded distance at most
`currentDist + 1`. -/
theorem dijkstraRelax_opt (rows cols : Int) (walls : Finset Pos)
    (start current : Pos) (currentDist : Int) :
    ∀ (l : List Pos) (st : DijkstraState),
      DijkOpt rows cols walls start st →
      current ∈ st.visited →
      mapGet st.distances current = some currentDist →
      (∀ v ∈ l, v ∈ getNeighbors current.row current.col rows cols) →
      DijkOpt rows cols walls start
        (dijkstraRelax walls current currentDist l st) ∧
      (∀ v g, mapGet st.distances v = some g →
        ∃ g', mapGet (dijkstraRelax walls current currentDist l st).distances v =
          some g' ∧ g' ≤ g) ∧
      (∀ v ∈ st.visited,
        mapGet (dijkstraRelax walls current currentDist l st).distances v =
          mapGet st.distances v) ∧
      (∀ v ∈ l, v ∉ walls → v ∉ st.visited →
        ∃ g, mapGet (dijkstraRelax walls current currentDist l st).distances v =
          some g ∧ g ≤ currentDist + 1) := by
  intro l
  induction l with
  | nil =>
      intro st hopt hcur hcurd _
      have hid : dijkstraRelax walls current currentDist [] st = st := by
        simp only [dijkstraRelax]
      rw [hid]
      exact ⟨hopt, fun v g h => ⟨g, h, le_refl g⟩, fun v _ => rfl,
        fun v hv => absurd hv (List.not_mem_nil v)⟩
  | cons nb rest ih =>
      intro st hopt hcur hcurd hl
      by_cases hskip : nb ∈ walls ∨ nb ∈ st.visited
      · have hstep : dijkstraRelax walls current currentDist (nb :: rest) st =
            dijkstraRelax walls current currentDist rest st := by
          simp only [dijkstraRelax, if_pos hskip]
        rw [hstep]
        obtain ⟨o1, o2, o3, o4⟩ := ih st hopt hcur hcurd
          (fun v hv => hl v (List.mem_cons_of_mem _ hv))
        refine ⟨o1, o2, o3, ?_⟩
        intro v hv hw hvv
        rcases List.mem_cons.mp hv with rfl | hv'
        · rcases hskip with h | h
          · exact absurd h hw
          · exact absurd h hvv
        · exact o4 v hv' hw hvv
      · push_neg at hskip
        have hstep0 : dijkstraRelax walls current currentDist (nb :: rest) st =
            (let newDist := currentDist + 1
             let improves : Bool :=
               match mapGet st.distances nb with
               | none => true
               | some oldDist => decide (newDist < oldDist)
             if improves then
               dijkstraRelax walls current currentDist rest
                 { steps := st.steps ++
                     [{ type := .update, current := some current,
                        neighbor := some nb, distance := some newDist,
                        visited := some st.visited }],
                   distances := mapSet st.distances nb newDist,
                   previous := mapSet st.previous nb current,
                   visited := st.visited,
                   pq := PQ.enqueue st.pq nb newDist }
             else dijkstraRelax walls current currentDist rest st) := by
          simp only [dijkstraRelax,
            if_neg (by tauto : ¬ (nb ∈ walls ∨ nb ∈ st.visited))]
        by_cases himp : (match mapGet st.distances nb with
            | none => true
            | some oldDist => decide (currentDist + 1 < oldDist)) = true
        · set st1 : DijkstraState :=
            { steps := st.steps ++
                [{ type := .update, current := some current,
                   neighbor := some nb, distance := some (currentDist + 1),
                   visited := some st.visited }],
              distances := mapSet st.distances nb (currentDist + 1),
              previous := mapSet st.previous nb current,
              visited := st.visited,
              pq := PQ.enqueue st.pq nb (currentDist + 1) } with hst1
          have hstep : dijkstraRelax walls current currentDist (nb :: rest) st =
              dijkstraRelax walls current currentDist rest st1 := by
            rw [hstep0]
            simp only [if_pos himp, hst1]
          rw [hstep]
          have hvis1 : st1.visited = st.visited := by rw [hst1]
          have hnbvis : nb ∉ st.visited := hskip.2
          have hnbne_cur : nb ≠ current := fun h => hnbvis (h ▸ hcur)
          have himp' : mapGet st.distances nb = none ∨
              ∃ old, mapGet st.distances nb = some old ∧
                currentDist + 1 < old := by
            rcases hD : mapGet st.distances nb with _ | old
            · exact Or.inl rfl
            · right
              refine ⟨old, rfl, ?_⟩
              rw [hD] at himp
              simpa using himp
          have hreach_cur : ReachIn rows cols walls start currentDist current :=
            hopt.2.1 current currentDist hcurd
          have hreach_nb : ReachIn rows cols walls start (currentDist + 1) nb :=
            ReachIn.step hreach_cur (hl nb (List.mem_cons_self _ _)) hskip.1
          have hD1some : mapGet st1.distances nb = some (currentDist + 1) := by
            rw [hst1]
            exact mapGet_mapSet_self _ _ _
          have hD1ne : ∀ v, v ≠ nb →
              mapGet st1.distances v = mapGet st.distances v := by
            intro v hv
            rw [hst1]
            exact mapGet_mapSet_ne _ _ (Ne.symm hv)
          have hopt1 : DijkOpt rows cols walls start st1 := by
            refine ⟨?_, ?_, ?_, ?_, ?_, ?_⟩
            · rw [hst1]
              exact pq_enqueue_sorted _ _ _
            · intro v g hg
              by_cases hvnb : v = nb
              · subst hvnb
                rw [hD1some] at hg
                obtain rfl := Option.some.inj hg
                exact hreach_nb
              · rw [hD1ne v hvnb] at hg
                exact hopt.2.1 v g hg
            · intro e he
              rw [hst1] at he
              rcases PQ.mem_enqueue.mp he with h | h
              · obtain ⟨g, hg, hge⟩ := hopt.2.2.1 e h
                by_cases hvnb : e.1 = nb
                · refine ⟨currentDist + 1, by rw [hvnb]; exact hD1some, ?_⟩
                  rcases himp' with hnone | ⟨old, hold, hlt⟩
                  · rw [hvnb, hnone] at hg
                    exact absurd hg (by simp)
                  · rw [hvnb, hold] at hg
                    obtain rfl := Option.some.inj hg
                    omega
                · rw [hD1ne e.1 hvnb]
                  exact ⟨g, hg, hge⟩
              · subst h
                exact ⟨currentDist + 1, hD1some, le_refl _⟩
            · intro v hv
              rw [hvis1] at hv
              obtain ⟨g, hg, hdist⟩ := hopt.2.2.2.1 v hv
              have hvnb : v ≠ nb := fun h => hnbvis (h ▸ hv)
              exact ⟨g, by rw [hD1ne v hvnb]; exact hg, hdist⟩
            · intro v hvv g hg
              rw [hvis1] at hvv
              by_cases hvnb : v = nb
              · subst hvnb
                rw [hD1some] at hg
                obtain rfl := Option.some.inj hg
                refine ⟨(v, currentDist + 1), ?_, rfl, le_refl _⟩
                rw [hst1]
                exact PQ.mem_enqueue.mpr (Or.inr rfl)
              · rw [hD1ne v hvnb] at hg
                obtain ⟨e, he, he1, he2⟩ := hopt.2.2.2.2.1 v hvv g hg
                refine ⟨e, ?_, he1, he2⟩
                rw [hst1]
                exact PQ.mem_enqueue.mpr (Or.inl he)
            · by_cases hsnb : start = nb
              · exfalso
                rcases himp' with hnone | ⟨old, hold, hlt⟩
                · rw [← hsnb, hopt.2.2.2.2.2] at hnone
                  exact absurd hnone (by simp)
                · rw [← hsnb, hopt.2.2.2.2.2] at hold
                  obtain rfl := (Option.some.inj hold).symm
                  have := reachIn_nonneg hreach_cur
                  omega
              · rw [hD1ne start hsnb]
                exact hopt.2.2.2.2.2
          have hcur1 : current ∈ st1.visited := by
            rw [hvis1]
            exact hcur
          have hcurd1 : mapGet st1.distances current = some currentDist := by
            rw [hD1ne current (Ne.symm hnbne_cur)]
            exact hcurd
          obtain ⟨o1, o2, o3, o4⟩ := ih st1 hopt1 hcur1 hcurd1
            (fun v hv => hl v (List.mem_cons_of_mem _ hv))
          refine ⟨o1, ?_, ?_, ?_⟩
          · intro v g hg
            by_cases hvnb : v = nb
            · subst hvnb
              obtain ⟨g', hg', hle⟩ := o2 v (currentDist + 1) hD1some
              refine ⟨g', hg', ?_⟩
              rcases himp' with hnone | ⟨old, hold, hlt⟩
              · rw [hnone] at hg
                exact absurd hg (by simp)
              · rw [hold] at hg
                obtain rfl := Option.some.inj hg
                omega
            · obtain ⟨g', hg', hle⟩ := o2 v g (by rw [hD1ne v hvnb]; exact hg)
              exact ⟨g', hg', hle⟩
          · intro v hv
            have hvnb : v ≠ nb := fun h => hnbvis (h ▸ hv)
            rw [o3 v (by rw [hvis1]; exact hv), hD1ne v hvnb]
          · intro v hv hw hvv
            rcases List.mem_cons.mp hv with rfl | hv'
            · exact o2 v (currentDist + 1) hD1some
            · exact o4 v hv' hw (by rw [hvis1]; exact hvv)
        · have hstep : dijkstraRelax walls current currentDist (nb :: rest) st =
              dijkstraRelax walls current currentDist rest st := by
            rw [hstep0]
            simp only [if_neg himp]
          rw [hstep]
          obtain ⟨o1, o2, o3, o4⟩ := ih st hopt hcur hcurd
            (fun v hv => hl v (List.mem_cons_of_mem _ hv))
          refine ⟨o1, o2, o3, ?_⟩
          intro v hv hw hvv
          rcases List.mem_cons.mp hv with rfl | hv'
          · have hex : ∃ old, mapGet st.distances v = some old ∧
                old ≤ currentDist + 1 := by
              rcases hD : mapGet st.distances v with _ | old
              · exact absurd (by rw [hD] : (match mapGet st.distances v with
                  | none => true
                  | some oldDist => decide (currentDist + 1 < oldDist)) = true) himp
              · refine ⟨old, rfl, ?_⟩
                rw [hD] at himp
                simpa using himp
            obtain ⟨old, hold, holdle⟩ := hex
            obtain ⟨g', hg', hle⟩ := o2 v old hold
            exact ⟨g', hg', le_trans hle holdle⟩
          · exact o4 v hv' hw hvv

/-- Frontier lemma: while `v` is reachable in `n` moves and unvisited, the
queue holds an entry of priority at most `n`. -/
theorem dijk_frontier (rows cols : Int) (walls : Finset Pos) (start : Pos)
    (st : DijkstraState) (hopt : DijkOpt rows cols walls start st)
    (hfr : ∀ u ∈ st.visited, DijkFrontierAt rows cols walls st u) :
    ∀ (n : Int) (v : Pos), ReachIn rows cols walls start n v →
      v ∉ st.visited → ∃ e ∈ st.pq.values, e.2 ≤ n := by
  intro n v hr
  induction hr with
  | base =>
      intro hv
      obtain ⟨e, he, he1, he2⟩ :=
        hopt.2.2.2.2.1 start hv 0 hopt.2.2.2.2.2
      exact ⟨e, he, he2⟩
  | step hu hnb hw ih =>
      rename_i m u v2
      intro hv
      by_cases huvis : u ∈ st.visited
      · obtain ⟨gu, hgu, hdistu⟩ := hopt.2.2.2.1 u huvis
        have hgun : gu ≤ m := hdistu.2 m hu
        obtain ⟨g, gu', hgv, hgu', hle⟩ := hfr u huvis v2 hnb hw hv
        have hgu'eq : gu' = gu := by
          rw [hgu] at hgu'
          exact (Option.some.inj hgu').symm
        obtain ⟨e, he, he1, he2⟩ := hopt.2.2.2.2.1 v2 hv g hgv
        refine ⟨e, he, ?_⟩
        omega
      · obtain ⟨e, he, he2⟩ := ih huvis
        exact ⟨e, he, by omega⟩

/-- Popping an unvisited node from the queue: its recorded distance is the
true shortest distance and equals the popped priority, and every strictly
closer node is already visited. -/
theorem dijk_pop (rows cols : Int) (walls : Finset Pos) (start : Pos)
    (st : DijkstraState) (hopt : DijkOpt rows cols walls start st)
    (hfr : ∀ u ∈ st.visited, DijkFrontierAt rows cols walls st u)
    (current : Pos) (p : Int) (rest : List (Pos × Int))
    (hpq : st.pq.values = (current, p) :: rest)
    (hvis : current ∉ st.visited) :
    mapGet st.distances current = some p ∧
    IsDist rows cols walls start current p ∧
    (∀ v m, IsDist rows cols walls start v m → m < p → v ∈ st.visited) := by
  have hmem : (current, p) ∈ st.pq.values := by
    rw [hpq]
    exact List.mem_cons_self _ _
  obtain ⟨g, hg, hgp⟩ := hopt.2.2.1 (current, p) hmem
  have hreach : ReachIn rows cols walls start g current := hopt.2.1 current g hg
  obtain ⟨du, hdu⟩ := exists_isDist ⟨g, hreach⟩
  have hdug : du ≤ g := hdu.2 g hreach
  obtain ⟨e, he, he2⟩ := dijk_frontier rows cols walls start st hopt hfr du
    current hdu.1 hvis
  have hmin : p ≤ e.2 := by
    have hsorted := hopt.1
    rw [hpq] at hsorted he
    exact sorted_head_min hsorted e he
  have hpeq : p = du := by omega
  have hgeq : g = p := by omega
  constructor
  · rw [hgeq] at hg
    exact hg
  refine ⟨hpeq ▸ hdu, ?_⟩
  intro v m hm hmp
  by_contra hvv
  obtain ⟨e2, he2m, he22⟩ := dijk_frontier rows cols walls start st hopt hfr m
    v hm.1 hvv
  have hmin2 : p ≤ e2.2 := by
    have hsorted := hopt.1
    rw [hpq] at hsorted he2m
    exact sorted_head_min hsorted e2 he2m
  omega

end PathOptimality

end AVP
